import Mathlib

/-!
# Binned particle simulation with a static worker partition (`pthreads.cpp`)

A shallow embedding of `src/pthreads.cpp`.

* C `int` values are `Int`; C `double` values are exact rationals `ℚ`. The range
  computation of the static partition is also given in 32-bit arithmetic (`wrap`,
  `Machine.first`, `Machine.last`), where the range of `int` decides the result.
* A `particle_t*` is the index of the particle in the global `particles` array.
* An access outside an array or container (undefined behaviour in C++) makes the
  embedded operation return `none`.
* A `double` that is not a number (the quotient of a division by zero) is `none`.
* The barrier-separated phases of `thread_routine` are run one worker after the
  other, in the order of the worker ids (`run`), or loop body by loop body in the
  order of a schedule of the workers (`scheduled_run`).
* `apply_force`, `move`, `NSTEPS` and `SAVEFREQ` come from `common.h`/`common.cpp`,
  which are outside the source tree; they are parameters.
-/

namespace Pthreads

/-! ## Data model -/

/-- The constant `cutoff` (`#define cutoff 0.01`). -/
def cutoff : ℚ := 1 / 100

/-- The record `particle_t`: position, velocity, acceleration and `idx_bin`, the index of the
particle inside the container of its bin. -/
structure particle_t where
  x : ℚ
  y : ℚ
  vx : ℚ
  vy : ℚ
  ax : ℚ
  ay : ℚ
  idx_bin : Int
  deriving DecidableEq

/-- The globals `particles` (with `n = particles.length`) and `bins`
(with `numbins = bins.length`). -/
structure World where
  particles : List particle_t
  bins : List (List Nat)
  deriving DecidableEq

/-- The container `bins[b]`. -/
def cellOf (w : World) (b : Nat) : List Nat := (w.bins[b]?).getD []

/-- The three diagnostic counters handed to `apply_force` by address. -/
structure Diag where
  dmin : ℚ
  davg : ℚ
  navg : Int
  deriving DecidableEq

/-- The local variables of `thread_routine`. -/
structure Locals extends Diag where
  nabsavg : Int
  absmin : ℚ
  absavg : ℚ
  deriving DecidableEq

/-- What `move` writes: the new position and velocity. -/
structure Motion where
  x : ℚ
  y : ℚ
  vx : ℚ
  vy : ℚ

/-- Modelled from the spec: the collaborators `apply_force` and `move` of `common.cpp`, which
are not in the source tree. `apply_force p neighbor diag` is a "pure accumulation into `p`'s
acceleration plus diagnostic counters": it yields the new `(ax, ay)` of `p` and the new
counters. `move` "updates position/velocity from acceleration": it yields the new position
and velocity. -/
structure Collab where
  apply_force : particle_t → particle_t → Diag → (ℚ × ℚ) × Diag
  move : particle_t → Motion

/-- The globals fixed by `main` before the workers start, and the constants `NSTEPS` and
`SAVEFREQ` of `common.h`. `fsave` tells whether the snapshot file is open. -/
structure Config where
  n_threads : Int
  bpr : Int
  no_output : Int
  fsave : Bool
  NSTEPS : Int
  SAVEFREQ : Int

/-- The state of the sequentialised run: the shared world, the locals of every worker
(indexed by worker id) and the log of `save` calls as pairs `(thread_id, step)`. -/
structure Sim where
  world : World
  locals : List Locals
  saves : List (Int × Int)

/-! ## Bin grid and bin store -/

/-- The function `binNum`. -/
def binNum (p : particle_t) (bpr : Int) : Int :=
  ⌊p.x / cutoff⌋ + bpr * ⌊p.y / cutoff⌋

/-- The grid width `bpr = ceil(size/cutoff)` computed by `main`, where the domain size
`size = sqrt(density*n)` is a parameter. -/
def grid_bpr (size : ℚ) : Int := ⌈size / cutoff⌉

/-- The function `bin_add`: `push_back` then `idx_bin = size() - 1`. -/
def bin_add (w : World) (bin_num : Int) (particle : Nat) : Option World :=
  if 0 ≤ bin_num ∧ bin_num < w.bins.length then
    match w.particles[particle]? with
    | none => none
    | some q =>
      let cell := cellOf w bin_num.toNat ++ [particle]
      some { particles := w.particles.set particle { q with idx_bin := (cell.length : Int) - 1 },
             bins := w.bins.set bin_num.toNat cell }
  else none

/-- The function `bin_remove`: swap the particle with the last element of the container and
`pop_back`. The write `last->idx_bin = particle->idx_bin` leaves `particle->idx_bin` as it was
(also when `last` is `particle`), so the index read afterwards is the one read before. -/
def bin_remove (w : World) (bin_num : Int) (particle : Nat) : Option World :=
  if 0 ≤ bin_num ∧ bin_num < w.bins.length then
    let cell := cellOf w bin_num.toNat
    match cell[cell.length - 1]?, w.particles[particle]? with
    | some last, some q =>
      match w.particles[last]? with
      | none => none
      | some ql =>
        let cell1 := cell.set (cell.length - 1) particle
        if 0 ≤ q.idx_bin ∧ q.idx_bin < cell1.length then
          let cell2 := cell1.set q.idx_bin.toNat last
          some { particles := w.particles.set last { ql with idx_bin := q.idx_bin },
                 bins := w.bins.set bin_num.toNat cell2.dropLast }
        else none
    | _, _ => none
  else none

/-! ## Loops -/

/-- The values taken by `i` in `for (int i = lo; i < hi; i++)`. -/
def loopLt (lo hi : Int) : List Int :=
  (List.range (hi - lo).toNat).map (fun (k : Nat) => lo + (k : Int))

/-- The values taken by `i` in `for (int i = lo; i <= hi; i++)`. -/
def loopLe (lo hi : Int) : List Int := loopLt lo (hi + 1)

/-- The initial binning of `main`: `numbins = bpr*bpr` empty containers, then
`bin_add(binNum(particles[i], bpr), particles[i])` for `i = 0 .. n-1`. -/
def init_bins (particles : List particle_t) (bpr : Int) : Option World :=
  (loopLt 0 (particles.length : Int)).foldlM
    (fun (w : World) (i : Int) =>
      if 0 ≤ i then
        match w.particles[i.toNat]? with
        | none => none
        | some q => bin_add w (binNum q bpr) i.toNat
      else none)
    { particles := particles, bins := List.replicate (bpr * bpr).toNat [] }

/-! ## The static partition -/

/-- The local `particles_per_thread`, in exact integer arithmetic; the `int` computation is
`Machine.particles_per_thread`, which agrees with it when `n + n_threads - 1` is an `int`. -/
def particles_per_thread (n n_threads : Int) : Int := (n + n_threads - 1).tdiv n_threads

/-- The local `first`, in exact integer arithmetic (`Machine.first` in `int` arithmetic). -/
def first (n n_threads thread_id : Int) : Int :=
  min (thread_id * particles_per_thread n n_threads) n

/-- The local `last`, in exact integer arithmetic (`Machine.last` in `int` arithmetic). -/
def last (n n_threads thread_id : Int) : Int :=
  min ((thread_id + 1) * particles_per_thread n n_threads) n

/-! ## Force phase -/

/-- The bin ids `nbin = cbin + i + bpr*j` in the order of the clipped double loop. -/
def neighbour_bins (cbin bpr : Int) : List Int :=
  let lowj : Int := if cbin < bpr then 0 else -1
  let lowi : Int := if cbin.tmod bpr = 0 then 0 else -1
  let highi : Int := if cbin.tmod bpr = bpr - 1 then 0 else 1
  let highj : Int := if cbin ≥ bpr * (bpr - 1) then 0 else 1
  (loopLe lowi highi).flatMap fun i => (loopLe lowj highj).map fun j => cbin + i + bpr * j

/-- One call `apply_force(particles[p], *bins[nbin][k], &dmin, &davg, &navg)`, where `q` is
the pointer `bins[nbin][k]`. -/
def force_pair (K : Collab) (p : Nat) (s : World × Diag) (q : Nat) : Option (World × Diag) :=
  match s.1.particles[p]?, s.1.particles[q]? with
  | some pp, some pq =>
    let r := K.apply_force pp pq s.2
    some ({ s.1 with particles := s.1.particles.set p { pp with ax := r.1.1, ay := r.1.2 } }, r.2)
  | _, _ => none

/-- The loop over the particles of the bin `nbin`. -/
def force_bin (K : Collab) (p : Nat) (s : World × Diag) (nbin : Int) : Option (World × Diag) :=
  if 0 ≤ nbin ∧ nbin < s.1.bins.length then
    (cellOf s.1 nbin.toNat).foldlM (force_pair K p) s
  else none

/-- The body of the force loop for the particle index `p`: clear the acceleration, then visit
the neighbour bins. -/
def force_one (c : Config) (K : Collab) (s : World × Diag) (p : Int) : Option (World × Diag) :=
  if 0 ≤ p then
    match s.1.particles[p.toNat]? with
    | none => none
    | some q =>
      let q0 := { q with ax := 0, ay := 0 }
      let w0 := { s.1 with particles := s.1.particles.set p.toNat q0 }
      (neighbour_bins (binNum q0 c.bpr) c.bpr).foldlM (force_bin K p.toNat) (w0, s.2)
  else none

/-- The force phase of the worker `thread_id`, up to the first barrier. -/
def force_phase (c : Config) (K : Collab) (s : Sim) (thread_id : Int) : Option Sim :=
  if 0 ≤ thread_id then
    match s.locals[thread_id.toNat]? with
    | none => none
    | some loc =>
      let n : Int := s.world.particles.length
      match (loopLt (first n c.n_threads thread_id) (last n c.n_threads thread_id)).foldlM
          (force_one c K) (s.world, { dmin := 1, davg := 0, navg := 0 }) with
      | none => none
      | some (w, d) =>
        some { s with world := w, locals := s.locals.set thread_id.toNat { loc with toDiag := d } }
  else none

/-! ## Statistics, migration and snapshots -/

/-- The statistics block that follows the first barrier. -/
def stats_update (c : Config) (loc : Locals) : Locals :=
  if c.no_output = 0 then
    let loc1 :=
      if loc.navg ≠ 0 then
        { loc with absavg := loc.absavg + loc.davg / loc.navg, nabsavg := loc.nabsavg + 1 }
      else loc
    if loc1.dmin < loc1.absmin then { loc1 with absmin := loc1.dmin } else loc1
  else loc

/-- The call `move(particles[p])` on a particle record. -/
def move (K : Collab) (q : particle_t) : particle_t :=
  { q with x := (K.move q).x, y := (K.move q).y, vx := (K.move q).vx, vy := (K.move q).vy }

/-- The body of the migration loop for the particle index `p`. -/
def migrate_one (c : Config) (K : Collab) (w : World) (p : Int) : Option World :=
  if 0 ≤ p then
    match w.particles[p.toNat]? with
    | none => none
    | some q =>
      let old_bin_num := binNum q c.bpr
      let w1 : World := { w with particles := w.particles.set p.toNat (move K q) }
      let new_bin_num := binNum (move K q) c.bpr
      if old_bin_num ≠ new_bin_num then
        match bin_remove w1 old_bin_num p.toNat with
        | none => none
        | some w2 => bin_add w2 new_bin_num p.toNat
      else some w1
  else none

/-- The migration loop of the worker `thread_id` over its range `[first, last)`. -/
def migrate_loop (c : Config) (K : Collab) (w : World) (thread_id : Int) : Option World :=
  let n : Int := w.particles.length
  (loopLt (first n c.n_threads thread_id) (last n c.n_threads thread_id)).foldlM
    (migrate_one c K) w

/-- The part of a step between the two barriers for the worker `thread_id`: the statistics
block and the migration loop. -/
def migrate_phase (c : Config) (K : Collab) (s : Sim) (thread_id : Int) : Option Sim :=
  if 0 ≤ thread_id then
    match s.locals[thread_id.toNat]? with
    | none => none
    | some loc =>
      match migrate_loop c K s.world thread_id with
      | none => none
      | some w =>
        some { s with world := w, locals := s.locals.set thread_id.toNat (stats_update c loc) }
  else none

/-- The snapshot block after the second barrier for the worker `thread_id` at step `step`. -/
def save_phase (c : Config) (step : Int) (s : Sim) (thread_id : Int) : Option Sim :=
  if c.no_output = 0 then
    if thread_id = 0 ∧ c.fsave = true ∧ step.tmod c.SAVEFREQ = 0 then
      some { s with saves := s.saves ++ [(thread_id, step)] }
    else some s
  else some s

/-! ## The step loop -/

/-- The worker ids `0 .. n_threads-1`. -/
def workers (c : Config) : List Int := loopLt 0 c.n_threads

/-- One iteration of the step loop for all workers: force phase, barrier, statistics and
migration, barrier, snapshot. -/
def sim_step (c : Config) (K : Collab) (s : Sim) (step : Int) : Option Sim :=
  match (workers c).foldlM (force_phase c K) s with
  | none => none
  | some s1 =>
    match (workers c).foldlM (migrate_phase c K) s1 with
    | none => none
    | some s2 => (workers c).foldlM (save_phase c step) s2

/-- The step loop `for (step = 0; step < NSTEPS; step++)` of all workers. -/
def step_loop (c : Config) (K : Collab) (s : Sim) : Option Sim :=
  (loopLt 0 c.NSTEPS).foldlM (sim_step c K) s

/-- The locals of a worker when it enters the step loop (`nabsavg = 0`, `absmin = 1.0`,
`absavg = 0.0`; the other three are assigned at the start of every step). -/
def init_locals : Locals :=
  { dmin := 0, davg := 0, navg := 0, nabsavg := 0, absmin := 1, absavg := 0 }

/-- The state in which the workers start: the bins populated by `main`, fresh locals, no
snapshot written. -/
def init_sim (c : Config) (particles : List particle_t) : Option Sim :=
  match init_bins particles c.bpr with
  | none => none
  | some w =>
    some { world := w, locals := List.replicate c.n_threads.toNat init_locals, saves := [] }

/-- The whole run: initial binning, then the step loop. -/
def run (c : Config) (K : Collab) (particles : List particle_t) : Option Sim :=
  match init_sim c particles with
  | none => none
  | some s => step_loop c K s

/-! ## Invariants of the bin store -/

/-- Slot consistency: the particle stored at index `k` of a bin has `idx_bin = k`. -/
def slot_consistent (w : World) : Prop :=
  ∀ (b k q : Nat), (cellOf w b)[k]? = some q →
    ∃ pq, w.particles[q]? = some pq ∧ pq.idx_bin = (k : Int)

/-- No particle is stored in two bins. -/
def one_cell (w : World) : Prop :=
  ∀ (b b' k k' q : Nat), (cellOf w b)[k]? = some q → (cellOf w b')[k']? = some q → b = b'

/-- Membership consistency: every particle is stored in exactly one bin, and the id of that
bin is `binNum` of the particle. -/
def membership_consistent (w : World) (bpr : Int) : Prop :=
  ∀ (q : Nat) (pq : particle_t), w.particles[q]? = some pq →
    ∃ b : Nat, q ∈ cellOf w b ∧ (∀ b' : Nat, q ∈ cellOf w b' → b' = b) ∧
      (b : Int) = binNum pq bpr

/-- Conservation: the bin sizes add up to the particle count `n`, and every particle occurs
exactly once in the bins taken together. -/
def conserved (w : World) : Prop :=
  (w.bins.map List.length).sum = w.particles.length ∧
    ∀ q, q < w.particles.length → w.bins.flatten.count q = 1

/-- The cell id of a particle record is a bin of the `bpr` x `bpr` grid. -/
def in_grid (q : particle_t) (bpr : Int) : Prop :=
  0 ≤ binNum q bpr ∧ binNum q bpr < bpr * bpr

/-- The bin store holds exactly the particles located by `loc`: a particle `q` with
`loc q = some b` is stored in bin `b` at index `idx_bin`, once, and a particle with
`loc q = none` is stored nowhere. -/
def Stored (loc : Nat → Option Int) (w : World) : Prop :=
  (∀ (b k q : Nat), (cellOf w b)[k]? = some q →
    loc q = some (b : Int) ∧ ∃ pq, w.particles[q]? = some pq ∧ pq.idx_bin = (k : Int)) ∧
  (∀ (q : Nat) (bn : Int), loc q = some bn →
    ∃ pq, w.particles[q]? = some pq ∧ 0 ≤ bn ∧ 0 ≤ pq.idx_bin ∧
      (cellOf w bn.toNat)[pq.idx_bin.toNat]? = some q)

/-- The cell id of every particle of the world, computed from its position. -/
def cell_ids (w : World) (bpr : Int) : Nat → Option Int :=
  fun q => (w.particles[q]?).map (fun pq => binNum pq bpr)

/-- The bin store agrees with the positions: every particle is stored in the bin `binNum`
gives for it, at index `idx_bin`, and nothing else is stored. -/
def consistent (w : World) (bpr : Int) : Prop := Stored (cell_ids w bpr) w

/-- The invariant of the world at the barriers: the bin store agrees with the positions, there
are `bpr * bpr` bins and `n` particles. -/
def world_ok (bpr : Int) (n : Nat) (w : World) : Prop :=
  consistent w bpr ∧ (w.bins.length : Int) = bpr * bpr ∧ w.particles.length = n

/-- The steps at which a snapshot is due: the `step` of the step loop with
`step % SAVEFREQ == 0`. -/
def save_steps (c : Config) : List Int :=
  (loopLt 0 c.NSTEPS).filter (fun step => decide (step.tmod c.SAVEFREQ = 0))

/-- The invariant of the run at the barriers: the world is in order and every worker has its
locals. -/
def sim_ok (c : Config) (n : Nat) (s : Sim) : Prop :=
  world_ok c.bpr n s.world ∧ s.locals.length = c.n_threads.toNat

/-- The integration collaborator keeps the particles in the grid: a particle whose cell id is
a bin of the grid has, after `move`, a cell id that is a bin of the grid. -/
def move_in_grid (K : Collab) (bpr : Int) : Prop :=
  ∀ q : particle_t, in_grid q bpr → in_grid (move K q) bpr

/-- The `save` calls made in the given steps: worker 0 saves at a step when diagnostics are
enabled, the snapshot file is open and `step % SAVEFREQ == 0`. -/
def save_log (c : Config) (steps : List Int) : List (Int × Int) :=
  (steps.filter (fun step =>
    decide (1 ≤ c.n_threads ∧ c.no_output = 0 ∧ c.fsave = true ∧
      step.tmod c.SAVEFREQ = 0))).map (fun step => ((0 : Int), step))

/-- The world in which the migration loop calls `bin_remove` and `bin_add` for the particle
index `p`: the record of the particle has been replaced by the result `q'` of `move`. -/
def after_move (w : World) (p : Int) (q' : particle_t) : World :=
  { w with particles := w.particles.set p.toNat q' }

/-- The particle indices `first .. last-1` that the worker `thread_id` owns, in the order of
its loops. -/
def owned (c : Config) (w : World) (thread_id : Int) : List Int :=
  loopLt (first (w.particles.length : Int) c.n_threads thread_id)
    (last (w.particles.length : Int) c.n_threads thread_id)

/-! ## The merge of the statistics -/

/-- The globals `gabsmin` and `gabsavg`. A `double` that is not a number, which is what a
division by zero leaves, is `none`. -/
structure Globals where
  gabsmin : ℚ
  gabsavg : Option ℚ
  deriving DecidableEq

/-- The initial values `gabsmin = 1.0` and `gabsavg = 0.0`. -/
def init_globals : Globals := { gabsmin := 1, gabsavg := some 0 }

/-- The local `absavg` after `absavg /= nabsavg`: with `nabsavg = 0` the quotient is not a
number. -/
def worker_average (loc : Locals) : Option ℚ :=
  if loc.nabsavg = 0 then none else some (loc.absavg / loc.nabsavg)

/-- The block after the step loop in which a worker merges its statistics into the globals,
under the mutex: `absavg /= nabsavg; gabsavg += absavg; if (absmin < gabsmin) gabsmin = absmin`. -/
def merge (c : Config) (g : Globals) (loc : Locals) : Globals :=
  if c.no_output = 0 then
    { gabsavg :=
        match g.gabsavg, worker_average loc with
        | some a, some b => some (a + b)
        | _, _ => none,
      gabsmin := if loc.absmin < g.gabsmin then loc.absmin else g.gabsmin }
  else g

/-- The globals after the workers with the locals `ls` have merged, in the order of `ls`. -/
def merge_all (c : Config) (ls : List Locals) : Globals := ls.foldl (merge c) init_globals

/-- The globals that `main` prints: `gabsavg /= (n_threads*1.0)` when `-no` is absent. -/
def report (c : Config) (g : Globals) : Globals :=
  if c.no_output = 0 then
    { g with gabsavg :=
        if c.n_threads = 0 then none else g.gabsavg.map (fun a => a / (c.n_threads : ℚ)) }
  else g

/-- The whole program: the run of the workers, their merges in the order of the worker ids,
and the report of `main`. -/
def program (c : Config) (K : Collab) (particles : List particle_t) : Option (Sim × Globals) :=
  match run c K particles with
  | none => none
  | some s => some (s, report c (merge_all c s.locals))

/-- The value of `dmin` of the worker `t` at the first barrier of the step `step`, `1.0` if
the run does not get there. -/
def dmin_at (c : Config) (K : Collab) (particles : List particle_t) (t : Int) (step : Int) : ℚ :=
  match run { c with NSTEPS := step + 1 } K particles with
  | none => 1
  | some s =>
    match s.locals[t.toNat]? with
    | none => 1
    | some loc => loc.dmin

/-- What the simulation computes, as opposed to what it reports: the particles and the bins,
and the counters `dmin`, `davg`, `navg` of every worker. -/
def dynamics (s : Sim) : World × List Diag := (s.world, s.locals.map (fun l => l.toDiag))

/-! ## The sequential reference -/

/-- The force loop of a run with one worker: all particles `0 .. n-1` in the order of their
indices. -/
def sequential_force (c : Config) (K : Collab) (w : World) : Option World :=
  ((loopLt 0 (w.particles.length : Int)).foldlM (force_one c K)
    (w, { dmin := 1, davg := 0, navg := 0 })).map Prod.fst

/-- The migration loop of a run with one worker: all particles `0 .. n-1` in the order of
their indices. -/
def sequential_migrate (c : Config) (K : Collab) (w : World) : Option World :=
  (loopLt 0 (w.particles.length : Int)).foldlM (migrate_one c K) w

/-- One step of the sequential run on the particles and bins: the force loop, then the
migration loop. -/
def sequential_step (c : Config) (K : Collab) (w : World) : Option World :=
  (sequential_force c K w).bind (sequential_migrate c K)

/-- The force collaborator computes the acceleration from the two particles alone: the
diagnostic counters it is handed do not enter it. -/
def force_ignores_counters (K : Collab) : Prop :=
  ∀ (p q : particle_t) (d d' : Diag), (K.apply_force p q d).1 = (K.apply_force p q d').1

/-- The sequential run on the particles and bins: the initial binning, then `NSTEPS`
sequential steps. -/
def sequential_run (c : Config) (K : Collab) (particles : List particle_t) : Option World :=
  (init_bins particles c.bpr).bind
    (fun w => (loopLt 0 c.NSTEPS).foldlM (fun u _ => sequential_step c K u) w)

/-- The counters `dmin`, `davg`, `navg` of the worker `t` at the first barrier of the step
`step`; the fresh counters if the run does not get there. -/
def diag_at (c : Config) (K : Collab) (particles : List particle_t) (t : Int) (step : Int) :
    Diag :=
  match run { c with NSTEPS := step + 1 } K particles with
  | none => { dmin := 1, davg := 0, navg := 0 }
  | some s =>
    match s.locals[t.toNat]? with
    | none => { dmin := 1, davg := 0, navg := 0 }
    | some loc => loc.toDiag

/-- The steps before `k` in which the worker `t` counted an interaction (`navg` not zero). -/
def counted_steps (c : Config) (K : Collab) (particles : List particle_t) (t : Int) (k : Int) :
    List Int :=
  (loopLt 0 k).filter (fun j => decide ((diag_at c K particles t j).navg ≠ 0))

/-- The average `davg/navg` of the worker `t` in the step `j`. -/
def step_average (c : Config) (K : Collab) (particles : List particle_t) (t : Int) (j : Int) : ℚ :=
  (diag_at c K particles t j).davg / ((diag_at c K particles t j).navg : ℚ)

/-! ## The static partition in `int` arithmetic -/

/-- The largest value of an `int` (32 bits, two's complement). -/
def INT_MAX : Int := 2147483647

/-- The value that an `int` holds when the exact result of an operation is `x`: `x` reduced
modulo `2^32` into the range `-2^31 .. 2^31-1`. (An overflow of a signed operation, which
the language leaves undefined, wraps around on a two's complement machine.) -/
def wrap (x : Int) : Int := (x + 2147483648) % 4294967296 - 2147483648

/-- The local `particles_per_thread` as `int` arithmetic computes it: every intermediate
result of `(n + n_threads - 1) / n_threads` is an `int`. -/
def Machine.particles_per_thread (n n_threads : Int) : Int :=
  wrap ((wrap (wrap (n + n_threads) - 1)).tdiv n_threads)

/-- The local `first` as `int` arithmetic computes it. -/
def Machine.first (n n_threads thread_id : Int) : Int :=
  min (wrap (thread_id * Machine.particles_per_thread n n_threads)) n

/-- The local `last` as `int` arithmetic computes it. -/
def Machine.last (n n_threads thread_id : Int) : Int :=
  min (wrap (wrap (thread_id + 1) * Machine.particles_per_thread n n_threads)) n

/-! ## The step loop under a schedule -/

/-- The loop bodies of one phase of a step, as pairs `(thread_id, p)`: every worker runs the
body of its loop `for (p = first; p < last; p++)` once for every `p` of its range, which it
computes in `int` arithmetic. -/
def bodies (c : Config) (n : Int) : List (Int × Int) :=
  (workers c).flatMap (fun t =>
    (loopLt (Machine.first n c.n_threads t) (Machine.last n c.n_threads t)).map
      (fun p => (t, p)))

/-- A schedule of the workers: for every step, the order in which the bodies of the force
loops of all workers are executed before the first barrier, and the order in which the bodies
of their migration loops are executed before the second barrier. A loop body is executed as
a whole: the workers alternate between loop bodies. -/
structure Schedule where
  force : Int → List (Int × Int)
  migrate : Int → List (Int × Int)

/-- A schedule executes every loop body of every worker once in each phase of each step.
Every interleaving of the loops of the workers, body by body, is such a schedule. -/
def fair (c : Config) (n : Int) (σ : Schedule) : Prop :=
  ∀ step : Int, (σ.force step).Perm (bodies c n) ∧ (σ.migrate step).Perm (bodies c n)

/-- The assignments `dmin = 1.0; navg = 0; davg = 0.0` with which every worker starts a
step. -/
def reset_counters (s : Sim) : Sim :=
  { s with locals := s.locals.map (fun l => { l with dmin := 1, davg := 0, navg := 0 }) }

/-- One body of the force loop, run by the worker `e.1` for the particle index `e.2` with the
counters of that worker. -/
def force_body (c : Config) (K : Collab) (s : Sim) (e : Int × Int) : Option Sim :=
  if 0 ≤ e.1 then
    match s.locals[e.1.toNat]? with
    | none => none
    | some loc =>
      match force_one c K (s.world, loc.toDiag) e.2 with
      | none => none
      | some (w, d) =>
        some { s with world := w, locals := s.locals.set e.1.toNat { loc with toDiag := d } }
  else none

/-- The statistics block of every worker, after the first barrier. -/
def stats_all (c : Config) (s : Sim) : Sim :=
  { s with locals := s.locals.map (stats_update c) }

/-- One body of the migration loop, run by the worker `e.1` for the particle index `e.2`. -/
def migrate_body (c : Config) (K : Collab) (s : Sim) (e : Int × Int) : Option Sim :=
  match migrate_one c K s.world e.2 with
  | none => none
  | some w => some { s with world := w }

/-- One iteration of the step loop of all workers under the schedule `σ`: the force bodies in
the order of the schedule, barrier, the statistics blocks, the migration bodies in the order
of the schedule, barrier, snapshot. -/
def scheduled_step (c : Config) (K : Collab) (σ : Schedule) (s : Sim) (step : Int) :
    Option Sim :=
  match (σ.force step).foldlM (force_body c K) (reset_counters s) with
  | none => none
  | some s1 =>
    match (σ.migrate step).foldlM (migrate_body c K) (stats_all c s1) with
    | none => none
    | some s2 => (workers c).foldlM (save_phase c step) s2

/-- The whole run under the schedule `σ`: initial binning, then the step loop. -/
def scheduled_run (c : Config) (K : Collab) (σ : Schedule) (particles : List particle_t) :
    Option Sim :=
  match init_sim c particles with
  | none => none
  | some s => (loopLt 0 c.NSTEPS).foldlM (scheduled_step c K σ) s

/-- The kinematic state of a particle: position, velocity and acceleration, that is every
field but `idx_bin`. -/
def kinematics (q : particle_t) : ℚ × ℚ × ℚ × ℚ × ℚ × ℚ := (q.x, q.y, q.vx, q.vy, q.ax, q.ay)

/-- Two worlds hold the same physics: every particle has the same position, velocity and
acceleration in both, and every bin holds the same particles in both (in any order). -/
def same_physics (w w' : World) : Prop :=
  w.particles.map kinematics = w'.particles.map kinematics ∧
    w.bins.length = w'.bins.length ∧ ∀ b : Nat, (cellOf w b).Perm (cellOf w' b)

/-- The force collaborator computes the new acceleration of `p` from the position and the
acceleration of `p` and from the position of the neighbour: nothing else enters it. -/
def force_reads_positions (K : Collab) : Prop :=
  ∀ (p p' q q' : particle_t) (d d' : Diag),
    p.x = p'.x → p.y = p'.y → p.ax = p'.ax → p.ay = p'.ay → q.x = q'.x → q.y = q'.y →
      (K.apply_force p q d).1 = (K.apply_force p' q' d').1

/-- The force collaborator accumulates: the acceleration left by the calls for two
neighbours does not depend on the order of the two calls. -/
def force_commutes (K : Collab) : Prop :=
  ∀ (p q₁ q₂ : particle_t) (d : Diag),
    (K.apply_force
      { p with ax := (K.apply_force p q₁ d).1.1, ay := (K.apply_force p q₁ d).1.2 } q₂ d).1 =
    (K.apply_force
      { p with ax := (K.apply_force p q₂ d).1.1, ay := (K.apply_force p q₂ d).1.2 } q₁ d).1

/-- The integration collaborator reads the position, the velocity and the acceleration of
the particle, not its `idx_bin`. -/
def move_reads_kinematics (K : Collab) : Prop :=
  ∀ q q' : particle_t, kinematics q = kinematics q' → K.move q = K.move q'

/-- The acceleration that `apply_force` leaves in a particle at `(px, py)` with the
acceleration `a`, for a neighbour at `qpos`. -/
def pull (K : Collab) (px py : ℚ) (a : ℚ × ℚ) (qpos : ℚ × ℚ) : ℚ × ℚ :=
  (K.apply_force
    { x := px, y := py, vx := 0, vy := 0, ax := a.1, ay := a.2, idx_bin := 0 }
    { x := qpos.1, y := qpos.2, vx := 0, vy := 0, ax := 0, ay := 0, idx_bin := 0 }
    { dmin := 1, davg := 0, navg := 0 }).1

/-- The position of the particle with index `q`. -/
def position (w : World) (q : Nat) : ℚ × ℚ :=
  match w.particles[q]? with
  | some r => (r.x, r.y)
  | none => (0, 0)

/-- The particles that the force loop visits for a particle with the record `q`: the contents
of its neighbour bins, in the order of the loops. -/
def neighbours (c : Config) (w : World) (q : particle_t) : List Nat :=
  (neighbour_bins (binNum q c.bpr) c.bpr).flatMap (fun nbin => cellOf w nbin.toNat)

/-- The acceleration that the body of the force loop leaves in a particle with the
record `q`. -/
def net_force (c : Config) (K : Collab) (w : World) (q : particle_t) : ℚ × ℚ :=
  ((neighbours c w q).map (position w)).foldl (pull K q.x q.y) (0, 0)

/-- The world `u` in which the particle `p` has the record `q` with the acceleration `a`. -/
def with_acc (u : World) (p : Nat) (q : particle_t) (a : ℚ × ℚ) : World :=
  { u with particles := u.particles.set p { q with ax := a.1, ay := a.2 } }

/-- The kinematic state of `q` with the acceleration replaced by `a`. -/
def accelerated (q : particle_t) (a : ℚ × ℚ) : ℚ × ℚ × ℚ × ℚ × ℚ × ℚ :=
  (q.x, q.y, q.vx, q.vy, a.1, a.2)

/-- A schedule for two workers and five particles (worker 0 owns `0, 1, 2`, worker 1 owns
`3, 4`): the force bodies of the two workers alternate, and worker 1 runs its migration
loop before worker 0. -/
def demo_schedule : Schedule :=
  { force := fun _ => [(1, 3), (0, 0), (1, 4), (0, 1), (0, 2)],
    migrate := fun _ => [(1, 3), (1, 4), (0, 0), (0, 1), (0, 2)] }

/-! ## Concrete worlds -/

/-- A particle at rest at `(x, y)` with the given `idx_bin`. -/
def demo_particle (x y : ℚ) (idx : Int) : particle_t :=
  { x := x, y := y, vx := 0, vy := 0, ax := 0, ay := 0, idx_bin := idx }

/-- Five particles before the initial binning. -/
def demo_particles : List particle_t :=
  [demo_particle 0 0 0, demo_particle (1 / 200) 0 0, demo_particle (1 / 100) (1 / 100) 0,
   demo_particle (1 / 40) (1 / 40) 0, demo_particle (1 / 200) (1 / 400) 0]

/-- The five particles binned in a 3 x 3 grid: three in bin 0, one in bin 4, one in bin 8. -/
def demo_world : World :=
  { particles :=
      [demo_particle 0 0 0, demo_particle (1 / 200) 0 1, demo_particle (1 / 100) (1 / 100) 0,
       demo_particle (1 / 40) (1 / 40) 0, demo_particle (1 / 200) (1 / 400) 2],
    bins := [[0, 1, 4], [], [], [], [2], [], [], [], [3]] }

/-- A 3 x 3 grid with two workers, diagnostics enabled, an open snapshot file, 1000 steps and
a snapshot every 10 steps. -/
def demo_config : Config :=
  { n_threads := 2, bpr := 3, no_output := 0, fsave := true, NSTEPS := 1000, SAVEFREQ := 10 }

/-- Collaborators for the 3 x 3 grid: the force adds up the positions of the neighbours, and
`move` sends a particle of the left column to `(1/40, 1/40)` and any other particle to the
origin. -/
def demo_collab : Collab :=
  { apply_force := fun p q d =>
      ((p.ax + q.x, p.ay + q.y),
        { dmin := min d.dmin q.x, davg := d.davg + 1, navg := d.navg + 1 }),
    move := fun q =>
      if q.x < 1 / 100 then { x := 1 / 40, y := 1 / 40, vx := q.vx, vy := q.vy }
      else { x := 0, y := 0, vx := q.vx, vy := q.vy } }

/-- One particle at the origin, not yet binned, and one empty bin. -/
def unbinned_world : World :=
  { particles := [demo_particle 0 0 0], bins := [[]] }

/-- One particle at the origin, stored in the only bin of a 1 x 1 grid. -/
def single_world : World :=
  { particles := [demo_particle 0 0 0], bins := [[0]] }

/-- A 1 x 1 grid with one worker and one step. -/
def escape_config : Config :=
  { n_threads := 1, bpr := 1, no_output := 0, fsave := true, NSTEPS := 1, SAVEFREQ := 1 }

/-- Collaborators whose `move` shifts a particle to the left by `cutoff`. -/
def escape_collab : Collab :=
  { apply_force := fun p _ d => ((p.ax, p.ay), d),
    move := fun q => { x := q.x - 1 / 100, y := q.y, vx := q.vx, vy := q.vy } }

/-- A bin store in which particle 1 is stored in two bins, at index 1 in both. -/
def alias_world : World :=
  { particles := [demo_particle 0 0 0, demo_particle 0 0 1, demo_particle 0 0 0],
    bins := [[0, 1], [2, 1]] }

/-! ## Bin store: basic facts -/

theorem cellOf_set_bins (w : World) (ps : List particle_t) (b b' : Nat) (c : List Nat)
    (hb : b < w.bins.length) :
    cellOf { particles := ps, bins := w.bins.set b c } b' = if b' = b then c else cellOf w b' := by
  unfold cellOf
  by_cases h : b' = b
  · subst h; simp [hb]
  · simp [h, List.getElem?_set_ne (Ne.symm h)]

theorem bin_add_eq (w : World) (bin_num : Int) (p : Nat) (q : particle_t)
    (hb0 : 0 ≤ bin_num) (hb1 : bin_num < w.bins.length) (hq : w.particles[p]? = some q) :
    bin_add w bin_num p = some
      { particles := w.particles.set p
          { q with idx_bin := ((cellOf w bin_num.toNat).length : Int) },
        bins := w.bins.set bin_num.toNat (cellOf w bin_num.toNat ++ [p]) } := by
  simp [bin_add, hb0, hb1, hq]

/-- C2: `bin_add` appends the particle to the container of the bin, sets its `idx_bin` to the
old size of the container (the new last index) and changes nothing else. -/
theorem bin_add_appends (w : World) (bin_num : Int) (p : Nat)
    (hb0 : 0 ≤ bin_num) (hb1 : bin_num < w.bins.length) (hp : p < w.particles.length) :
    ∃ w' q, bin_add w bin_num p = some w' ∧ w.particles[p]? = some q ∧
      cellOf w' bin_num.toNat = cellOf w bin_num.toNat ++ [p] ∧
      w'.particles[p]? = some { q with idx_bin := ((cellOf w bin_num.toNat).length : Int) } ∧
      ((cellOf w bin_num.toNat).length : Int) = ((cellOf w' bin_num.toNat).length : Int) - 1 ∧
      (∀ r, r ≠ p → w'.particles[r]? = w.particles[r]?) ∧
      w'.particles.length = w.particles.length ∧
      (∀ b, b ≠ bin_num.toNat → cellOf w' b = cellOf w b) ∧
      w'.bins.length = w.bins.length := by
  obtain ⟨q, hq⟩ : ∃ q, w.particles[p]? = some q := ⟨w.particles[p], by simp [hp]⟩
  have hbn : bin_num.toNat < w.bins.length := by omega
  refine ⟨_, q, bin_add_eq w bin_num p q hb0 hb1 hq, hq, ?_, ?_, ?_, ?_, ?_, ?_, ?_⟩
  · simp [cellOf_set_bins, hbn]
  · simp [hp]
  · simp [cellOf_set_bins, hbn]
  · intro r hr
    simp [List.getElem?_set_ne (Ne.symm hr)]
  · simp
  · intro b hb
    simp [cellOf_set_bins, hbn, hb]
  · simp



/-- The container left by the swap-remove of `bin_remove`, index by index. -/
theorem swap_remove_getElem? (cell : List Nat) (i p l k : Nat) :
    (((cell.set (cell.length - 1) p).set i l).dropLast)[k]? =
      if k < cell.length - 1 then (if k = i then some l else cell[k]?) else none := by
  rw [List.getElem?_dropLast]
  simp only [List.length_set]
  by_cases hk : k < cell.length - 1
  · simp only [hk, if_true]
    by_cases hki : k = i
    · subst hki
      have : k < cell.length := by omega
      simp [List.getElem?_set, this]
    · have h1 : cell.length - 1 ≠ k := by omega
      simp [hki, List.getElem?_set_ne (Ne.symm hki), List.getElem?_set_ne h1]
  · simp [hk]

theorem bin_remove_eq (w : World) (bin_num : Int) (p l : Nat) (q ql : particle_t)
    (hb0 : 0 ≤ bin_num) (hb1 : bin_num < w.bins.length)
    (hl : (cellOf w bin_num.toNat)[(cellOf w bin_num.toNat).length - 1]? = some l)
    (hq : w.particles[p]? = some q) (hql : w.particles[l]? = some ql)
    (hi0 : 0 ≤ q.idx_bin) (hi1 : q.idx_bin < (cellOf w bin_num.toNat).length) :
    bin_remove w bin_num p = some
      { particles := w.particles.set l { ql with idx_bin := q.idx_bin },
        bins := w.bins.set bin_num.toNat
          ((((cellOf w bin_num.toNat).set ((cellOf w bin_num.toNat).length - 1) p).set
            q.idx_bin.toNat l).dropLast) } := by
  simp [bin_remove, hb0, hb1, hl, hq, hql, hi0, hi1]


theorem set_same {α : Type} {l : List α} {i : Nat} {a : α} (h : l[i]? = some a) :
    l.set i a = l := by
  apply List.ext_getElem?
  intro k
  by_cases hk : i = k
  · subst hk
    have : i < l.length := (List.getElem?_eq_some.mp h).1
    simp [List.getElem?_set, this, h]
  · simp [List.getElem?_set_ne hk]

/-- C1: `bin_remove` is a swap-remove. In a container whose elements all have `idx_bin` equal
to their index and which holds the particle `p` at index `p.idx_bin`, the call succeeds; the
container gets one element shorter and no longer holds `p`; when `p` was not the last element
the former last element sits at the former index of `p` with `idx_bin` set to that index;
every other element keeps its index, every other particle record is unchanged, and no other
bin is modified. -/
theorem bin_remove_swap_remove (w : World) (bin_num : Int) (p : Nat) (pp : particle_t)
    (hb0 : 0 ≤ bin_num) (hb1 : bin_num < w.bins.length)
    (hslot : ∀ (k q : Nat), (cellOf w bin_num.toNat)[k]? = some q →
      ∃ pq, w.particles[q]? = some pq ∧ pq.idx_bin = (k : Int))
    (hpp : w.particles[p]? = some pp) (hi0 : 0 ≤ pp.idx_bin)
    (hat : (cellOf w bin_num.toNat)[pp.idx_bin.toNat]? = some p) :
    ∃ w' l ql, bin_remove w bin_num p = some w' ∧
      (cellOf w bin_num.toNat)[(cellOf w bin_num.toNat).length - 1]? = some l ∧
      w.particles[l]? = some ql ∧
      (cellOf w' bin_num.toNat).length + 1 = (cellOf w bin_num.toNat).length ∧
      p ∉ cellOf w' bin_num.toNat ∧
      (pp.idx_bin.toNat ≠ (cellOf w bin_num.toNat).length - 1 →
        (cellOf w' bin_num.toNat)[pp.idx_bin.toNat]? = some l ∧
        w'.particles[l]? = some { ql with idx_bin := pp.idx_bin }) ∧
      (pp.idx_bin.toNat = (cellOf w bin_num.toNat).length - 1 → w'.particles = w.particles) ∧
      (∀ k, k < (cellOf w bin_num.toNat).length - 1 → k ≠ pp.idx_bin.toNat →
        (cellOf w' bin_num.toNat)[k]? = (cellOf w bin_num.toNat)[k]?) ∧
      (∀ r, r ≠ l → w'.particles[r]? = w.particles[r]?) ∧
      w'.particles.length = w.particles.length ∧
      (∀ b, b ≠ bin_num.toNat → cellOf w' b = cellOf w b) ∧
      w'.bins.length = w.bins.length := by
  have hbn : bin_num.toNat < w.bins.length := by omega
  obtain ⟨hilt, -⟩ := List.getElem?_eq_some.mp hat
  have hlen : (cellOf w bin_num.toNat).length - 1 < (cellOf w bin_num.toNat).length := by omega
  obtain ⟨l, hl⟩ : ∃ l, (cellOf w bin_num.toNat)[(cellOf w bin_num.toNat).length - 1]? = some l :=
    ⟨_, List.getElem?_eq_getElem hlen⟩
  obtain ⟨ql, hql, hqli⟩ := hslot _ _ hl
  have hi1 : pp.idx_bin < ((cellOf w bin_num.toNat).length : Int) := by omega
  have hpi : ∀ k, (cellOf w bin_num.toNat)[k]? = some p → k = pp.idx_bin.toNat := by
    intro k hk
    obtain ⟨pq, h1, h2⟩ := hslot k p hk
    rw [hpp] at h1
    cases h1
    omega
  refine ⟨_, l, ql, bin_remove_eq w bin_num p l pp ql hb0 hb1 hl hpp hql hi0 hi1, hl, hql,
    ?_, ?_, ?_, ?_, ?_, ?_, ?_, ?_, ?_⟩
  · simp [cellOf_set_bins, hbn]; omega
  · rw [cellOf_set_bins _ _ _ _ _ hbn, if_pos rfl]
    intro hmem
    obtain ⟨k, hk⟩ := List.getElem?_of_mem hmem
    rw [swap_remove_getElem?] at hk
    by_cases hk1 : k < (cellOf w bin_num.toNat).length - 1
    · rw [if_pos hk1] at hk
      by_cases hki : k = pp.idx_bin.toNat
      · rw [if_pos hki] at hk
        cases hk
        have := hpi _ hl
        omega
      · rw [if_neg hki] at hk
        exact hki (hpi k hk)
    · rw [if_neg hk1] at hk
      cases hk
  · intro hne
    have hlt : pp.idx_bin.toNat < (cellOf w bin_num.toNat).length - 1 := by omega
    constructor
    · rw [cellOf_set_bins _ _ _ _ _ hbn, if_pos rfl, swap_remove_getElem?]
      simp [hlt]
    · have : l < w.particles.length := (List.getElem?_eq_some.mp hql).1
      simp [this]
  · intro heq
    have hlp : l = p := by
      rw [← heq, hat] at hl
      cases hl; rfl
    subst hlp
    rw [hpp] at hql
    cases hql
    simp only
    exact set_same hpp
  · intro k hk hki
    rw [cellOf_set_bins _ _ _ _ _ hbn, if_pos rfl, swap_remove_getElem?]
    simp [hk, hki]
  · intro r hr
    simp [List.getElem?_set_ne (Ne.symm hr)]
  · simp
  · intro b hb
    simp [cellOf_set_bins, hbn, hb]
  · simp



theorem demo_world_slots (b k q : Nat) (h : (cellOf demo_world b)[k]? = some q) :
    ∃ pq, demo_world.particles[q]? = some pq ∧ pq.idx_bin = (k : Int) := by
  have hb : b < 9 ∨ 9 ≤ b := by omega
  rcases hb with hb | hb
  · interval_cases b <;> rcases k with _ | _ | _ | k <;>
      simp [cellOf, demo_world] at h <;> subst h <;> simp [demo_world, demo_particle]
  · have : demo_world.bins[b]? = none := List.getElem?_eq_none (by simpa [demo_world] using hb)
    simp [cellOf, this] at h

/-- Witness for C2 on the concrete world: particle 3 is appended to bin 4. -/
theorem bin_add_appends_witness :
    ∃ w' q, bin_add demo_world 4 3 = some w' ∧ demo_world.particles[3]? = some q ∧
      cellOf w' (4 : Int).toNat = cellOf demo_world (4 : Int).toNat ++ [3] ∧
      w'.particles[3]? =
        some { q with idx_bin := ((cellOf demo_world (4 : Int).toNat).length : Int) } ∧
      ((cellOf demo_world (4 : Int).toNat).length : Int) =
        ((cellOf w' (4 : Int).toNat).length : Int) - 1 ∧
      (∀ r, r ≠ 3 → w'.particles[r]? = demo_world.particles[r]?) ∧
      w'.particles.length = demo_world.particles.length ∧
      (∀ b, b ≠ (4 : Int).toNat → cellOf w' b = cellOf demo_world b) ∧
      w'.bins.length = demo_world.bins.length :=
  bin_add_appends demo_world 4 3 (by decide) (by decide) (by decide)

/-- Witness for C1 on the concrete world: particle 0 is removed from bin 0, whose last
element, particle 4, takes its place. -/
theorem bin_remove_swap_remove_witness :
    ∃ w' l ql, bin_remove demo_world 0 0 = some w' ∧
      (cellOf demo_world (0 : Int).toNat)[(cellOf demo_world (0 : Int).toNat).length - 1]?
        = some l ∧
      demo_world.particles[l]? = some ql ∧
      (cellOf w' (0 : Int).toNat).length + 1 = (cellOf demo_world (0 : Int).toNat).length ∧
      0 ∉ cellOf w' (0 : Int).toNat ∧
      ((demo_particle 0 0 0).idx_bin.toNat ≠ (cellOf demo_world (0 : Int).toNat).length - 1 →
        (cellOf w' (0 : Int).toNat)[(demo_particle 0 0 0).idx_bin.toNat]? = some l ∧
        w'.particles[l]? = some { ql with idx_bin := (demo_particle 0 0 0).idx_bin }) ∧
      ((demo_particle 0 0 0).idx_bin.toNat = (cellOf demo_world (0 : Int).toNat).length - 1 →
        w'.particles = demo_world.particles) ∧
      (∀ k, k < (cellOf demo_world (0 : Int).toNat).length - 1 →
        k ≠ (demo_particle 0 0 0).idx_bin.toNat →
        (cellOf w' (0 : Int).toNat)[k]? = (cellOf demo_world (0 : Int).toNat)[k]?) ∧
      (∀ r, r ≠ l → w'.particles[r]? = demo_world.particles[r]?) ∧
      w'.particles.length = demo_world.particles.length ∧
      (∀ b, b ≠ (0 : Int).toNat → cellOf w' b = cellOf demo_world b) ∧
      w'.bins.length = demo_world.bins.length :=
  bin_remove_swap_remove demo_world 0 0 (demo_particle 0 0 0) (by decide) (by decide)
    (demo_world_slots 0) rfl (by decide) rfl



/-! ## The bin store under `bin_add` and `bin_remove` -/

theorem Stored.congr {loc loc' : Nat → Option Int} {w : World} (h : Stored loc w)
    (he : ∀ q, loc' q = loc q) : Stored loc' w := by
  have : loc' = loc := funext he
  rw [this]; exact h

theorem Stored.bin_lt {loc : Nat → Option Int} {w : World} (h : Stored loc w) {q : Nat}
    {bn : Int} (hq : loc q = some bn) : 0 ≤ bn ∧ bn < w.bins.length := by
  obtain ⟨pq, -, h0, -, hc⟩ := h.2 q bn hq
  refine ⟨h0, ?_⟩
  by_contra hlt
  have : w.bins[bn.toNat]? = none := List.getElem?_eq_none (by omega)
  simp [cellOf, this] at hc

/-- Adding a particle that is stored nowhere. -/
theorem Stored.add {loc : Nat → Option Int} {w : World} (h : Stored loc w) {p : Nat}
    {bn : Int} {pp : particle_t} (hloc : loc p = none) (hpp : w.particles[p]? = some pp)
    (hb0 : 0 ≤ bn) (hb1 : bn < w.bins.length) :
    Stored (fun q => if q = p then some bn else loc q)
      { particles := w.particles.set p
          { pp with idx_bin := ((cellOf w bn.toNat).length : Int) },
        bins := w.bins.set bn.toNat (cellOf w bn.toNat ++ [p]) } := by
  have hbn : bn.toNat < w.bins.length := by omega
  have hplt : p < w.particles.length := (List.getElem?_eq_some.mp hpp).1
  constructor
  · intro b k q hq
    rw [cellOf_set_bins _ _ _ _ _ hbn] at hq
    have hold : (cellOf w b)[k]? = some q →
        (if q = p then some bn else loc q) = some (b : Int) ∧
        ∃ pq, (w.particles.set p
          { pp with idx_bin := ((cellOf w bn.toNat).length : Int) })[q]? = some pq ∧
          pq.idx_bin = (k : Int) := by
      intro hq
      obtain ⟨h1, pq, h2, h3⟩ := h.1 b k q hq
      have hne : q ≠ p := by
        rintro rfl
        rw [hloc] at h1; cases h1
      refine ⟨by simp [hne, h1], pq, ?_, h3⟩
      rw [List.getElem?_set_ne (Ne.symm hne)]; exact h2
    by_cases hb : b = bn.toNat
    · rw [if_pos hb] at hq
      by_cases hk : k < (cellOf w bn.toNat).length
      · rw [List.getElem?_append_left hk] at hq
        exact hold (hb ▸ hq)
      · rw [List.getElem?_append_right (by omega)] at hq
        have hk0 : k - (cellOf w bn.toNat).length = 0 := by
          by_contra hne
          rw [List.getElem?_eq_none (by simp; omega)] at hq
          cases hq
        rw [hk0] at hq
        simp at hq
        subst hq
        refine ⟨by simp; omega, _, List.getElem?_set_self hplt, ?_⟩
        simp only
        omega
    · rw [if_neg hb] at hq
      exact hold hq
  · intro q bn' hq
    by_cases hqp : q = p
    · subst hqp
      simp at hq
      subst hq
      refine ⟨_, List.getElem?_set_self hplt, hb0, by simp, ?_⟩
      rw [cellOf_set_bins _ _ _ _ _ hbn, if_pos rfl]
      simp
    · simp [hqp] at hq
      obtain ⟨pq, h1, h2, h3, h4⟩ := h.2 q bn' hq
      refine ⟨pq, ?_, h2, h3, ?_⟩
      · rw [List.getElem?_set_ne (Ne.symm hqp)]; exact h1
      · rw [cellOf_set_bins _ _ _ _ _ hbn]
        by_cases hb : bn'.toNat = bn.toNat
        · rw [if_pos hb]
          rw [hb] at h4
          have := (List.getElem?_eq_some.mp h4).1
          rw [List.getElem?_append_left this]
          exact h4
        · rw [if_neg hb]; exact h4


/-- Removing a stored particle: the accesses of `bin_remove` are in bounds and the result
stores the same particles but the removed one. -/
theorem Stored.remove {loc : Nat → Option Int} {w : World} (h : Stored loc w) {p : Nat}
    {bn : Int} (hloc : loc p = some bn) :
    ∃ pp l ql, w.particles[p]? = some pp ∧
      (cellOf w bn.toNat)[(cellOf w bn.toNat).length - 1]? = some l ∧
      w.particles[l]? = some ql ∧ 0 ≤ pp.idx_bin ∧
      pp.idx_bin < (cellOf w bn.toNat).length ∧ 0 ≤ bn ∧ bn < w.bins.length ∧
      (cellOf w bn.toNat)[pp.idx_bin.toNat]? = some p ∧
      Stored (fun q => if q = p then none else loc q)
        { particles := w.particles.set l { ql with idx_bin := pp.idx_bin },
          bins := w.bins.set bn.toNat
            ((((cellOf w bn.toNat).set ((cellOf w bn.toNat).length - 1) p).set
              pp.idx_bin.toNat l).dropLast) } := by
  obtain ⟨hb0, hb1⟩ := h.bin_lt hloc
  obtain ⟨pp, hpp, -, hi0, hat⟩ := h.2 p bn hloc
  have hbn : bn.toNat < w.bins.length := by omega
  have hbc : ((bn.toNat : Nat) : Int) = bn := by omega
  obtain ⟨hilt, -⟩ := List.getElem?_eq_some.mp hat
  have hlen : (cellOf w bn.toNat).length - 1 < (cellOf w bn.toNat).length := by omega
  obtain ⟨l, hl⟩ : ∃ l, (cellOf w bn.toNat)[(cellOf w bn.toNat).length - 1]? = some l :=
    ⟨_, List.getElem?_eq_getElem hlen⟩
  obtain ⟨hlocl, ql, hql, hqli⟩ := h.1 _ _ _ hl
  have hllt : l < w.particles.length := (List.getElem?_eq_some.mp hql).1
  -- a particle stored at index `k` of the bin of `p` is `p` exactly when `k` is `p.idx_bin`
  have hpi : ∀ k, (cellOf w bn.toNat)[k]? = some p → k = pp.idx_bin.toNat := by
    intro k hk
    obtain ⟨-, pq, h1, h2⟩ := h.1 _ k p hk
    rw [hpp] at h1; cases h1; omega
  have hli : ∀ k, (cellOf w bn.toNat)[k]? = some l → k = (cellOf w bn.toNat).length - 1 := by
    intro k hk
    obtain ⟨-, pq, h1, h2⟩ := h.1 _ k l hk
    rw [hql] at h1; cases h1; omega
  refine ⟨pp, l, ql, hpp, hl, hql, hi0, by omega, hb0, hb1, hat, ?_, ?_⟩
  · intro b k q hq
    rw [cellOf_set_bins _ _ _ _ _ hbn] at hq
    by_cases hb : b = bn.toNat
    · rw [if_pos hb, swap_remove_getElem?] at hq
      by_cases hk1 : k < (cellOf w bn.toNat).length - 1
      · rw [if_pos hk1] at hq
        by_cases hki : k = pp.idx_bin.toNat
        · rw [if_pos hki] at hq
          cases hq
          have hne : l ≠ p := by
            rintro rfl
            have := hpi _ hl
            omega
          refine ⟨by simp [hne, hlocl, hb], _, List.getElem?_set_self hllt, ?_⟩
          simp only
          omega
        · rw [if_neg hki] at hq
          obtain ⟨h1, pq, h2, h3⟩ := h.1 _ k q hq
          have hqp : q ≠ p := by
            rintro rfl; exact hki (hpi k hq)
          have hql' : q ≠ l := by
            rintro rfl
            have := hli k hq
            omega
          refine ⟨by simp [hqp, h1, hb], pq, ?_, h3⟩
          rw [List.getElem?_set_ne (Ne.symm hql')]; exact h2
      · rw [if_neg hk1] at hq; cases hq
    · rw [if_neg hb] at hq
      obtain ⟨h1, pq, h2, h3⟩ := h.1 b k q hq
      have hqp : q ≠ p := by
        rintro rfl
        rw [hloc] at h1
        cases h1
        exact hb (by simp)
      have hql' : q ≠ l := by
        rintro rfl
        rw [hlocl] at h1
        cases h1
        exact hb (by omega)
      refine ⟨by simp [hqp, h1], pq, ?_, h3⟩
      rw [List.getElem?_set_ne (Ne.symm hql')]; exact h2
  · intro q bn' hq
    by_cases hqp : q = p
    · simp [hqp] at hq
    · simp [hqp] at hq
      obtain ⟨pq, h1, h2, h3, h4⟩ := h.2 q bn' hq
      by_cases hqll : q = l
      · subst hqll
        rw [hql] at h1; cases h1
        rw [hlocl] at hq; cases hq
        have hne : pp.idx_bin.toNat ≠ (cellOf w bn.toNat).length - 1 := by
          intro heq
          rw [← heq, hat] at hl
          cases hl
          exact hqp rfl
        refine ⟨_, List.getElem?_set_self hllt, h2, hi0, ?_⟩
        simp only [Int.toNat_ofNat]
        rw [cellOf_set_bins _ _ _ _ _ hbn, if_pos rfl, swap_remove_getElem?]
        have : pp.idx_bin.toNat < (cellOf w bn.toNat).length - 1 := by omega
        simp [this]
      · refine ⟨pq, ?_, h2, h3, ?_⟩
        · rw [List.getElem?_set_ne (Ne.symm hqll)]; exact h1
        · rw [cellOf_set_bins _ _ _ _ _ hbn]
          by_cases hb : bn'.toNat = bn.toNat
          · rw [if_pos hb, swap_remove_getElem?]
            rw [hb] at h4
            have hk1 : pq.idx_bin.toNat ≠ (cellOf w bn.toNat).length - 1 := by
              intro heq
              rw [heq, hl] at h4
              cases h4
              exact hqll rfl
            have hk2 : pq.idx_bin.toNat ≠ pp.idx_bin.toNat := by
              intro heq
              rw [heq, hat] at h4
              cases h4
              exact hqp rfl
            have := (List.getElem?_eq_some.mp h4).1
            have hk3 : pq.idx_bin.toNat < (cellOf w bn.toNat).length - 1 := by omega
            simp [hk1, hk2, hk3, h4]
          · rw [if_neg hb]; exact h4



/-! ## Loops -/

theorem mem_loopLt {lo hi x : Int} : x ∈ loopLt lo hi ↔ lo ≤ x ∧ x < hi := by
  simp only [loopLt, List.mem_map, List.mem_range]
  constructor
  · rintro ⟨k, hk, rfl⟩
    omega
  · rintro ⟨h1, h2⟩
    exact ⟨(x - lo).toNat, by omega, by omega⟩

theorem length_loopLt (lo hi : Int) : (loopLt lo hi).length = (hi - lo).toNat := by
  simp [loopLt]

theorem getElem_loopLt (lo hi : Int) (i : Nat) (h : i < (loopLt lo hi).length) :
    (loopLt lo hi)[i] = lo + (i : Int) := by
  simp [loopLt]

/-- A loop whose body keeps an invariant indexed by the number of iterations done runs to
its end and establishes the invariant for all iterations. -/
theorem foldlM_indexed {σ α : Type} (f : σ → α → Option σ) (xs : List α)
    (P : Nat → σ → Prop)
    (hstep : ∀ (i : Nat) (hi : i < xs.length) (s : σ), P i s →
      ∃ s', f s (xs.get ⟨i, hi⟩) = some s' ∧ P (i + 1) s')
    (s : σ) (hs : P 0 s) : ∃ s', xs.foldlM f s = some s' ∧ P xs.length s' := by
  induction xs generalizing s P with
  | nil => exact ⟨s, rfl, hs⟩
  | cons x xs ih =>
    obtain ⟨s1, h1, hP1⟩ := hstep 0 (by simp) s hs
    obtain ⟨s2, h2, hP2⟩ := ih (fun i => P (i + 1))
      (fun i hi s hPs => hstep (i + 1) (by simpa using hi) s hPs) s1 hP1
    refine ⟨s2, ?_, hP2⟩
    simp only [List.get_eq_getElem, List.getElem_cons_zero] at h1
    simp [List.foldlM_cons, h1, h2]

/-- A loop whose body keeps an invariant runs to its end and keeps the invariant. -/
theorem foldlM_invariant {σ α : Type} (f : σ → α → Option σ) (xs : List α) (P : σ → Prop)
    (hstep : ∀ (x : α) (s : σ), x ∈ xs → P s → ∃ s', f s x = some s' ∧ P s')
    (s : σ) (hs : P s) : ∃ s', xs.foldlM f s = some s' ∧ P s' :=
  foldlM_indexed f xs (fun _ => P)
    (fun i hi s hPs => hstep _ s (List.get_mem xs i hi) hPs) s hs

/-! ## Particle records and cell ids -/

theorem Stored.set_particle {loc : Nat → Option Int} {w : World} (h : Stored loc w) {p : Nat}
    {q q' : particle_t} (hq : w.particles[p]? = some q) (hidx : q'.idx_bin = q.idx_bin) :
    Stored loc { w with particles := w.particles.set p q' } := by
  have hplt : p < w.particles.length := (List.getElem?_eq_some.mp hq).1
  have key : ∀ (r : Nat) (pq : particle_t), w.particles[r]? = some pq →
      ∃ pq', (w.particles.set p q')[r]? = some pq' ∧ pq'.idx_bin = pq.idx_bin := by
    intro r pq hr
    by_cases hrp : r = p
    · subst hrp
      rw [hq] at hr; cases hr
      exact ⟨q', List.getElem?_set_self hplt, hidx⟩
    · exact ⟨pq, by rw [List.getElem?_set_ne (Ne.symm hrp)]; exact hr, rfl⟩
  constructor
  · intro b k r hr
    obtain ⟨h1, pq, h2, h3⟩ := h.1 b k r hr
    obtain ⟨pq', h4, h5⟩ := key r pq h2
    exact ⟨h1, pq', h4, by rw [h5]; exact h3⟩
  · intro r bn hr
    obtain ⟨pq, h1, h2, h3, h4⟩ := h.2 r bn hr
    obtain ⟨pq', h5, h6⟩ := key r pq h1
    exact ⟨pq', h5, h2, by rw [h6]; exact h3, by rw [h6]; exact h4⟩

theorem cell_ids_set (w : World) (bins' : List (List Nat)) (bpr : Int) (p : Nat)
    (q' : particle_t) (hp : p < w.particles.length) (r : Nat) :
    cell_ids { particles := w.particles.set p q', bins := bins' } bpr r =
      if r = p then some (binNum q' bpr) else cell_ids w bpr r := by
  unfold cell_ids
  by_cases hrp : r = p
  · subst hrp; simp [hp]
  · simp [hrp, List.getElem?_set_ne (Ne.symm hrp)]

theorem cell_ids_set_idx (w : World) (bins' : List (List Nat)) (bpr : Int) (l : Nat)
    (ql : particle_t) (v : Int) (hl : w.particles[l]? = some ql) (r : Nat) :
    cell_ids { particles := w.particles.set l { ql with idx_bin := v }, bins := bins' } bpr r =
      cell_ids w bpr r := by
  rw [cell_ids_set w bins' bpr l _ (List.getElem?_eq_some.mp hl).1]
  by_cases hrl : r = l
  · subst hrl
    simp [cell_ids, hl, binNum]
  · simp [hrl]



/-! ## Migration of one particle -/

theorem Stored.bin_remove_ok {loc : Nat → Option Int} {w : World} (h : Stored loc w)
    {p : Nat} {bn : Int} (hloc : loc p = some bn) :
    ∃ w', bin_remove w bn p = some w' ∧
      Stored (fun q => if q = p then none else loc q) w' ∧
      w'.bins.length = w.bins.length ∧ w'.particles.length = w.particles.length ∧
      ∀ bpr r, cell_ids w' bpr r = cell_ids w bpr r := by
  obtain ⟨pp, l, ql, hpp, hl, hql, hi0, hi1, hb0, hb1, -, hS⟩ := h.remove hloc
  refine ⟨_, bin_remove_eq w bn p l pp ql hb0 hb1 hl hpp hql hi0 hi1, hS, by simp, by simp, ?_⟩
  intro bpr r
  exact cell_ids_set_idx w _ bpr l ql _ hql r

theorem Stored.bin_add_ok {loc : Nat → Option Int} {w : World} (h : Stored loc w)
    {p : Nat} {bn : Int} (hloc : loc p = none) (hp : p < w.particles.length)
    (hb0 : 0 ≤ bn) (hb1 : bn < w.bins.length) :
    ∃ w', bin_add w bn p = some w' ∧
      Stored (fun q => if q = p then some bn else loc q) w' ∧
      w'.bins.length = w.bins.length ∧ w'.particles.length = w.particles.length ∧
      ∀ bpr r, cell_ids w' bpr r = cell_ids w bpr r := by
  obtain ⟨pp, hpp⟩ : ∃ pp, w.particles[p]? = some pp := ⟨_, List.getElem?_eq_getElem hp⟩
  refine ⟨_, bin_add_eq w bn p pp hb0 hb1 hpp, h.add hloc hpp hb0 hb1, by simp, by simp, ?_⟩
  intro bpr r
  exact cell_ids_set_idx w _ bpr p pp _ hpp r

/-- The body of the migration loop keeps the bin store consistent with the positions, when
the new cell id of the particle is a valid bin. -/
theorem migrate_one_consistent (c : Config) (K : Collab) (w : World) (p : Int)
    (h : consistent w c.bpr) (hp0 : 0 ≤ p) (hp1 : p < w.particles.length)
    (hnew : ∀ q, w.particles[p.toNat]? = some q →
      0 ≤ binNum (move K q) c.bpr ∧ binNum (move K q) c.bpr < w.bins.length) :
    ∃ w', migrate_one c K w p = some w' ∧ consistent w' c.bpr ∧
      w'.bins.length = w.bins.length ∧ w'.particles.length = w.particles.length := by
  have hplt : p.toNat < w.particles.length := by omega
  obtain ⟨q, hq⟩ : ∃ q, w.particles[p.toNat]? = some q := ⟨_, List.getElem?_eq_getElem hplt⟩
  obtain ⟨hn0, hn1⟩ := hnew q hq
  have h1 : Stored (cell_ids w c.bpr)
      { w with particles := w.particles.set p.toNat (move K q) } :=
    Stored.set_particle h hq rfl
  have hids : ∀ r, cell_ids { w with particles := w.particles.set p.toNat (move K q) } c.bpr r
      = if r = p.toNat then some (binNum (move K q) c.bpr) else cell_ids w c.bpr r :=
    fun r => cell_ids_set w w.bins c.bpr p.toNat (move K q) hplt r
  have hlocp : cell_ids w c.bpr p.toNat = some (binNum q c.bpr) := by simp [cell_ids, hq]
  by_cases hsame : binNum q c.bpr = binNum (move K q) c.bpr
  · refine ⟨{ w with particles := w.particles.set p.toNat (move K q) }, ?_, ?_, rfl, by simp⟩
    · simp [migrate_one, hp0, hq, hsame]
    · refine h1.congr (fun r => ?_)
      rw [hids r]
      by_cases hr : r = p.toNat
      · rw [if_pos hr, hr, hlocp, hsame]
      · rw [if_neg hr]
  · obtain ⟨w2, hrem, hS2, hbl2, hpl2, hid2⟩ := h1.bin_remove_ok hlocp
    obtain ⟨w3, hadd, hS3, hbl3, hpl3, hid3⟩ :=
      @Stored.bin_add_ok _ _ hS2 p.toNat (binNum (move K q) c.bpr) (by simp)
        (by rw [hpl2]; simpa using hplt) hn0 (by rw [hbl2]; exact hn1)
    refine ⟨w3, ?_, ?_, by rw [hbl3, hbl2], by rw [hpl3, hpl2]; simp⟩
    · simp [migrate_one, hp0, hq, hsame, hrem, hadd]
    · refine hS3.congr (fun r => ?_)
      rw [hid3, hid2, hids r]
      by_cases hr : r = p.toNat
      · simp [hr]
      · simp [hr]



/-! ## What a consistent bin store gives -/

theorem cellOf_getElem?_lt {w : World} {b k q : Nat} (h : (cellOf w b)[k]? = some q) :
    ∃ hb : b < w.bins.length, w.bins[b] = cellOf w b := by
  by_cases hb : b < w.bins.length
  · exact ⟨hb, by simp [cellOf, hb]⟩
  · have : w.bins[b]? = none := List.getElem?_eq_none (by omega)
    simp [cellOf, this] at h

theorem cellOf_of_lt {w : World} {b : Nat} (hb : b < w.bins.length) :
    cellOf w b = w.bins[b] := by
  simp [cellOf, hb]

theorem Stored.slot_consistent {loc : Nat → Option Int} {w : World} (h : Stored loc w) :
    slot_consistent w :=
  fun b k q hq => (h.1 b k q hq).2

theorem Stored.one_cell {loc : Nat → Option Int} {w : World} (h : Stored loc w) :
    one_cell w := by
  intro b b' k k' q hq hq'
  have h1 := (h.1 b k q hq).1
  have h2 := (h.1 b' k' q hq').1
  rw [h1] at h2
  cases h2
  rfl

theorem consistent.membership {w : World} {bpr : Int} (h : consistent w bpr) :
    membership_consistent w bpr := by
  intro q pq hq
  have hloc : cell_ids w bpr q = some (binNum pq bpr) := by simp [cell_ids, hq]
  obtain ⟨pq', -, h0, -, hat⟩ := h.2 q _ hloc
  refine ⟨(binNum pq bpr).toNat, List.getElem?_mem hat, ?_, by omega⟩
  intro b' hb'
  obtain ⟨k, hk⟩ := List.getElem?_of_mem hb'
  have := (h.1 b' k q hk).1
  rw [hloc] at this
  have := Option.some.inj this
  omega

theorem Stored.nodup_flatten {loc : Nat → Option Int} {w : World} (h : Stored loc w) :
    w.bins.flatten.Nodup := by
  rw [List.nodup_flatten]
  constructor
  · intro cell hcell
    obtain ⟨b, hb, rfl⟩ := List.getElem_of_mem hcell
    rw [List.nodup_iff_getElem?_ne_getElem?]
    intro i j hij hj heq
    have hi : i < w.bins[b].length := by omega
    rw [List.getElem?_eq_getElem hj] at heq
    have hi' : (cellOf w b)[i]? = some (w.bins[b][j]) := by rw [cellOf_of_lt hb]; exact heq
    have hj' : (cellOf w b)[j]? = some (w.bins[b][j]) := by
      rw [cellOf_of_lt hb]; exact List.getElem?_eq_getElem hj
    obtain ⟨-, pq, h1, h2⟩ := h.1 _ _ _ hi'
    obtain ⟨-, pq', h3, h4⟩ := h.1 _ _ _ hj'
    rw [h1] at h3
    cases h3
    omega
  · rw [List.pairwise_iff_getElem]
    intro b b' hb hb' hlt
    intro q hq hq'
    obtain ⟨k, hk⟩ := List.getElem?_of_mem hq
    obtain ⟨k', hk'⟩ := List.getElem?_of_mem hq'
    rw [← cellOf_of_lt hb] at hk
    rw [← cellOf_of_lt hb'] at hk'
    have := h.one_cell b b' k k' q hk hk'
    omega

theorem consistent.mem_flatten {w : World} {bpr : Int} (h : consistent w bpr) (q : Nat) :
    q ∈ w.bins.flatten ↔ q < w.particles.length := by
  rw [List.mem_flatten]
  constructor
  · rintro ⟨cell, hcell, hq⟩
    obtain ⟨b, hb, rfl⟩ := List.getElem_of_mem hcell
    obtain ⟨k, hk⟩ := List.getElem?_of_mem hq
    rw [← cellOf_of_lt hb] at hk
    obtain ⟨-, pq, h1, -⟩ := h.1 _ _ _ hk
    exact (List.getElem?_eq_some.mp h1).1
  · intro hq
    have hloc : cell_ids w bpr q = some (binNum w.particles[q] bpr) := by simp [cell_ids, hq]
    obtain ⟨pq', -, h0, -, hat⟩ := h.2 q _ hloc
    obtain ⟨hb, hbe⟩ := cellOf_getElem?_lt hat
    exact ⟨_, List.getElem_mem hb, hbe ▸ List.getElem?_mem hat⟩

theorem consistent.conserved {w : World} {bpr : Int} (h : consistent w bpr) : conserved w := by
  have hperm : w.bins.flatten.Perm (List.range w.particles.length) := by
    rw [List.perm_ext_iff_of_nodup (Stored.nodup_flatten h) (List.nodup_range _)]
    intro q
    rw [h.mem_flatten, List.mem_range]
  constructor
  · rw [← List.length_flatten, hperm.length_eq, List.length_range]
  · intro q hq
    exact List.count_eq_one_of_mem (Stored.nodup_flatten h) ((h.mem_flatten q).mpr hq)



/-! ## The initial binning -/

theorem consistent.in_grid {w : World} {bpr : Int} (h : consistent w bpr)
    (hlen : (w.bins.length : Int) = bpr * bpr) {q : Nat} {pq : particle_t}
    (hq : w.particles[q]? = some pq) : in_grid pq bpr := by
  have hloc : cell_ids w bpr q = some (binNum pq bpr) := by simp [cell_ids, hq]
  have := Stored.bin_lt h hloc
  exact ⟨this.1, by rw [← hlen]; exact this.2⟩

/-- The initial binning of `main` succeeds and leaves a consistent bin store with
`bpr * bpr` bins, when the cell id of every particle is in the grid. -/
theorem init_bins_consistent (particles : List particle_t) (bpr : Int)
    (hgrid : ∀ q ∈ particles, in_grid q bpr) :
    ∃ w, init_bins particles bpr = some w ∧ consistent w bpr ∧
      (w.bins.length : Int) = bpr * bpr ∧ w.particles.length = particles.length ∧
      ∀ r, cell_ids w bpr r = cell_ids ⟨particles, []⟩ bpr r := by
  have hsq : ((bpr * bpr).toNat : Int) = bpr * bpr := Int.toNat_of_nonneg (mul_self_nonneg bpr)
  obtain ⟨w, hw, hP⟩ := foldlM_indexed
    (fun (w : World) (i : Int) =>
      if 0 ≤ i then
        match w.particles[i.toNat]? with
        | none => none
        | some q => bin_add w (binNum q bpr) i.toNat
      else none)
    (loopLt 0 (particles.length : Int))
    (fun i w =>
      Stored (fun q => if q < i then cell_ids ⟨particles, []⟩ bpr q else none) w ∧
      (∀ r, cell_ids w bpr r = cell_ids ⟨particles, []⟩ bpr r) ∧
      (w.bins.length : Int) = bpr * bpr ∧ w.particles.length = particles.length)
    (by
      intro i hi w ⟨hS, hids, hbl, hpl⟩
      have hin : i < particles.length := by
        rw [length_loopLt] at hi; omega
      rw [List.get_eq_getElem, getElem_loopLt]
      have hiw : i < w.particles.length := by omega
      obtain ⟨q, hq⟩ : ∃ q, w.particles[i]? = some q := ⟨_, List.getElem?_eq_getElem hiw⟩
      have hcid : cell_ids ⟨particles, []⟩ bpr i = some (binNum q bpr) := by
        rw [← hids i]; simp [cell_ids, hq]
      have hg : in_grid q bpr := by
        have h1 : cell_ids ⟨particles, []⟩ bpr i = some (binNum particles[i] bpr) := by
          simp [cell_ids, hin]
        rw [h1] at hcid
        have h2 := Option.some.inj hcid
        have := hgrid particles[i] (List.getElem_mem hin)
        unfold in_grid at this ⊢
        rw [← h2]; exact this
      obtain ⟨w', hadd, hS', hbl', hpl', hid'⟩ := @Stored.bin_add_ok _ _ hS i
        (binNum q bpr) (by simp) hiw hg.1 (by rw [hbl]; exact hg.2)
      refine ⟨w', ?_, ?_, ?_, ?_, ?_⟩
      · simp [hq, hadd]
      · refine hS'.congr (fun r => ?_)
        by_cases hr : r = i
        · subst hr; simp [hcid]
        · have : r < i + 1 ↔ r < i := by omega
          simp [hr, this]
      · intro r; rw [hid', hids]
      · rw [hbl', hbl]
      · rw [hpl', hpl])
    ⟨particles, List.replicate (bpr * bpr).toNat []⟩
    (by
      refine ⟨⟨?_, ?_⟩, fun r => rfl, by simp [hsq], rfl⟩
      · intro b k q hq
        exfalso
        by_cases hb : b < (bpr * bpr).toNat
        · simp [cellOf, hb] at hq
        · simp [cellOf, hb] at hq
      · intro q bn hq
        simp at hq)
  obtain ⟨hS, hids, hbl, hpl⟩ := hP
  refine ⟨w, hw, ?_, hbl, hpl, hids⟩
  refine hS.congr (fun r => ?_)
  rw [hids, length_loopLt]
  have hlen : ((particles.length : Int) - 0).toNat = particles.length := by omega
  rw [hlen]
  by_cases hr : r < particles.length
  · simp [hr]
  · have : particles.length ≤ r := by omega
    simp [hr, cell_ids, this]



/-! ## The neighbour bins of the force phase -/

theorem mem_loopLe {lo hi x : Int} : x ∈ loopLe lo hi ↔ lo ≤ x ∧ x ≤ hi := by
  rw [loopLe, mem_loopLt]; omega

theorem nodup_loopLt (lo hi : Int) : (loopLt lo hi).Nodup := by
  unfold loopLt
  refine List.Nodup.map ?_ (List.nodup_range _)
  intro a b hab
  simp only at hab
  omega

/-- Row and column of a bin id of the grid, and the four clipping tests of the force phase in
terms of them. -/
theorem grid_row_col {cbin bpr : Int} (hbpr : 1 ≤ bpr) (h0 : 0 ≤ cbin)
    (h1 : cbin < bpr * bpr) :
    cbin.tmod bpr = cbin % bpr ∧ cbin = bpr * (cbin / bpr) + cbin % bpr ∧
      0 ≤ cbin % bpr ∧ cbin % bpr < bpr ∧ 0 ≤ cbin / bpr ∧ cbin / bpr < bpr ∧
      (cbin < bpr ↔ cbin / bpr = 0) ∧ (cbin ≥ bpr * (bpr - 1) ↔ cbin / bpr = bpr - 1) := by
  have hpos : 0 < bpr := by omega
  have hdm := Int.ediv_add_emod cbin bpr
  have hc0 := Int.emod_nonneg cbin (by omega : bpr ≠ 0)
  have hc1 := Int.emod_lt_of_pos cbin hpos
  have hr0 := Int.ediv_nonneg h0 (by omega : 0 ≤ bpr)
  have hr1 : cbin / bpr < bpr := Int.ediv_lt_of_lt_mul hpos h1
  refine ⟨Int.tmod_eq_emod h0 (by omega), hdm.symm, hc0, hc1, hr0, hr1, ?_, ?_⟩
  · constructor
    · intro h; exact Int.ediv_eq_zero_of_lt h0 h
    · intro h
      rw [h] at hdm
      omega
  · constructor
    · intro h
      have : bpr - 1 ≤ cbin / bpr := by
        apply Int.le_ediv_of_mul_le hpos
        rw [mul_comm]; exact h
      omega
    · intro h
      rw [h] at hdm
      omega

/-- The neighbour bins are the bins whose column and row differ by at most one from those of
the centre bin and lie in the grid. -/
theorem mem_neighbour_bins_iff {cbin bpr : Int} (hbpr : 1 ≤ bpr) (h0 : 0 ≤ cbin)
    (h1 : cbin < bpr * bpr) (nbin : Int) :
    nbin ∈ neighbour_bins cbin bpr ↔
      ∃ i j : Int, (-1 ≤ i ∧ i ≤ 1 ∧ 0 ≤ cbin % bpr + i ∧ cbin % bpr + i < bpr) ∧
        (-1 ≤ j ∧ j ≤ 1 ∧ 0 ≤ cbin / bpr + j ∧ cbin / bpr + j < bpr) ∧
        nbin = cbin + i + bpr * j := by
  obtain ⟨hc, -, hc0, hc1, hr0, hr1, hlow, hhigh⟩ := grid_row_col hbpr h0 h1
  simp only [neighbour_bins, List.mem_flatMap, List.mem_map, mem_loopLe, hc]
  generalize cbin % bpr = col at *
  generalize cbin / bpr = row at *
  constructor
  · rintro ⟨i, ⟨hi1, hi2⟩, j, ⟨hj1, hj2⟩, rfl⟩
    refine ⟨i, j, ?_, ?_, rfl⟩
    · split_ifs at hi1 hi2 <;> omega
    · split_ifs at hj1 hj2 <;> omega
  · rintro ⟨i, j, ⟨hi1, hi2, hi3, hi4⟩, ⟨hj1, hj2, hj3, hj4⟩, rfl⟩
    refine ⟨i, ⟨?_, ?_⟩, j, ⟨?_, ?_⟩, rfl⟩
    · split_ifs <;> omega
    · split_ifs <;> omega
    · split_ifs <;> omega
    · split_ifs <;> omega

/-- Every neighbour bin id is a bin of the grid. -/
theorem neighbour_bins_bounds {cbin bpr : Int} (hbpr : 1 ≤ bpr) (h0 : 0 ≤ cbin)
    (h1 : cbin < bpr * bpr) {nbin : Int} (h : nbin ∈ neighbour_bins cbin bpr) :
    0 ≤ nbin ∧ nbin < bpr * bpr := by
  obtain ⟨i, j, ⟨hi1, hi2, hi3, hi4⟩, ⟨hj1, hj2, hj3, hj4⟩, rfl⟩ :=
    (mem_neighbour_bins_iff hbpr h0 h1 nbin).mp h
  obtain ⟨-, hdm, -, -, -, -, -, -⟩ := grid_row_col hbpr h0 h1
  have e : cbin + i + bpr * j = bpr * (cbin / bpr + j) + (cbin % bpr + i) := by
    conv_lhs => rw [hdm]
    ring
  rw [e]
  generalize cbin % bpr + i = col at *
  generalize cbin / bpr + j = row at *
  constructor
  · have := mul_nonneg (by omega : (0 : Int) ≤ bpr) hj3
    omega
  · have h2 : bpr * row ≤ bpr * (bpr - 1) :=
      mul_le_mul_of_nonneg_left (by omega) (by omega)
    have h3 : bpr * (bpr - 1) = bpr * bpr - bpr := by ring
    omega



theorem neighbour_offsets_inj {bpr col i i' j j' : Int}
    (hi : 0 ≤ col + i ∧ col + i < bpr) (hi' : 0 ≤ col + i' ∧ col + i' < bpr)
    (hj : -1 ≤ j ∧ j ≤ 1) (hj' : -1 ≤ j' ∧ j' ≤ 1)
    (h : i + bpr * j = i' + bpr * j') : i = i' ∧ j = j' := by
  obtain ⟨hj1, hj2⟩ := hj
  obtain ⟨hj1', hj2'⟩ := hj'
  interval_cases j <;> interval_cases j' <;> constructor <;> omega

theorem neighbour_bins_nodup {cbin bpr : Int} (hbpr : 1 ≤ bpr) (h0 : 0 ≤ cbin)
    (h1 : cbin < bpr * bpr) : (neighbour_bins cbin bpr).Nodup := by
  obtain ⟨hc, -, hc0, hc1, hr0, hr1, hlow, hhigh⟩ := grid_row_col hbpr h0 h1
  have hib : ∀ i, i ∈ loopLe (if cbin.tmod bpr = 0 then (0 : Int) else -1)
      (if cbin.tmod bpr = bpr - 1 then (0 : Int) else 1) →
      0 ≤ cbin % bpr + i ∧ cbin % bpr + i < bpr := by
    intro i hi
    rw [mem_loopLe, hc] at hi
    obtain ⟨hi1, hi2⟩ := hi
    generalize cbin % bpr = col at *
    split_ifs at hi1 hi2 <;> omega
  have hjb : ∀ j, j ∈ loopLe (if cbin < bpr then (0 : Int) else -1)
      (if cbin ≥ bpr * (bpr - 1) then (0 : Int) else 1) → -1 ≤ j ∧ j ≤ 1 := by
    intro j hj
    rw [mem_loopLe] at hj
    obtain ⟨hj1, hj2⟩ := hj
    split_ifs at hj1 hj2 <;> omega
  simp only [neighbour_bins]
  rw [List.nodup_flatMap]
  constructor
  · intro i hi
    refine List.Nodup.map_on ?_ (nodup_loopLt _ _)
    intro j hj j' hj' h
    exact (neighbour_offsets_inj (hib i hi) (hib i hi) (hjb j hj) (hjb j' hj')
      (by omega)).2
  · refine List.Nodup.pairwise_of_forall_ne (nodup_loopLt _ _) ?_
    intro i hi i' hi' hne
    show List.Disjoint _ _
    rw [List.disjoint_iff_ne]
    intro a ha b hb hab
    obtain ⟨j, hj, rfl⟩ := List.mem_map.mp ha
    obtain ⟨j', hj', rfl⟩ := List.mem_map.mp hb
    exact hne (neighbour_offsets_inj (hib i hi) (hib i' hi') (hjb j hj) (hjb j' hj')
      (by omega)).1

/-- C6: for a grid width `bpr >= 1` and a centre bin `cbin` of the grid, every neighbour id
`nbin = cbin + i + bpr*j` of the clipped double loop is a bin of the grid, so `bins[nbin]`
is in bounds. -/
theorem neighbour_bins_in_bounds (bpr cbin : Int) (hbpr : 1 ≤ bpr) (h0 : 0 ≤ cbin)
    (h1 : cbin < bpr * bpr) :
    ∀ nbin ∈ neighbour_bins cbin bpr, 0 ≤ nbin ∧ nbin < bpr * bpr :=
  fun _ h => neighbour_bins_bounds hbpr h0 h1 h

/-- Witness for C6: the corner bin 0 of the 2 x 2 grid. -/
theorem neighbour_bins_in_bounds_witness :
    ((1 : Int) ≤ 2 ∧ (0 : Int) ≤ 0 ∧ (0 : Int) < 2 * 2) ∧
      ∀ nbin ∈ neighbour_bins 0 2, 0 ≤ nbin ∧ nbin < 2 * 2 :=
  ⟨by decide, neighbour_bins_in_bounds 2 0 (by decide) (by decide) (by decide)⟩

/-- C7: the neighbour ids enumerated by the double loop are pairwise distinct and are exactly
the ids `r' * bpr + c'` of the bins of the grid whose row `r'` and column `c'` differ by at
most one from the row `cbin / bpr` and the column `cbin % bpr` of the centre bin; the centre
bin is one of them. -/
theorem neighbour_bins_exact (bpr cbin : Int) (hbpr : 1 ≤ bpr) (h0 : 0 ≤ cbin)
    (h1 : cbin < bpr * bpr) :
    (neighbour_bins cbin bpr).Nodup ∧
    (∀ nbin, nbin ∈ neighbour_bins cbin bpr ↔
      ∃ r' c' : Int, |r' - cbin / bpr| ≤ 1 ∧ |c' - cbin % bpr| ≤ 1 ∧
        0 ≤ r' ∧ r' < bpr ∧ 0 ≤ c' ∧ c' < bpr ∧ nbin = r' * bpr + c') ∧
    cbin ∈ neighbour_bins cbin bpr := by
  obtain ⟨-, hdm, hc0, hc1, hr0, hr1, -, -⟩ := grid_row_col hbpr h0 h1
  refine ⟨neighbour_bins_nodup hbpr h0 h1, ?_, ?_⟩
  · intro nbin
    rw [mem_neighbour_bins_iff hbpr h0 h1]
    constructor
    · rintro ⟨i, j, ⟨hi1, hi2, hi3, hi4⟩, ⟨hj1, hj2, hj3, hj4⟩, rfl⟩
      refine ⟨cbin / bpr + j, cbin % bpr + i, ?_, ?_, hj3, hj4, hi3, hi4, ?_⟩
      · rw [abs_le]; constructor <;> omega
      · rw [abs_le]; constructor <;> omega
      · linear_combination hdm
    · rintro ⟨r', c', hr, hcc, hr0', hr1', hc0', hc1', rfl⟩
      rw [abs_le] at hr hcc
      refine ⟨c' - cbin % bpr, r' - cbin / bpr, ⟨by omega, by omega, by omega, by omega⟩,
        ⟨by omega, by omega, by omega, by omega⟩, ?_⟩
      linear_combination (-1 : Int) * hdm
  · rw [mem_neighbour_bins_iff hbpr h0 h1]
    exact ⟨0, 0, ⟨by omega, by omega, by omega, by omega⟩,
      ⟨by omega, by omega, by omega, by omega⟩, by ring⟩

/-- Witness for C7: the centre bin 4 of the 3 x 3 grid. -/
theorem neighbour_bins_exact_witness :
    (neighbour_bins 4 3).Nodup ∧
    (∀ nbin, nbin ∈ neighbour_bins 4 3 ↔
      ∃ r' c' : Int, |r' - 4 / 3| ≤ 1 ∧ |c' - 4 % 3| ≤ 1 ∧
        0 ≤ r' ∧ r' < 3 ∧ 0 ≤ c' ∧ c' < 3 ∧ nbin = r' * 3 + c') ∧
    (4 : Int) ∈ neighbour_bins 4 3 :=
  neighbour_bins_exact 3 4 (by decide) (by decide) (by decide)



/-! ## The range of the cell ids -/

theorem cutoff_pos : 0 < cutoff := by
  unfold cutoff; norm_num

theorem grid_index_bounds {bpr fx fy : Int} (hx0 : 0 ≤ fx) (hx1 : fx < bpr) (hy0 : 0 ≤ fy)
    (hy1 : fy < bpr) : 0 ≤ fx + bpr * fy ∧ fx + bpr * fy < bpr * bpr := by
  constructor
  · have := mul_nonneg (by omega : (0 : Int) ≤ bpr) hy0
    omega
  · have h2 : bpr * fy ≤ bpr * (bpr - 1) :=
      mul_le_mul_of_nonneg_left (by omega) (by omega)
    have h3 : bpr * (bpr - 1) = bpr * bpr - bpr := by ring
    omega

theorem floor_coord_bounds {size v : ℚ} (h0 : 0 ≤ v) (h1 : v ≤ size)
    (h2 : v < size ∨ size / cutoff < (grid_bpr size : ℚ)) :
    0 ≤ ⌊v / cutoff⌋ ∧ ⌊v / cutoff⌋ < grid_bpr size := by
  constructor
  · exact Int.floor_nonneg.mpr (div_nonneg h0 cutoff_pos.le)
  · rw [Int.floor_lt]
    have hle : size / cutoff ≤ (grid_bpr size : ℚ) := Int.le_ceil _
    rcases h2 with h2 | h2
    · exact lt_of_lt_of_le (div_lt_div_of_pos_right h2 cutoff_pos) hle
    · exact lt_of_le_of_lt (div_le_div_of_nonneg_right h1 cutoff_pos.le) h2

/-- C8, counterexample: with `size = 1/10` (the domain of 20 particles) the grid width is
`ceil(size/cutoff) = 10`, and the position `x = y = size` of the closed domain gets the cell
id `110`, outside `[0, 100)`. -/
theorem binNum_range_counterexample :
    (0 : ℚ) ≤ (demo_particle (1 / 10) (1 / 10) 0).x ∧
    (demo_particle (1 / 10) (1 / 10) 0).x ≤ 1 / 10 ∧
    (0 : ℚ) ≤ (demo_particle (1 / 10) (1 / 10) 0).y ∧
    (demo_particle (1 / 10) (1 / 10) 0).y ≤ 1 / 10 ∧
    grid_bpr (1 / 10) = 10 ∧
    binNum (demo_particle (1 / 10) (1 / 10) 0) (grid_bpr (1 / 10)) = 110 ∧
    ¬ (binNum (demo_particle (1 / 10) (1 / 10) 0) (grid_bpr (1 / 10)) <
      grid_bpr (1 / 10) * grid_bpr (1 / 10)) := by
  have hb : grid_bpr (1 / 10) = 10 := by
    unfold grid_bpr cutoff
    norm_num
  have hn : binNum (demo_particle (1 / 10) (1 / 10) 0) 10 = 110 := by
    unfold binNum demo_particle cutoff
    norm_num
  rw [hb, hn]
  refine ⟨?_, ?_, ?_, ?_, rfl, rfl, by decide⟩ <;> simp [demo_particle]

/-- C8, amended: with `bpr = ceil(size/cutoff)`, for a position with `0 <= x <= size` and
`0 <= y <= size`, where moreover `x < size` and `y < size` in case `size` is an exact
multiple of `cutoff`, `binNum` returns `floor(x/cutoff) + bpr*floor(y/cutoff)` and this id
lies in `[0, bpr*bpr)`. -/
theorem binNum_range (size : ℚ) (p : particle_t)
    (hx0 : 0 ≤ p.x) (hx1 : p.x ≤ size) (hy0 : 0 ≤ p.y) (hy1 : p.y ≤ size)
    (hx2 : p.x < size ∨ size / cutoff < (grid_bpr size : ℚ))
    (hy2 : p.y < size ∨ size / cutoff < (grid_bpr size : ℚ)) :
    binNum p (grid_bpr size) = ⌊p.x / cutoff⌋ + grid_bpr size * ⌊p.y / cutoff⌋ ∧
    0 ≤ binNum p (grid_bpr size) ∧
    binNum p (grid_bpr size) < grid_bpr size * grid_bpr size := by
  obtain ⟨a0, a1⟩ := floor_coord_bounds hx0 hx1 hx2
  obtain ⟨b0, b1⟩ := floor_coord_bounds hy0 hy1 hy2
  exact ⟨rfl, grid_index_bounds a0 a1 b0 b1⟩

/-- Witness for C8: the position `(1/40, 1/40)` in the domain of size `3/100`. -/
theorem binNum_range_witness :
    binNum (demo_particle (1 / 40) (1 / 40) 0) (grid_bpr (3 / 100)) =
      ⌊(demo_particle (1 / 40) (1 / 40) 0).x / cutoff⌋ +
        grid_bpr (3 / 100) * ⌊(demo_particle (1 / 40) (1 / 40) 0).y / cutoff⌋ ∧
    0 ≤ binNum (demo_particle (1 / 40) (1 / 40) 0) (grid_bpr (3 / 100)) ∧
    binNum (demo_particle (1 / 40) (1 / 40) 0) (grid_bpr (3 / 100)) <
      grid_bpr (3 / 100) * grid_bpr (3 / 100) :=
  binNum_range (3 / 100) (demo_particle (1 / 40) (1 / 40) 0)
    (by simp [demo_particle]) (by simp [demo_particle]; norm_num)
    (by simp [demo_particle]) (by simp [demo_particle]; norm_num)
    (Or.inl (by simp [demo_particle]; norm_num)) (Or.inl (by simp [demo_particle]; norm_num))



/-! ## The static partition -/

/-- With `n >= 0` and `n_threads >= 1`, `particles_per_thread` is the quotient rounded up. -/
theorem particles_per_thread_bounds {n n_threads : Int} (hn : 0 ≤ n) (ht : 1 ≤ n_threads) :
    0 ≤ particles_per_thread n n_threads ∧
      n ≤ n_threads * particles_per_thread n n_threads ∧
      n_threads * particles_per_thread n n_threads ≤ n + n_threads - 1 := by
  unfold particles_per_thread
  rw [Int.tdiv_eq_ediv (by omega) (by omega)]
  have h1 := Int.ediv_add_emod (n + n_threads - 1) n_threads
  have h2 := Int.emod_nonneg (n + n_threads - 1) (by omega : n_threads ≠ 0)
  have h3 := Int.emod_lt_of_pos (n + n_threads - 1) (by omega : 0 < n_threads)
  have h4 := Int.ediv_nonneg (by omega : 0 ≤ n + n_threads - 1) (by omega : 0 ≤ n_threads)
  refine ⟨h4, ?_, ?_⟩ <;> omega

theorem first_le_last {n n_threads : Int} (hn : 0 ≤ n) (ht : 1 ≤ n_threads) (t : Int) :
    first n n_threads t ≤ last n n_threads t ∧
      last n n_threads t - first n n_threads t ≤ particles_per_thread n n_threads := by
  obtain ⟨h0, -, -⟩ := particles_per_thread_bounds hn ht
  unfold first last
  have e : (t + 1) * particles_per_thread n n_threads =
      t * particles_per_thread n n_threads + particles_per_thread n n_threads := by ring
  rw [e]
  generalize t * particles_per_thread n n_threads = a at *
  generalize particles_per_thread n n_threads = b at *
  omega

theorem first_nonneg {n n_threads : Int} (hn : 0 ≤ n) (ht : 1 ≤ n_threads) {t : Int}
    (h0 : 0 ≤ t) : 0 ≤ first n n_threads t ∧ last n n_threads t ≤ n := by
  obtain ⟨hp, -, -⟩ := particles_per_thread_bounds hn ht
  unfold first last
  have := mul_nonneg h0 hp
  constructor
  · exact le_min this hn
  · exact min_le_right _ _


/-- Every particle index of `[0, n)` lies in the range of exactly one worker. -/
theorem owner_unique {n n_threads : Int} (hn : 0 ≤ n) (ht : 1 ≤ n_threads) (i : Int)
    (hi0 : 0 ≤ i) (hi1 : i < n) :
    ∃! t : Int, 0 ≤ t ∧ t < n_threads ∧ first n n_threads t ≤ i ∧ i < last n n_threads t := by
  obtain ⟨hp0, hp1, hp2⟩ := particles_per_thread_bounds hn ht
  unfold first last
  generalize particles_per_thread n n_threads = ppt at *
  have hppt : 0 < ppt := by
    by_contra hneg
    have : ppt = 0 := by omega
    rw [this] at hp1
    omega
  have hd1 : i / ppt * ppt ≤ i := Int.ediv_mul_le i (by omega)
  have hd2 : i < (i / ppt + 1) * ppt := Int.lt_ediv_add_one_mul_self i hppt
  have hd0 : 0 ≤ i / ppt := Int.ediv_nonneg hi0 hp0
  refine ⟨i / ppt, ⟨hd0, ?_, ?_, ?_⟩, ?_⟩
  · by_contra hge
    have : n_threads * ppt ≤ i / ppt * ppt :=
      mul_le_mul_of_nonneg_right (by omega) hp0
    omega
  · exact le_trans (min_le_left _ _) hd1
  · exact lt_min hd2 hi1
  · rintro t ⟨ht0, ht1, hf, hl⟩
    have hf' : t * ppt ≤ i := by
      rcases min_le_iff.mp hf with h | h
      · exact h
      · omega
    have hl' : i < (t + 1) * ppt := lt_of_lt_of_le hl (min_le_left _ _)
    have h1 : t ≤ i / ppt := Int.le_ediv_of_mul_le hppt hf'
    have h2 : i / ppt < t + 1 := Int.ediv_lt_of_lt_mul hppt hl'
    omega

theorem particles_per_thread_eq_ceil {n n_threads : Int} (hn : 0 ≤ n) (ht : 1 ≤ n_threads) :
    particles_per_thread n n_threads = ⌈(n : ℚ) / (n_threads : ℚ)⌉ := by
  obtain ⟨-, hp1, hp2⟩ := particles_per_thread_bounds hn ht
  symm
  rw [Int.ceil_eq_iff]
  have hT : (0 : ℚ) < (n_threads : ℚ) := by exact_mod_cast (by omega : 0 < n_threads)
  constructor
  · rw [lt_div_iff₀ hT]
    have : (particles_per_thread n n_threads - 1) * n_threads < n := by
      have e : (particles_per_thread n n_threads - 1) * n_threads =
        n_threads * particles_per_thread n n_threads - n_threads := by ring
      omega
    exact_mod_cast this
  · rw [div_le_iff₀ hT]
    have : n ≤ particles_per_thread n n_threads * n_threads := by
      rw [mul_comm]; exact hp1
    exact_mod_cast this

/-- In unbounded integer arithmetic, for `n >= 0` and `n_threads >= 1`, the ranges
`[first t, last t)` are contiguous and cover `[0, n)` exactly, and none holds more than
`particles_per_thread = ceil(n / n_threads)` indices. -/
theorem unbounded_partition_cover (n n_threads : Int) (hn : 0 ≤ n) (ht : 1 ≤ n_threads) :
    particles_per_thread n n_threads = ⌈(n : ℚ) / (n_threads : ℚ)⌉ ∧
    first n n_threads 0 = 0 ∧
    last n n_threads (n_threads - 1) = n ∧
    (∀ t : Int, last n n_threads t = first n n_threads (t + 1)) ∧
    (∀ t : Int, first n n_threads t ≤ last n n_threads t) ∧
    (∀ i : Int, 0 ≤ i → i < n →
      ∃! t : Int, 0 ≤ t ∧ t < n_threads ∧ first n n_threads t ≤ i ∧ i < last n n_threads t) ∧
    (∀ t : Int, last n n_threads t - first n n_threads t ≤ particles_per_thread n n_threads) := by
  obtain ⟨hp0, hp1, hp2⟩ := particles_per_thread_bounds hn ht
  refine ⟨particles_per_thread_eq_ceil hn ht, ?_, ?_, fun t => rfl,
    fun t => (first_le_last hn ht t).1, owner_unique hn ht, fun t => (first_le_last hn ht t).2⟩
  · simp [first, hn]
  · unfold last
    rw [sub_add_cancel]
    exact min_eq_right hp1




/-! ## The force phase leaves the bin store alone -/

theorem consistent.set_record {w : World} {bpr : Int} (h : consistent w bpr) {p : Nat}
    {q q' : particle_t} (hq : w.particles[p]? = some q) (hidx : q'.idx_bin = q.idx_bin)
    (hx : q'.x = q.x) (hy : q'.y = q.y) :
    consistent { w with particles := w.particles.set p q' } bpr := by
  have hplt : p < w.particles.length := (List.getElem?_eq_some.mp hq).1
  refine (Stored.set_particle h hq hidx).congr (fun r => ?_)
  rw [cell_ids_set w w.bins bpr p q' hplt r]
  by_cases hr : r = p
  · subst hr
    simp [cell_ids, hq, binNum, hx, hy]
  · simp [hr]

theorem world_ok.set_record_ok {w : World} {bpr : Int} {n : Nat} (h : world_ok bpr n w)
    {p : Nat} {q q' : particle_t} (hq : w.particles[p]? = some q)
    (hidx : q'.idx_bin = q.idx_bin) (hx : q'.x = q.x) (hy : q'.y = q.y) :
    world_ok bpr n { w with particles := w.particles.set p q' } :=
  ⟨h.1.set_record hq hidx hx hy, h.2.1, by simpa using h.2.2⟩

theorem world_ok.stored_lt {w : World} {bpr : Int} {n : Nat} (h : world_ok bpr n w)
    {b : Nat} {q : Nat} (hq : q ∈ cellOf w b) : q < n := by
  obtain ⟨k, hk⟩ := List.getElem?_of_mem hq
  obtain ⟨-, pq, h1, -⟩ := h.1.1 b k q hk
  rw [← h.2.2]
  exact (List.getElem?_eq_some.mp h1).1

theorem force_pair_ok (K : Collab) {bpr : Int} {n : Nat} {p q : Nat} (hp : p < n) (hq : q < n)
    (bins0 : List (List Nat)) (s : World × Diag) (h : world_ok bpr n s.1 ∧ s.1.bins = bins0) :
    ∃ s', force_pair K p s q = some s' ∧ world_ok bpr n s'.1 ∧ s'.1.bins = bins0 := by
  obtain ⟨hw, hb⟩ := h
  have hpl : p < s.1.particles.length := by rw [hw.2.2]; exact hp
  have hql : q < s.1.particles.length := by rw [hw.2.2]; exact hq
  have hpp : s.1.particles[p]? = some s.1.particles[p] := List.getElem?_eq_getElem hpl
  have hpq : s.1.particles[q]? = some s.1.particles[q] := List.getElem?_eq_getElem hql
  simp only [force_pair, hpp, hpq]
  exact ⟨_, rfl, hw.set_record_ok hpp rfl rfl rfl, hb⟩

theorem force_bin_ok (K : Collab) {bpr : Int} {n : Nat} {p : Nat} (hp : p < n) {nbin : Int}
    (h0 : 0 ≤ nbin) (h1 : nbin < bpr * bpr)
    (bins0 : List (List Nat)) (s : World × Diag) (h : world_ok bpr n s.1 ∧ s.1.bins = bins0) :
    ∃ s', force_bin K p s nbin = some s' ∧ world_ok bpr n s'.1 ∧ s'.1.bins = bins0 := by
  have hlt : nbin < s.1.bins.length := by rw [h.1.2.1]; exact h1
  simp only [force_bin, h0, hlt, and_self, if_true]
  refine foldlM_invariant (force_pair K p) _
    (fun s' => world_ok bpr n s'.1 ∧ s'.1.bins = bins0) ?_ s h
  intro q s' hq hs'
  exact force_pair_ok K hp (h.1.stored_lt hq) bins0 s' hs'

theorem force_one_ok (c : Config) (K : Collab) {n : Nat} (hbpr : 0 ≤ c.bpr) {p : Int}
    (hp0 : 0 ≤ p) (hp1 : p < n)
    (bins0 : List (List Nat)) (s : World × Diag)
    (h : world_ok c.bpr n s.1 ∧ s.1.bins = bins0) :
    ∃ s', force_one c K s p = some s' ∧ world_ok c.bpr n s'.1 ∧ s'.1.bins = bins0 := by
  obtain ⟨hw, hb⟩ := h
  have hpl : p.toNat < s.1.particles.length := by rw [hw.2.2]; omega
  have hq : s.1.particles[p.toNat]? = some s.1.particles[p.toNat] :=
    List.getElem?_eq_getElem hpl
  have hg := hw.1.in_grid hw.2.1 hq
  have hbpr1 : 1 ≤ c.bpr := by
    by_contra hneg
    have : c.bpr = 0 := by omega
    unfold in_grid at hg
    rw [this] at hg
    omega
  simp only [force_one, hp0, if_true, hq]
  refine foldlM_invariant (force_bin K p.toNat) _
    (fun s' => world_ok c.bpr n s'.1 ∧ s'.1.bins = bins0) ?_ _
    ⟨hw.set_record_ok hq rfl rfl rfl, hb⟩
  intro nbin s' hn hs'
  have hbd := neighbour_bins_bounds hbpr1 hg.1 hg.2 hn
  exact force_bin_ok K (by omega) hbd.1 hbd.2 bins0 s' hs'



/-! ## The phases of a step -/

theorem worker_range {n : Nat} {n_threads t p : Int} (ht0 : 0 ≤ t) (ht1 : t < n_threads)
    (hp : p ∈ loopLt (first n n_threads t) (last n n_threads t)) : 0 ≤ p ∧ p < n := by
  rw [mem_loopLt] at hp
  have := @first_nonneg (n : Int) n_threads (by omega) (by omega) t ht0
  omega

theorem force_phase_ok (c : Config) (K : Collab) {n : Nat} (hbpr : 0 ≤ c.bpr) {t : Int}
    (ht : t ∈ workers c) (s : Sim) (h : sim_ok c n s) :
    ∃ s', force_phase c K s t = some s' ∧ sim_ok c n s' ∧ s'.saves = s.saves ∧
      s'.world.bins = s.world.bins := by
  obtain ⟨ht0, ht1⟩ := mem_loopLt.mp ht
  obtain ⟨hw, hl⟩ := h
  have htl : t.toNat < s.locals.length := by omega
  have hloc : s.locals[t.toNat]? = some s.locals[t.toNat] := List.getElem?_eq_getElem htl
  obtain ⟨⟨w, d⟩, hfold, hw', hb'⟩ := foldlM_invariant (force_one c K)
    (loopLt (first (s.world.particles.length : Int) c.n_threads t)
      (last (s.world.particles.length : Int) c.n_threads t))
    (fun s' => world_ok c.bpr n s'.1 ∧ s'.1.bins = s.world.bins)
    (fun p s' hp hs' => by
      rw [hw.2.2] at hp
      obtain ⟨hp0, hp1⟩ := worker_range ht0 ht1 hp
      exact force_one_ok c K hbpr hp0 hp1 s.world.bins s' hs')
    (s.world, { dmin := 1, davg := 0, navg := 0 }) ⟨hw, rfl⟩
  refine ⟨{ s with
      world := w,
      locals := s.locals.set t.toNat { s.locals[t.toNat] with toDiag := d } },
    ?_, ⟨hw', by simpa using hl⟩, rfl, hb'⟩
  simp only [force_phase, ht0, if_true, hloc, hfold]

theorem migrate_loop_ok (c : Config) (K : Collab) {n : Nat} (hmove : move_in_grid K c.bpr)
    {t : Int} (ht : t ∈ workers c) (w : World) (h : world_ok c.bpr n w) :
    ∃ w', migrate_loop c K w t = some w' ∧ world_ok c.bpr n w' := by
  obtain ⟨ht0, ht1⟩ := mem_loopLt.mp ht
  unfold migrate_loop
  refine foldlM_invariant (migrate_one c K) _ (world_ok c.bpr n) ?_ w h
  intro p w' hp hw'
  rw [h.2.2] at hp
  obtain ⟨hp0, hp1⟩ := worker_range ht0 ht1 hp
  obtain ⟨w'', h1, h2, h3, h4⟩ := migrate_one_consistent c K w' p hw'.1 hp0
    (by rw [hw'.2.2]; exact hp1)
    (fun q hq => by
      have := hmove q (hw'.1.in_grid hw'.2.1 hq)
      exact ⟨this.1, by rw [hw'.2.1]; exact this.2⟩)
  exact ⟨w'', h1, h2, by rw [h3]; exact hw'.2.1, by rw [h4]; exact hw'.2.2⟩

theorem migrate_phase_ok (c : Config) (K : Collab) {n : Nat} (hmove : move_in_grid K c.bpr)
    {t : Int} (ht : t ∈ workers c) (s : Sim) (h : sim_ok c n s) :
    ∃ s', migrate_phase c K s t = some s' ∧ sim_ok c n s' ∧ s'.saves = s.saves := by
  obtain ⟨ht0, ht1⟩ := mem_loopLt.mp ht
  obtain ⟨hw, hl⟩ := h
  have htl : t.toNat < s.locals.length := by omega
  have hloc : s.locals[t.toNat]? = some s.locals[t.toNat] := List.getElem?_eq_getElem htl
  obtain ⟨w, hloop, hw'⟩ := migrate_loop_ok c K hmove ht s.world hw
  refine ⟨{ s with
      world := w,
      locals := s.locals.set t.toNat (stats_update c s.locals[t.toNat]) },
    ?_, ⟨hw', by simpa using hl⟩, rfl⟩
  simp only [migrate_phase, ht0, if_true, hloc, hloop]



theorem loopLt_cons {lo hi : Int} (h : lo < hi) : loopLt lo hi = lo :: loopLt (lo + 1) hi := by
  have e : (hi - lo).toNat = (hi - (lo + 1)).toNat + 1 := by omega
  unfold loopLt
  rw [e, List.range_succ_eq_map, List.map_cons, List.map_map]
  simp only [Nat.cast_zero, add_zero, List.cons.injEq, true_and]
  apply List.map_congr_left
  intro k _
  simp only [Function.comp, Nat.succ_eq_add_one, Nat.cast_add, Nat.cast_one]
  omega

theorem loopLt_nil {lo hi : Int} (h : hi ≤ lo) : loopLt lo hi = [] := by
  have e : (hi - lo).toNat = 0 := by omega
  simp [loopLt, e]

theorem save_log_append (c : Config) (xs ys : List Int) :
    save_log c (xs ++ ys) = save_log c xs ++ save_log c ys := by
  simp [save_log, List.filter_append]

theorem save_log_single (c : Config) (step : Int) :
    save_log c [step] =
      if 1 ≤ c.n_threads ∧ c.no_output = 0 ∧ c.fsave = true ∧ step.tmod c.SAVEFREQ = 0
      then [((0 : Int), step)] else [] := by
  by_cases h : 1 ≤ c.n_threads ∧ c.no_output = 0 ∧ c.fsave = true ∧ step.tmod c.SAVEFREQ = 0
  · rw [if_pos h]; simp [save_log, h]
  · rw [if_neg h]; simp [save_log, h]

/-- The snapshot blocks of all workers at one step: only worker 0 may call `save`. -/
theorem save_all_eq (c : Config) (step : Int) (s : Sim) :
    (workers c).foldlM (save_phase c step) s =
      some { s with saves := s.saves ++ save_log c [step] } := by
  rw [save_log_single]
  by_cases hT : 1 ≤ c.n_threads
  · have hrest : ∀ s' : Sim, (loopLt 1 c.n_threads).foldlM (save_phase c step) s' = some s' := by
      intro s'
      obtain ⟨s'', h1, h2⟩ := foldlM_invariant (save_phase c step) (loopLt 1 c.n_threads)
        (fun x => x = s')
        (fun t x ht hx => by
          have := (mem_loopLt.mp ht).1
          have ht0 : t ≠ 0 := by omega
          subst hx
          refine ⟨x, ?_, rfl⟩
          unfold save_phase
          split_ifs <;> simp_all)
        s' rfl
      rw [h1, h2]
    have hw : workers c = 0 :: loopLt (0 + 1) c.n_threads := loopLt_cons (by omega)
    rw [hw, List.foldlM_cons]
    by_cases hcond : c.no_output = 0 ∧ c.fsave = true ∧ step.tmod c.SAVEFREQ = 0
    · have h1 : save_phase c step s 0 = some { s with saves := s.saves ++ [(0, step)] } := by
        simp [save_phase, hcond]
      rw [h1]
      simp only [Option.bind_eq_bind, Option.some_bind, zero_add]
      rw [hrest]
      simp [hT, hcond]
    · have h1 : save_phase c step s 0 = some s := by
        unfold save_phase
        split_ifs <;> simp_all
      rw [h1]
      simp only [Option.bind_eq_bind, Option.some_bind, zero_add]
      rw [hrest]
      have : ¬ (1 ≤ c.n_threads ∧ c.no_output = 0 ∧ c.fsave = true ∧
          step.tmod c.SAVEFREQ = 0) := fun h => hcond h.2
      simp [this]
  · have hw : workers c = [] := loopLt_nil (by omega)
    have : ¬ (1 ≤ c.n_threads ∧ c.no_output = 0 ∧ c.fsave = true ∧
        step.tmod c.SAVEFREQ = 0) := fun h => hT h.1
    rw [hw]
    simp [this]



/-! ## The step loop -/

/-- One step of all workers succeeds, keeps the invariant of the run and logs the snapshot
of the step. -/
theorem sim_step_ok (c : Config) (K : Collab) {n : Nat} (hbpr : 0 ≤ c.bpr)
    (hmove : move_in_grid K c.bpr) (step : Int) (s : Sim) (h : sim_ok c n s) :
    ∃ s', sim_step c K s step = some s' ∧ sim_ok c n s' ∧
      s'.saves = s.saves ++ save_log c [step] := by
  obtain ⟨s1, h1, hok1, hs1⟩ := foldlM_invariant (force_phase c K) (workers c)
    (fun s' => sim_ok c n s' ∧ s'.saves = s.saves)
    (fun t s' ht hs' => by
      obtain ⟨s'', e, hok, hsv, -⟩ := force_phase_ok c K hbpr ht s' hs'.1
      exact ⟨s'', e, hok, by rw [hsv]; exact hs'.2⟩)
    s ⟨h, rfl⟩
  obtain ⟨s2, h2, hok2, hs2⟩ := foldlM_invariant (migrate_phase c K) (workers c)
    (fun s' => sim_ok c n s' ∧ s'.saves = s.saves)
    (fun t s' ht hs' => by
      obtain ⟨s'', e, hok, hsv⟩ := migrate_phase_ok c K hmove ht s' hs'.1
      exact ⟨s'', e, hok, by rw [hsv]; exact hs'.2⟩)
    s1 ⟨hok1, hs1⟩
  refine ⟨{ s2 with saves := s2.saves ++ save_log c [step] }, ?_, hok2, ?_⟩
  · simp only [sim_step, h1, h2]
    exact save_all_eq c step s2
  · simp only [hs2]

/-- The step loop of all workers succeeds, keeps the invariant of the run and logs the
snapshots of its steps. -/
theorem step_loop_ok (c : Config) (K : Collab) {n : Nat} (hbpr : 0 ≤ c.bpr)
    (hmove : move_in_grid K c.bpr) (s : Sim) (h : sim_ok c n s) :
    ∃ s', step_loop c K s = some s' ∧ sim_ok c n s' ∧
      s'.saves = s.saves ++ save_log c (loopLt 0 c.NSTEPS) := by
  obtain ⟨s', h1, hok, hsv⟩ := foldlM_indexed (sim_step c K) (loopLt 0 c.NSTEPS)
    (fun i s' => sim_ok c n s' ∧
      s'.saves = s.saves ++ save_log c ((loopLt 0 c.NSTEPS).take i))
    (fun i hi s' hs' => by
      obtain ⟨s'', e, hok, hsv⟩ := sim_step_ok c K hbpr hmove ((loopLt 0 c.NSTEPS).get ⟨i, hi⟩)
        s' hs'.1
      refine ⟨s'', e, hok, ?_⟩
      rw [hsv, hs'.2, List.take_succ, save_log_append, List.append_assoc]
      simp [List.getElem?_eq_getElem hi])
    s ⟨h, by simp [save_log]⟩
  refine ⟨s', h1, hok, ?_⟩
  rw [hsv, List.take_length]

/-- The whole run succeeds when the cell ids stay in the grid: the initial binning and every
step keep the invariant of the run, and the snapshots are those of `save_log`. -/
theorem run_ok (c : Config) (K : Collab) (particles : List particle_t) (hbpr : 0 ≤ c.bpr)
    (hgrid : ∀ q ∈ particles, in_grid q c.bpr) (hmove : move_in_grid K c.bpr) :
    ∃ s, run c K particles = some s ∧ sim_ok c particles.length s ∧
      s.saves = save_log c (loopLt 0 c.NSTEPS) := by
  obtain ⟨w, hw, hcons, hbl, hpl, -⟩ := init_bins_consistent particles c.bpr hgrid
  obtain ⟨s, hs, hok, hsv⟩ := @step_loop_ok c K particles.length hbpr hmove
    { world := w, locals := List.replicate c.n_threads.toNat init_locals, saves := [] }
    ⟨⟨hcons, hbl, hpl⟩, by simp⟩
  refine ⟨s, ?_, hok, by simpa using hsv⟩
  simp only [run, init_sim, hw, hs]



/-! ## Slot consistency on its own -/

/-- Slot consistency survives `bin_add` of a particle that is in no bin. -/
theorem slot_consistent_add {w : World} (h : slot_consistent w) {bn : Int} {p : Nat}
    (hb0 : 0 ≤ bn) (hb1 : bn < w.bins.length) (hp : p < w.particles.length)
    (hfree : ∀ b, p ∉ cellOf w b) :
    ∃ w', bin_add w bn p = some w' ∧ slot_consistent w' := by
  obtain ⟨pp, hpp⟩ : ∃ pp, w.particles[p]? = some pp := ⟨_, List.getElem?_eq_getElem hp⟩
  have hbn : bn.toNat < w.bins.length := by omega
  refine ⟨_, bin_add_eq w bn p pp hb0 hb1 hpp, ?_⟩
  intro b k q hq
  rw [cellOf_set_bins _ _ _ _ _ hbn] at hq
  have hold : (cellOf w b)[k]? = some q →
      ∃ pq, (w.particles.set p
        { pp with idx_bin := ((cellOf w bn.toNat).length : Int) })[q]? = some pq ∧
        pq.idx_bin = (k : Int) := by
    intro hq'
    obtain ⟨pq, h2, h3⟩ := h b k q hq'
    have hne : q ≠ p := by
      intro hqp
      rw [hqp] at hq'
      exact hfree b (List.getElem?_mem hq')
    exact ⟨pq, by rw [List.getElem?_set_ne (Ne.symm hne)]; exact h2, h3⟩
  by_cases hb : b = bn.toNat
  · rw [if_pos hb] at hq
    by_cases hk : k < (cellOf w bn.toNat).length
    · rw [List.getElem?_append_left hk] at hq
      exact hold (hb ▸ hq)
    · rw [List.getElem?_append_right (by omega)] at hq
      have hk0 : k - (cellOf w bn.toNat).length = 0 := by
        by_contra hne
        rw [List.getElem?_eq_none (by simp; omega)] at hq
        cases hq
      rw [hk0] at hq
      simp at hq
      subst hq
      refine ⟨_, List.getElem?_set_self hp, ?_⟩
      simp only
      omega
  · rw [if_neg hb] at hq
    exact hold hq

/-- A slot-consistent bin store in which no particle is in two bins stores the particles
located by the bin that holds them. -/
theorem Stored_of_slot_one_cell {w : World} (hs : slot_consistent w) (ho : one_cell w) :
    ∃ loc : Nat → Option Int, Stored loc w ∧
      ∀ q, (loc q = none ↔ ∀ b, q ∉ cellOf w b) := by
  classical
  refine ⟨fun q => if h : ∃ b : Nat, q ∈ cellOf w b then some ((Classical.choose h : Nat) : Int)
    else none, ⟨?_, ?_⟩, ?_⟩
  · intro b k q hq
    have hex : ∃ b : Nat, q ∈ cellOf w b := ⟨b, List.getElem?_mem hq⟩
    refine ⟨?_, hs b k q hq⟩
    simp only [hex, dite_true]
    obtain ⟨k', hk'⟩ := List.getElem?_of_mem (Classical.choose_spec hex)
    rw [ho _ _ _ _ _ hk' hq]
  · intro q bn hq
    by_cases hex : ∃ b : Nat, q ∈ cellOf w b
    · simp only [hex, dite_true] at hq
      have hbn := Option.some.inj hq
      obtain ⟨k, hk⟩ := List.getElem?_of_mem (Classical.choose_spec hex)
      obtain ⟨pq, h1, h2⟩ := hs _ k q hk
      refine ⟨pq, h1, by omega, by omega, ?_⟩
      have e1 : bn.toNat = Classical.choose hex := by omega
      have e2 : pq.idx_bin.toNat = k := by omega
      rw [e1, e2]; exact hk
    · simp [hex] at hq
  · intro q
    by_cases hex : ∃ b : Nat, q ∈ cellOf w b
    · simp only [hex, dite_true]
      constructor
      · intro h; cases h
      · intro h
        obtain ⟨b, hb⟩ := hex
        exact absurd hb (h b)
    · simp only [hex, dite_false, true_iff]
      intro b hb
      exact hex ⟨b, hb⟩

/-- Slot consistency survives `bin_remove` of a particle from the bin that holds it, when no
particle is in two bins; and then still no particle is in two bins. -/
theorem slot_consistent_remove {w : World} (hs : slot_consistent w) (ho : one_cell w)
    {bn : Int} {p : Nat} (hb0 : 0 ≤ bn) (hp : p ∈ cellOf w bn.toNat) :
    ∃ w', bin_remove w bn p = some w' ∧ slot_consistent w' ∧ one_cell w' := by
  obtain ⟨loc, hS, -⟩ := Stored_of_slot_one_cell hs ho
  obtain ⟨k, hk⟩ := List.getElem?_of_mem hp
  have hloc : loc p = some bn := by
    rw [(hS.1 _ k p hk).1]
    congr 1
    omega
  obtain ⟨w', h1, h2, -⟩ := hS.bin_remove_ok hloc
  exact ⟨w', h1, h2.slot_consistent, h2.one_cell⟩

/-- When no particle is in two bins, this is still so after `bin_add` of a particle that is
in no bin. -/
theorem one_cell_add {w : World} (hs : slot_consistent w) (ho : one_cell w) {bn : Int}
    {p : Nat} (hb0 : 0 ≤ bn) (hb1 : bn < w.bins.length) (hp : p < w.particles.length)
    (hfree : ∀ b, p ∉ cellOf w b) :
    ∃ w', bin_add w bn p = some w' ∧ one_cell w' := by
  obtain ⟨loc, hS, hnone⟩ := Stored_of_slot_one_cell hs ho
  obtain ⟨w', h1, h2, -⟩ := hS.bin_add_ok ((hnone p).mpr hfree) hp hb0 hb1
  exact ⟨w', h1, h2.one_cell⟩



/-! ## Counting the snapshots -/

theorem loopLt_snoc {lo hi : Int} (h : lo ≤ hi) : loopLt lo (hi + 1) = loopLt lo hi ++ [hi] := by
  have e : (hi + 1 - lo).toNat = (hi - lo).toNat + 1 := by omega
  unfold loopLt
  rw [e, List.range_succ, List.map_append]
  simp only [List.map_cons, List.map_nil, List.append_cancel_left_eq, List.cons.injEq, and_true]
  omega

/-- Among the steps `0 .. k`, those divisible by `f >= 1` number `k / f + 1`. -/
theorem count_multiples (f k : Nat) (hf : 1 ≤ f) :
    ((loopLt 0 ((k : Int) + 1)).filter
      (fun step => decide (step.tmod (f : Int) = 0))).length = k / f + 1 := by
  induction k with
  | zero =>
    have : loopLt 0 (((0 : Nat) : Int) + 1) = [0] := by
      rw [loopLt_cons (by omega), loopLt_nil (by omega)]
    rw [this]
    simp
  | succ k ih =>
    have hs : loopLt 0 (((k + 1 : Nat) : Int) + 1) =
        loopLt 0 ((k : Int) + 1) ++ [(k : Int) + 1] := by
      rw [← loopLt_snoc (by omega)]
      rfl
    rw [hs, List.filter_append, List.length_append, ih, Nat.succ_div]
    have hm : ((k : Int) + 1).tmod (f : Int) = (((k + 1) % f : Nat) : Int) := by
      rw [Int.tmod_eq_emod (by omega) (by omega)]
      norm_cast
    by_cases hd : f ∣ k + 1
    · have : (k + 1) % f = 0 := Nat.mod_eq_zero_of_dvd hd
      have hz : ((k : Int) + 1).tmod (f : Int) = 0 := by rw [hm, this]; rfl
      simp only [List.filter_cons, hz, decide_True, if_true, List.filter_nil, List.length_cons,
        List.length_nil, if_pos hd]
    · have : (k + 1) % f ≠ 0 := fun h => hd (Nat.dvd_of_mod_eq_zero h)
      have hz : ((k : Int) + 1).tmod (f : Int) ≠ 0 := by rw [hm]; exact_mod_cast this
      simp only [List.filter_cons, hz, decide_False, List.filter_nil, List.length_nil,
        if_neg hd]
      simp

/-- The number of steps at which a snapshot is due is `(NSTEPS - 1) / SAVEFREQ + 1`. -/
theorem save_steps_length (c : Config) (hN : 1 ≤ c.NSTEPS) (hF : 1 ≤ c.SAVEFREQ) :
    ((save_steps c).length : Int) = (c.NSTEPS - 1) / c.SAVEFREQ + 1 := by
  have h := count_multiples c.SAVEFREQ.toNat (c.NSTEPS - 1).toNat (by omega)
  have e1 : ((c.SAVEFREQ.toNat : Nat) : Int) = c.SAVEFREQ := by omega
  have e2 : (((c.NSTEPS - 1).toNat : Nat) : Int) + 1 = c.NSTEPS := by omega
  rw [e1, e2] at h
  unfold save_steps
  rw [h]
  push_cast
  rw [e1]
  have e3 : (((c.NSTEPS - 1).toNat : Nat) : Int) = c.NSTEPS - 1 := by omega
  rw [e3]

theorem save_log_eq (c : Config) (hT : 1 ≤ c.n_threads) (hno : c.no_output = 0)
    (hfs : c.fsave = true) :
    save_log c (loopLt 0 c.NSTEPS) = (save_steps c).map (fun step => ((0 : Int), step)) := by
  unfold save_log save_steps
  congr 1
  apply List.filter_congr
  intro step _
  simp [hT, hno, hfs]

theorem migrate_one_escape (c : Config) (K : Collab) (w : World) (p : Int) (q : particle_t)
    (hp : 0 ≤ p) (hq : w.particles[p.toNat]? = some q) (hold : 0 ≤ binNum q c.bpr)
    (hnew : binNum (move K q) c.bpr < 0) : migrate_one c K w p = none := by
  have hne : binNum q c.bpr ≠ binNum (move K q) c.bpr := by omega
  have hadd : ∀ w2 : World, bin_add w2 (binNum (move K q) c.bpr) p.toNat = none := by
    intro w2
    have : ¬ (0 ≤ binNum (move K q) c.bpr) := by omega
    simp [bin_add, this]
  simp only [migrate_one, hp, if_true, hq, hne, ne_eq, not_false_eq_true]
  cases bin_remove { particles := w.particles.set p.toNat (move K q), bins := w.bins }
    (binNum q c.bpr) p.toNat with
  | none => rfl
  | some w2 => exact hadd w2



/-! ## Facts about the concrete worlds -/

theorem demo_particles_in_grid : ∀ q ∈ demo_particles, in_grid q demo_config.bpr := by
  intro q hq
  simp only [demo_particles, List.mem_cons, List.mem_singleton, List.not_mem_nil, or_false]
    at hq
  rcases hq with rfl | rfl | rfl | rfl | rfl <;>
    (unfold in_grid binNum demo_particle cutoff demo_config; norm_num)

theorem demo_collab_in_grid : move_in_grid demo_collab demo_config.bpr := by
  intro q _
  unfold move demo_collab in_grid binNum cutoff demo_config
  by_cases h : q.x < 1 / 100
  · simp only [h, if_true]; norm_num
  · simp only [h, if_false]; norm_num

theorem single_world_slots : slot_consistent single_world := by
  intro b k q h
  rcases b with _ | b
  · rcases k with _ | k
    · simp [cellOf, single_world] at h
      subst h
      exact ⟨_, rfl, rfl⟩
    · simp [cellOf, single_world] at h
  · simp [cellOf, single_world] at h

theorem single_world_one_cell : one_cell single_world := by
  intro b b' k k' q h h'
  rcases b with _ | b
  · rcases b' with _ | b'
    · rfl
    · simp [cellOf, single_world] at h'
  · simp [cellOf, single_world] at h

theorem unbinned_world_slots : slot_consistent unbinned_world := by
  intro b k q h
  rcases b with _ | b <;> simp [cellOf, unbinned_world] at h

theorem unbinned_world_free : ∀ b, 0 ∉ cellOf unbinned_world b := by
  intro b
  rcases b with _ | b <;> simp [cellOf, unbinned_world]

theorem alias_world_slots : slot_consistent alias_world := by
  intro b k q h
  rcases b with _ | _ | b
  · rcases k with _ | _ | k <;> simp [cellOf, alias_world] at h <;> subst h <;>
      simp [alias_world, demo_particle]
  · rcases k with _ | _ | k <;> simp [cellOf, alias_world] at h <;> subst h <;>
      simp [alias_world, demo_particle]
  · simp [cellOf, alias_world] at h

theorem alias_world_remove :
    bin_remove alias_world 0 0 =
      some { particles := [demo_particle 0 0 0, demo_particle 0 0 0, demo_particle 0 0 0],
             bins := [[1], [2, 1]] } := by
  decide

theorem alias_world_broken :
    ¬ slot_consistent
      { particles := [demo_particle 0 0 0, demo_particle 0 0 0, demo_particle 0 0 0],
        bins := [[1], [2, 1]] } := by
  intro h
  obtain ⟨pq, h1, h2⟩ := h 1 1 1 (by simp [cellOf])
  simp [demo_particle] at h1
  subst h1
  simp at h2

theorem escape_migrate_loop : migrate_loop escape_config escape_collab single_world 0 = none := by
  have hl : loopLt
      (first (single_world.particles.length : Int) escape_config.n_threads 0)
      (last (single_world.particles.length : Int) escape_config.n_threads 0) = [0] := by
    decide
  unfold migrate_loop
  simp only [hl, List.foldlM_cons, List.foldlM_nil]
  rw [migrate_one_escape escape_config escape_collab single_world 0 (demo_particle 0 0 0)
    (by decide) rfl]
  · rfl
  · unfold binNum demo_particle cutoff escape_config; norm_num
  · unfold move escape_collab binNum demo_particle cutoff escape_config; norm_num



theorem escape_binNum (q : particle_t) :
    binNum (move escape_collab q) 1 = binNum q 1 - 1 := by
  unfold move escape_collab binNum
  simp only
  have e : (q.x - 1 / 100) / cutoff = q.x / cutoff - 1 := by
    unfold cutoff
    rw [sub_div]
    norm_num
  rw [e, Int.floor_sub_one]
  ring

/-- In the 1 x 1 grid, the migration loop of the worker 0 with the left-shifting `move` calls
`bin_add` on the bin `-1`, whatever the state of the only particle. -/
theorem escape_migrate_loop_none (w : World) (h : world_ok escape_config.bpr 1 w) :
    migrate_loop escape_config escape_collab w 0 = none := by
  have hlen : (w.particles.length : Int) = 1 := by rw [h.2.2]; rfl
  have hl : loopLt (first (w.particles.length : Int) escape_config.n_threads 0)
      (last (w.particles.length : Int) escape_config.n_threads 0) = [0] := by
    rw [hlen]; decide
  have hq : w.particles[(0 : Int).toNat]? = some w.particles[0] :=
    List.getElem?_eq_getElem (by rw [h.2.2]; decide)
  have hg := h.1.in_grid h.2.1 hq
  have hb : escape_config.bpr = 1 := rfl
  unfold in_grid at hg
  rw [hb] at hg
  unfold migrate_loop
  simp only [hl, List.foldlM_cons, List.foldlM_nil]
  rw [migrate_one_escape escape_config escape_collab w 0 w.particles[0] (by decide) hq]
  · rfl
  · rw [hb]; exact hg.1
  · rw [hb, escape_binNum]; omega

/-- The run of one step in the 1 x 1 grid with the left-shifting `move` does not reach the
end of its migration phase: `bin_add` is called on the bin `-1`. -/
theorem escape_run_none : run escape_config escape_collab [demo_particle 0 0 0] = none := by
  have hgrid : ∀ q ∈ [demo_particle 0 0 0], in_grid q escape_config.bpr := by
    intro q hq
    rw [List.mem_singleton] at hq
    subst hq
    unfold in_grid binNum demo_particle cutoff escape_config; norm_num
  obtain ⟨w, hw, hcons, hbl, hpl, -⟩ :=
    init_bins_consistent [demo_particle 0 0 0] escape_config.bpr hgrid
  have hsteps : loopLt 0 escape_config.NSTEPS = [0] := by decide
  have hwork : workers escape_config = [0] := by decide
  obtain ⟨s1, h1, hok1, -⟩ := foldlM_invariant (force_phase escape_config escape_collab)
    (workers escape_config)
    (fun s' => sim_ok escape_config 1 s' ∧ True)
    (fun t s' ht hs' => by
      obtain ⟨s'', e, hok, -, -⟩ :=
        force_phase_ok escape_config escape_collab (by decide) ht s' hs'.1
      exact ⟨s'', e, hok, trivial⟩)
    { world := w, locals := List.replicate escape_config.n_threads.toNat init_locals,
      saves := [] }
    ⟨⟨⟨hcons, hbl, hpl⟩, by simp⟩, trivial⟩
  have hl0 : 0 < s1.locals.length := by rw [hok1.2]; decide
  have hloc : s1.locals[(0 : Int).toNat]? = some s1.locals[0] :=
    List.getElem?_eq_getElem hl0
  have hmig : migrate_phase escape_config escape_collab s1 0 = none := by
    simp only [migrate_phase, le_refl, if_true, hloc,
      escape_migrate_loop_none s1.world hok1.1]
  simp only [run, init_sim, hw, step_loop, hsteps, List.foldlM_cons, List.foldlM_nil, sim_step,
    h1]
  rw [hwork] at *
  simp only [List.foldlM_cons, hmig]
  rfl



/-! ## The invariants of the bin store along the run -/

/-- C3, counterexample. First, slot consistency alone is not kept by `bin_remove`: in
`alias_world` every stored particle has `idx_bin` equal to its index and particle 0 is in
bin 0, yet after `bin_remove(0, particle 0)` particle 1 sits at index 1 of bin 1 with
`idx_bin = 0`. Second, without a bound on the cell ids the migration phase need not reach its
end: in the slot-consistent `single_world` the left-shifting `move` makes the migration loop
call `bin_add` on the bin `-1`. -/
theorem slot_consistency_counterexample :
    (slot_consistent alias_world ∧ 0 ∈ cellOf alias_world (0 : Int).toNat ∧
      ∃ w', bin_remove alias_world 0 0 = some w' ∧ ¬ slot_consistent w') ∧
    (slot_consistent single_world ∧
      migrate_loop escape_config escape_collab single_world 0 = none) :=
  ⟨⟨alias_world_slots, by simp [cellOf, alias_world],
      _, alias_world_remove, alias_world_broken⟩,
    single_world_slots, escape_migrate_loop⟩

/-- C3, amended: slot consistency is kept by `bin_add` of a particle that is in no bin; it is
kept by `bin_remove` of a particle from the bin that holds it when no particle is stored in
two bins (which both operations keep); hence, for a grid width `bpr >= 0` and provided every
computed cell id lies in `[0, numbins)` (the initial ids do and `move` keeps the ids in the
grid), the initial binning succeeds and gives a slot-consistent bin store, and so does the
run of any number `k` of steps of the sequentialised step loop. -/
theorem slot_consistency_invariant (w₁ : World) (bn₁ : Int) (p₁ : Nat) (w₂ : World)
    (bn₂ : Int) (p₂ : Nat) (c : Config) (K : Collab) (particles : List particle_t) :
    (slot_consistent w₁ → 0 ≤ bn₁ → bn₁ < w₁.bins.length → p₁ < w₁.particles.length →
      (∀ b, p₁ ∉ cellOf w₁ b) →
      ∃ w', bin_add w₁ bn₁ p₁ = some w' ∧ slot_consistent w' ∧ (one_cell w₁ → one_cell w')) ∧
    (slot_consistent w₂ → one_cell w₂ → 0 ≤ bn₂ → p₂ ∈ cellOf w₂ bn₂.toNat →
      ∃ w', bin_remove w₂ bn₂ p₂ = some w' ∧ slot_consistent w' ∧ one_cell w') ∧
    (0 ≤ c.bpr → (∀ q ∈ particles, in_grid q c.bpr) → move_in_grid K c.bpr →
      (∃ w0, init_bins particles c.bpr = some w0 ∧ slot_consistent w0 ∧ one_cell w0) ∧
      ∀ k : Int, ∃ s, run { c with NSTEPS := k } K particles = some s ∧
        slot_consistent s.world ∧ one_cell s.world) := by
  refine ⟨?_, ?_, ?_⟩
  · intro hs hb0 hb1 hp hfree
    obtain ⟨w', h1, h2⟩ := slot_consistent_add hs hb0 hb1 hp hfree
    refine ⟨w', h1, h2, fun ho => ?_⟩
    obtain ⟨w'', h3, h4⟩ := one_cell_add hs ho hb0 hb1 hp hfree
    rw [h1] at h3
    cases h3
    exact h4
  · intro hs ho hb0 hp
    exact slot_consistent_remove hs ho hb0 hp
  · intro hbpr hgrid hmove
    constructor
    · obtain ⟨w0, h1, h2, -⟩ := init_bins_consistent particles c.bpr hgrid
      exact ⟨w0, h1, Stored.slot_consistent h2, Stored.one_cell h2⟩
    · intro k
      obtain ⟨s, h1, h2, -⟩ := run_ok { c with NSTEPS := k } K particles hbpr hgrid hmove
      exact ⟨s, h1, Stored.slot_consistent h2.1.1, Stored.one_cell h2.1.1⟩

/-- Witness for C3: `bin_add` on the unbinned particle, `bin_remove` on the single stored
particle, and the run of the five particles on the 3 x 3 grid. -/
theorem slot_consistency_invariant_witness :
    (∃ w', bin_add unbinned_world 0 0 = some w' ∧ slot_consistent w' ∧
      (one_cell unbinned_world → one_cell w')) ∧
    (∃ w', bin_remove single_world 0 0 = some w' ∧ slot_consistent w' ∧ one_cell w') ∧
    ((∃ w0, init_bins demo_particles demo_config.bpr = some w0 ∧ slot_consistent w0 ∧
        one_cell w0) ∧
      ∀ k : Int, ∃ s, run { demo_config with NSTEPS := k } demo_collab demo_particles = some s ∧
        slot_consistent s.world ∧ one_cell s.world) :=
  have h := slot_consistency_invariant unbinned_world 0 0 single_world 0 0 demo_config
    demo_collab demo_particles
  ⟨h.1 unbinned_world_slots (by decide) (by decide) (by decide) unbinned_world_free,
    h.2.1 single_world_slots single_world_one_cell (by decide) (by simp [cellOf, single_world]),
    h.2.2 (by decide) demo_particles_in_grid demo_collab_in_grid⟩

/-- C4: for a grid width `bpr >= 0` and provided every computed cell id lies in
`[0, numbins)` (the initial ids do and `move` keeps the ids in the grid), the initial binning
succeeds and so does the run of any number `k` of steps; after each of them the bin sizes add
up to the particle count `n` and every particle occurs exactly once in the bins. -/
theorem conservation (c : Config) (K : Collab) (particles : List particle_t)
    (hbpr : 0 ≤ c.bpr) (hgrid : ∀ q ∈ particles, in_grid q c.bpr)
    (hmove : move_in_grid K c.bpr) :
    (∃ w0, init_bins particles c.bpr = some w0 ∧ w0.particles.length = particles.length ∧
      conserved w0) ∧
    ∀ k : Int, ∃ s, run { c with NSTEPS := k } K particles = some s ∧
      s.world.particles.length = particles.length ∧ conserved s.world := by
  constructor
  · obtain ⟨w0, h1, h2, -, h3, -⟩ := init_bins_consistent particles c.bpr hgrid
    exact ⟨w0, h1, h3, h2.conserved⟩
  · intro k
    obtain ⟨s, h1, h2, -⟩ := run_ok { c with NSTEPS := k } K particles hbpr hgrid hmove
    exact ⟨s, h1, h2.1.2.2, h2.1.1.conserved⟩

/-- Witness for C4: the five particles on the 3 x 3 grid. -/
theorem conservation_witness :
    (∃ w0, init_bins demo_particles demo_config.bpr = some w0 ∧
      w0.particles.length = demo_particles.length ∧ conserved w0) ∧
    ∀ k : Int, ∃ s, run { demo_config with NSTEPS := k } demo_collab demo_particles = some s ∧
      s.world.particles.length = demo_particles.length ∧ conserved s.world :=
  conservation demo_config demo_collab demo_particles (by decide) demo_particles_in_grid
    demo_collab_in_grid

/-- C5, counterexample: one particle at the origin of a 1 x 1 grid and a `move` that shifts
it to the left by `cutoff`. The initial cell id is in the grid, the new one is `-1`, and the
migration phase calls `bin_add` on the bin `-1`: no state with the particle stored in the
bin of its position is reached. -/
theorem membership_counterexample :
    (∀ q ∈ [demo_particle 0 0 0], in_grid q escape_config.bpr) ∧
    run escape_config escape_collab [demo_particle 0 0 0] = none ∧
    ¬ ∃ s, run escape_config escape_collab [demo_particle 0 0 0] = some s ∧
      membership_consistent s.world escape_config.bpr := by
  refine ⟨?_, escape_run_none, ?_⟩
  · intro q hq
    rw [List.mem_singleton] at hq
    subst hq
    unfold in_grid binNum demo_particle cutoff escape_config; norm_num
  · rintro ⟨s, hs, -⟩
    rw [escape_run_none] at hs
    cases hs

/-- C5, amended: for a grid width `bpr >= 0` and provided every computed cell id lies in
`[0, numbins)` (the initial ids do and `move` keeps the ids in the grid), the initial binning
succeeds and so does the run of any number `k` of steps, for any such `move`; after each of
them every particle is stored in exactly one bin, and the id of that bin is `binNum` of the
current position of the particle. -/
theorem membership_consistency (c : Config) (K : Collab) (particles : List particle_t)
    (hbpr : 0 ≤ c.bpr) (hgrid : ∀ q ∈ particles, in_grid q c.bpr)
    (hmove : move_in_grid K c.bpr) :
    (∃ w0, init_bins particles c.bpr = some w0 ∧ membership_consistent w0 c.bpr) ∧
    ∀ k : Int, ∃ s, run { c with NSTEPS := k } K particles = some s ∧
      membership_consistent s.world c.bpr := by
  constructor
  · obtain ⟨w0, h1, h2, -⟩ := init_bins_consistent particles c.bpr hgrid
    exact ⟨w0, h1, h2.membership⟩
  · intro k
    obtain ⟨s, h1, h2, -⟩ := run_ok { c with NSTEPS := k } K particles hbpr hgrid hmove
    exact ⟨s, h1, h2.1.1.membership⟩

/-- Witness for C5: the five particles on the 3 x 3 grid. -/
theorem membership_consistency_witness :
    (∃ w0, init_bins demo_particles demo_config.bpr = some w0 ∧
      membership_consistent w0 demo_config.bpr) ∧
    ∀ k : Int, ∃ s, run { demo_config with NSTEPS := k } demo_collab demo_particles = some s ∧
      membership_consistent s.world demo_config.bpr :=
  membership_consistency demo_config demo_collab demo_particles (by decide)
    demo_particles_in_grid demo_collab_in_grid



/-! ## The number of snapshots -/

theorem pred_div_add_one {N F : Int} (hF : 1 ≤ F) :
    (F ∣ N → (N - 1) / F + 1 = N / F) ∧ (¬ F ∣ N → (N - 1) / F + 1 = N / F + 1) := by
  have hdm := Int.ediv_add_emod N F
  have hr0 := Int.emod_nonneg N (by omega : F ≠ 0)
  have hr1 := Int.emod_lt_of_pos N (by omega : 0 < F)
  constructor
  · intro hd
    have hz : N % F = 0 := Int.emod_eq_zero_of_dvd hd
    have : (N - 1) / F = N / F - 1 ∧ (N - 1) % F = F - 1 := by
      rw [Int.ediv_emod_unique (by omega : 0 < F)]
      refine ⟨?_, by omega, by omega⟩
      have : F * (N / F - 1) = F * (N / F) - F := by ring
      omega
    omega
  · intro hd
    have hz : N % F ≠ 0 := fun h => hd (Int.dvd_of_emod_eq_zero h)
    have : (N - 1) / F = N / F ∧ (N - 1) % F = N % F - 1 := by
      rw [Int.ediv_emod_unique (by omega : 0 < F)]
      exact ⟨by omega, by omega, by omega⟩
    omega

/-- With diagnostics enabled and an open snapshot file, the run of at least one step of at
least one worker writes `(NSTEPS - 1) / SAVEFREQ + 1` snapshots, all by the worker 0. -/
theorem run_saves (c : Config) (K : Collab) (particles : List particle_t)
    (hbpr : 0 ≤ c.bpr) (hgrid : ∀ q ∈ particles, in_grid q c.bpr)
    (hmove : move_in_grid K c.bpr) (hno : c.no_output = 0) (hfs : c.fsave = true)
    (hT : 1 ≤ c.n_threads) (hN : 1 ≤ c.NSTEPS) (hF : 1 ≤ c.SAVEFREQ) :
    ∃ s, run c K particles = some s ∧
      (s.saves.length : Int) = (c.NSTEPS - 1) / c.SAVEFREQ + 1 ∧
      ∀ e ∈ s.saves, e.1 = 0 := by
  obtain ⟨s, h1, -, h3⟩ := run_ok c K particles hbpr hgrid hmove
  rw [save_log_eq c hT hno hfs] at h3
  refine ⟨s, h1, ?_, ?_⟩
  · rw [h3, List.length_map]
    exact save_steps_length c hN hF
  · intro e he
    rw [h3] at he
    obtain ⟨step, -, rfl⟩ := List.mem_map.mp he
    rfl

/-- C10, counterexample: five particles on the 3 x 3 grid, two workers, diagnostics enabled,
the snapshot file open, 1000 steps and a snapshot every 10 steps. The run writes 100
snapshots (at the steps 0, 10, ..., 990), not `1000/10 + 1 = 101`. -/
theorem snapshot_count_counterexample :
    ∃ s, run demo_config demo_collab demo_particles = some s ∧
      (s.saves.length : Int) = 100 ∧
      (s.saves.length : Int) ≠ demo_config.NSTEPS / demo_config.SAVEFREQ + 1 := by
  obtain ⟨s, h1, h2, -⟩ := run_saves demo_config demo_collab demo_particles (by decide)
    demo_particles_in_grid demo_collab_in_grid rfl rfl (by decide) (by decide) (by decide)
  have e : (demo_config.NSTEPS - 1) / demo_config.SAVEFREQ + 1 = 100 := by decide
  rw [e] at h2
  refine ⟨s, h1, h2, ?_⟩
  rw [h2]
  decide

/-- C10, amended: in a run of `NSTEPS >= 1` steps with diagnostics enabled, an open snapshot
file and a save interval `SAVEFREQ >= 1` (with `bpr >= 0` and cell ids that stay in the grid,
so that the run reaches its end), the number of `save` calls is `(NSTEPS - 1) / SAVEFREQ + 1` with integer
division, all of them made by the worker 0; this is `NSTEPS / SAVEFREQ` when the interval
divides the step count (as for 1000 steps and an interval dividing 1000) and
`NSTEPS / SAVEFREQ + 1` otherwise. -/
theorem snapshot_count (c : Config) (K : Collab) (particles : List particle_t)
    (hbpr : 0 ≤ c.bpr) (hgrid : ∀ q ∈ particles, in_grid q c.bpr)
    (hmove : move_in_grid K c.bpr) (hno : c.no_output = 0) (hfs : c.fsave = true)
    (hT : 1 ≤ c.n_threads) (hN : 1 ≤ c.NSTEPS) (hF : 1 ≤ c.SAVEFREQ) :
    ∃ s, run c K particles = some s ∧
      (s.saves.length : Int) = (c.NSTEPS - 1) / c.SAVEFREQ + 1 ∧
      (∀ e ∈ s.saves, e.1 = 0) ∧
      (c.SAVEFREQ ∣ c.NSTEPS → (s.saves.length : Int) = c.NSTEPS / c.SAVEFREQ) ∧
      (¬ c.SAVEFREQ ∣ c.NSTEPS → (s.saves.length : Int) = c.NSTEPS / c.SAVEFREQ + 1) := by
  obtain ⟨s, h1, h2, h3⟩ := run_saves c K particles hbpr hgrid hmove hno hfs hT hN hF
  obtain ⟨hd, hnd⟩ := @pred_div_add_one c.NSTEPS c.SAVEFREQ hF
  exact ⟨s, h1, h2, h3, fun h => by rw [h2, hd h], fun h => by rw [h2, hnd h]⟩

/-- Witness for C10: the five particles on the 3 x 3 grid, 1000 steps, a snapshot every 10
steps. -/
theorem snapshot_count_witness :
    ∃ s, run demo_config demo_collab demo_particles = some s ∧
      (s.saves.length : Int) = (demo_config.NSTEPS - 1) / demo_config.SAVEFREQ + 1 ∧
      (∀ e ∈ s.saves, e.1 = 0) ∧
      (demo_config.SAVEFREQ ∣ demo_config.NSTEPS →
        (s.saves.length : Int) = demo_config.NSTEPS / demo_config.SAVEFREQ) ∧
      (¬ demo_config.SAVEFREQ ∣ demo_config.NSTEPS →
        (s.saves.length : Int) = demo_config.NSTEPS / demo_config.SAVEFREQ + 1) :=
  snapshot_count demo_config demo_collab demo_particles (by decide) demo_particles_in_grid
    demo_collab_in_grid rfl rfl (by decide) (by decide) (by decide)

/-! ## What a successful `bin_add` or `bin_remove` has done -/

theorem bin_add_some {w w' : World} {bn : Int} {p : Nat} (h : bin_add w bn p = some w') :
    (0 ≤ bn ∧ bn < w.bins.length) ∧ ∃ q, w.particles[p]? = some q ∧
      w' = { particles := w.particles.set p
               { q with idx_bin := ((cellOf w bn.toNat).length : Int) },
             bins := w.bins.set bn.toNat (cellOf w bn.toNat ++ [p]) } := by
  by_cases hb : 0 ≤ bn ∧ bn < w.bins.length
  · refine ⟨hb, ?_⟩
    cases hq : w.particles[p]? with
    | none => simp [bin_add, hb, hq] at h
    | some q =>
      refine ⟨q, rfl, ?_⟩
      rw [bin_add_eq w bn p q hb.1 hb.2 hq] at h
      exact (Option.some.inj h).symm
  · simp [bin_add, hb] at h

theorem bin_remove_some {w w' : World} {bn : Int} {p : Nat}
    (h : bin_remove w bn p = some w') :
    (0 ≤ bn ∧ bn < w.bins.length) ∧ ∃ l q ql,
      (cellOf w bn.toNat)[(cellOf w bn.toNat).length - 1]? = some l ∧
      w.particles[p]? = some q ∧ w.particles[l]? = some ql ∧
      0 ≤ q.idx_bin ∧ q.idx_bin < (cellOf w bn.toNat).length ∧
      w' = { particles := w.particles.set l { ql with idx_bin := q.idx_bin },
             bins := w.bins.set bn.toNat
               ((((cellOf w bn.toNat).set ((cellOf w bn.toNat).length - 1) p).set
                 q.idx_bin.toNat l).dropLast) } := by
  by_cases hb : 0 ≤ bn ∧ bn < w.bins.length
  · refine ⟨hb, ?_⟩
    cases hl : (cellOf w bn.toNat)[(cellOf w bn.toNat).length - 1]? with
    | none => simp [bin_remove, hb, hl] at h
    | some l =>
      cases hq : w.particles[p]? with
      | none => simp [bin_remove, hb, hl, hq] at h
      | some q =>
        cases hql : w.particles[l]? with
        | none => simp [bin_remove, hb, hl, hq, hql] at h
        | some ql =>
          by_cases hi : 0 ≤ q.idx_bin ∧ q.idx_bin < ((cellOf w bn.toNat).length : Int)
          · refine ⟨l, q, ql, rfl, rfl, hql, hi.1, hi.2, ?_⟩
            rw [bin_remove_eq w bn p l q ql hb.1 hb.2 hl hq hql hi.1 hi.2] at h
            exact (Option.some.inj h).symm
          · exfalso
            simp only [bin_remove, hb, and_self, if_true, hl, hq, hql, List.length_set] at h
            rw [if_neg hi] at h
            cases h
  · simp [bin_remove, hb] at h

/-- A successful `bin_add` leaves the other bins, the number of bins and the number of
particles as they were, and writes no position. -/
theorem bin_add_frame {w w' : World} {bn : Int} {p : Nat} (h : bin_add w bn p = some w') :
    w'.bins.length = w.bins.length ∧ w'.particles.length = w.particles.length ∧
      (∀ b : Nat, b ≠ bn.toNat → cellOf w' b = cellOf w b) ∧
      ∀ bpr r, cell_ids w' bpr r = cell_ids w bpr r := by
  obtain ⟨hb, q, hq, rfl⟩ := bin_add_some h
  have hbn : bn.toNat < w.bins.length := by omega
  refine ⟨by simp, by simp, fun b hne => ?_, fun bpr r => cell_ids_set_idx w _ bpr p q _ hq r⟩
  rw [cellOf_set_bins _ _ _ _ _ hbn, if_neg hne]

/-- A successful `bin_remove` leaves the other bins, the number of bins and the number of
particles as they were, and writes no position. -/
theorem bin_remove_frame {w w' : World} {bn : Int} {p : Nat}
    (h : bin_remove w bn p = some w') :
    w'.bins.length = w.bins.length ∧ w'.particles.length = w.particles.length ∧
      (∀ b : Nat, b ≠ bn.toNat → cellOf w' b = cellOf w b) ∧
      ∀ bpr r, cell_ids w' bpr r = cell_ids w bpr r := by
  obtain ⟨hb, l, q, ql, hl, hq, hql, hi0, hi1, rfl⟩ := bin_remove_some h
  have hbn : bn.toNat < w.bins.length := by omega
  refine ⟨by simp, by simp, fun b hne => ?_, fun bpr r => cell_ids_set_idx w _ bpr l ql _ hql r⟩
  rw [cellOf_set_bins _ _ _ _ _ hbn, if_neg hne]

theorem migrate_one_eq (c : Config) (K : Collab) (w : World) (p : Int) (q : particle_t)
    (hp0 : 0 ≤ p) (hq : w.particles[p.toNat]? = some q) :
    migrate_one c K w p =
      if binNum q c.bpr ≠ binNum (move K q) c.bpr then
        (bin_remove (after_move w p (move K q)) (binNum q c.bpr) p.toNat).bind
          (fun w2 => bin_add w2 (binNum (move K q) c.bpr) p.toNat)
      else some (after_move w p (move K q)) := by
  simp only [migrate_one, hp0, if_true, hq, after_move]
  split_ifs with h
  · cases bin_remove { particles := w.particles.set p.toNat (move K q), bins := w.bins }
      (binNum q c.bpr) p.toNat <;> rfl
  · rfl

/-! ## The frame of a migration -/

/-- The body of the migration loop on a particle whose cell id changes: the other bins are as
before, if the body reaches its end. -/
theorem migrate_one_frame (c : Config) (K : Collab) (w w' : World) (p : Int) (q : particle_t)
    (hp0 : 0 ≤ p) (hq : w.particles[p.toNat]? = some q)
    (hne : binNum q c.bpr ≠ binNum (move K q) c.bpr) (h : migrate_one c K w p = some w') :
    ∃ w2, bin_remove (after_move w p (move K q)) (binNum q c.bpr) p.toNat = some w2 ∧
      bin_add w2 (binNum (move K q) c.bpr) p.toNat = some w' ∧
      w'.bins.length = w.bins.length ∧ w'.particles.length = w.particles.length ∧
      ∀ b : Nat, b ≠ (binNum q c.bpr).toNat → b ≠ (binNum (move K q) c.bpr).toNat →
        cellOf w' b = cellOf w b := by
  rw [migrate_one_eq c K w p q hp0 hq, if_pos hne] at h
  cases hrem : bin_remove (after_move w p (move K q)) (binNum q c.bpr) p.toNat with
  | none => rw [hrem] at h; cases h
  | some w2 =>
    rw [hrem] at h
    have hadd : bin_add w2 (binNum (move K q) c.bpr) p.toNat = some w' := h
    obtain ⟨r1, r2, r3, -⟩ := bin_remove_frame hrem
    obtain ⟨a1, a2, a3, -⟩ := bin_add_frame hadd
    refine ⟨w2, rfl, hadd, by rw [a1, r1]; rfl, by rw [a2, r2]; simp [after_move], ?_⟩
    intro b hb1 hb2
    rw [a3 b hb2, r3 b hb1]
    rfl

/-- C16: when the migration loop integrates the particle `p`, if its cell id before `move`
equals its cell id after `move`, the body succeeds and leaves every container and every
`idx_bin` field unchanged; if the ids differ, the body is `bin_remove` on the old cell
followed by `bin_add` on the new cell, the containers of all other cells are unchanged when
it reaches its end, and it does reach its end when the bin store is consistent with the
positions and the new id is a bin. -/
theorem migration_frame (c : Config) (K : Collab) (w : World) (p : Int) (q : particle_t)
    (hp0 : 0 ≤ p) (hq : w.particles[p.toNat]? = some q) :
    (binNum q c.bpr = binNum (move K q) c.bpr →
      ∃ w', migrate_one c K w p = some w' ∧ w'.bins = w.bins ∧
        ∀ r : Nat, (w'.particles[r]?).map (fun x => x.idx_bin) =
          (w.particles[r]?).map (fun x => x.idx_bin)) ∧
    (binNum q c.bpr ≠ binNum (move K q) c.bpr →
      migrate_one c K w p =
        (bin_remove (after_move w p (move K q)) (binNum q c.bpr) p.toNat).bind
          (fun w2 => bin_add w2 (binNum (move K q) c.bpr) p.toNat) ∧
      (∀ w', migrate_one c K w p = some w' →
        w'.bins.length = w.bins.length ∧
        ∀ b : Nat, b ≠ (binNum q c.bpr).toNat → b ≠ (binNum (move K q) c.bpr).toNat →
          cellOf w' b = cellOf w b) ∧
      (consistent w c.bpr → 0 ≤ binNum (move K q) c.bpr →
        binNum (move K q) c.bpr < w.bins.length →
        ∃ w2 w', bin_remove (after_move w p (move K q)) (binNum q c.bpr) p.toNat = some w2 ∧
          bin_add w2 (binNum (move K q) c.bpr) p.toNat = some w' ∧
          migrate_one c K w p = some w')) := by
  have hplt : p.toNat < w.particles.length := (List.getElem?_eq_some.mp hq).1
  constructor
  · intro hsame
    refine ⟨after_move w p (move K q), ?_, rfl, ?_⟩
    · rw [migrate_one_eq c K w p q hp0 hq]
      simp [hsame]
    · intro r
      by_cases hr : r = p.toNat
      · subst hr
        simp only [after_move, List.getElem?_set_self hplt, hq, Option.map_some']
        rfl
      · simp only [after_move, List.getElem?_set_ne (Ne.symm hr)]
  · intro hne
    refine ⟨by rw [migrate_one_eq c K w p q hp0 hq, if_pos hne], ?_, ?_⟩
    · intro w' h
      obtain ⟨w2, -, -, h3, -, h5⟩ := migrate_one_frame c K w w' p q hp0 hq hne h
      exact ⟨h3, h5⟩
    · intro hcons hn0 hn1
      obtain ⟨w', h, -⟩ := migrate_one_consistent c K w p hcons hp0 (by omega)
        (fun q' hq' => by
          rw [hq] at hq'
          cases hq'
          exact ⟨hn0, hn1⟩)
      obtain ⟨w2, h1, h2, -⟩ := migrate_one_frame c K w w' p q hp0 hq hne h
      exact ⟨w2, w', h1, h2, h⟩


/-- Witness for C16: particle 0 of the five particles on the 3 x 3 grid. -/
theorem migration_frame_witness :
    (binNum (demo_particle 0 0 0) demo_config.bpr =
        binNum (move demo_collab (demo_particle 0 0 0)) demo_config.bpr →
      ∃ w', migrate_one demo_config demo_collab demo_world 0 = some w' ∧
        w'.bins = demo_world.bins ∧
        ∀ r : Nat, (w'.particles[r]?).map (fun x => x.idx_bin) =
          (demo_world.particles[r]?).map (fun x => x.idx_bin)) ∧
    (binNum (demo_particle 0 0 0) demo_config.bpr ≠
        binNum (move demo_collab (demo_particle 0 0 0)) demo_config.bpr →
      migrate_one demo_config demo_collab demo_world 0 =
        (bin_remove (after_move demo_world 0 (move demo_collab (demo_particle 0 0 0)))
          (binNum (demo_particle 0 0 0) demo_config.bpr) (0 : Int).toNat).bind
          (fun w2 => bin_add w2
            (binNum (move demo_collab (demo_particle 0 0 0)) demo_config.bpr)
            (0 : Int).toNat) ∧
      (∀ w', migrate_one demo_config demo_collab demo_world 0 = some w' →
        w'.bins.length = demo_world.bins.length ∧
        ∀ b : Nat, b ≠ (binNum (demo_particle 0 0 0) demo_config.bpr).toNat →
          b ≠ (binNum (move demo_collab (demo_particle 0 0 0)) demo_config.bpr).toNat →
          cellOf w' b = cellOf demo_world b) ∧
      (consistent demo_world demo_config.bpr →
        0 ≤ binNum (move demo_collab (demo_particle 0 0 0)) demo_config.bpr →
        binNum (move demo_collab (demo_particle 0 0 0)) demo_config.bpr <
          demo_world.bins.length →
        ∃ w2 w', bin_remove (after_move demo_world 0 (move demo_collab (demo_particle 0 0 0)))
            (binNum (demo_particle 0 0 0) demo_config.bpr) (0 : Int).toNat = some w2 ∧
          bin_add w2 (binNum (move demo_collab (demo_particle 0 0 0)) demo_config.bpr)
            (0 : Int).toNat = some w' ∧
          migrate_one demo_config demo_collab demo_world 0 = some w')) :=
  migration_frame demo_config demo_collab demo_world 0 (demo_particle 0 0 0) (by decide) rfl

/-! ## The accesses of `bin_remove` in the migration loop -/

/-- Slot consistency and membership consistency together say that the bin store agrees with
the positions. -/
theorem consistent_of_slot_membership {w : World} {bpr : Int} (hs : slot_consistent w)
    (hm : membership_consistent w bpr) : consistent w bpr := by
  constructor
  · intro b k q hq
    obtain ⟨pq, h1, h2⟩ := hs b k q hq
    obtain ⟨b', -, huniq, hb'⟩ := hm q pq h1
    have hbb : b = b' := huniq b (List.getElem?_mem hq)
    refine ⟨?_, pq, h1, h2⟩
    simp only [cell_ids, h1, Option.map_some']
    rw [← hb', hbb]
  · intro q bn hq
    cases hpq : w.particles[q]? with
    | none => simp [cell_ids, hpq] at hq
    | some pq =>
      simp only [cell_ids, hpq, Option.map_some'] at hq
      have hbn := Option.some.inj hq
      obtain ⟨b, hmem, -, hb⟩ := hm q pq hpq
      obtain ⟨k, hk⟩ := List.getElem?_of_mem hmem
      obtain ⟨pq', h1, h2⟩ := hs b k q hk
      rw [hpq] at h1
      have hpp := Option.some.inj h1
      subst hpp
      refine ⟨pq, rfl, by omega, by omega, ?_⟩
      have e1 : bn.toNat = b := by omega
      have e2 : pq.idx_bin.toNat = k := by omega
      rw [e1, e2]; exact hk

/-- A loop whose body keeps an invariant whenever it succeeds has the invariant in every
state it reaches. -/
theorem foldlM_reaches {σ α : Type} (f : σ → α → Option σ) (P : σ → Prop) (xs : List α)
    (hstep : ∀ (x : α) (s s' : σ), x ∈ xs → P s → f s x = some s' → P s')
    (s s' : σ) (hs : P s) (h : xs.foldlM f s = some s') : P s' := by
  induction xs generalizing s with
  | nil =>
    simp only [List.foldlM_nil] at h
    cases h
    exact hs
  | cons x xs ih =>
    rw [List.foldlM_cons] at h
    cases h1 : f s x with
    | none => rw [h1] at h; cases h
    | some s1 =>
      rw [h1] at h
      exact ih (fun y a b hy => hstep y a b (List.mem_cons_of_mem _ hy)) s1
        (hstep x s s1 (List.mem_cons_self _ _) hs h1) h

/-- The body of the migration loop keeps the bin store consistent with the positions whenever
it reaches its end. -/
theorem migrate_one_keeps (c : Config) (K : Collab) (w w' : World) (p : Int)
    (hcons : consistent w c.bpr) (h : migrate_one c K w p = some w') :
    consistent w' c.bpr ∧ w'.bins.length = w.bins.length ∧
      w'.particles.length = w.particles.length := by
  by_cases hp0 : 0 ≤ p
  · cases hq : w.particles[p.toNat]? with
    | none => simp [migrate_one, hp0, hq] at h
    | some q =>
      have hplt : p.toNat < w.particles.length := (List.getElem?_eq_some.mp hq).1
      have hold : cell_ids w c.bpr p.toNat = some (binNum q c.bpr) := by simp [cell_ids, hq]
      have hnew : 0 ≤ binNum (move K q) c.bpr ∧ binNum (move K q) c.bpr < w.bins.length := by
        by_cases hne : binNum q c.bpr = binNum (move K q) c.bpr
        · rw [← hne]; exact Stored.bin_lt hcons hold
        · obtain ⟨w2, h1, h2, -⟩ := migrate_one_frame c K w w' p q hp0 hq hne h
          obtain ⟨r1, -⟩ := bin_remove_frame h1
          obtain ⟨hb, -⟩ := bin_add_some h2
          rw [r1] at hb
          exact hb
      obtain ⟨w'', e, h1, h2, h3⟩ := migrate_one_consistent c K w p hcons hp0 (by omega)
        (fun q' hq' => by
          rw [hq] at hq'
          cases hq'
          exact hnew)
      rw [h] at e
      cases e
      exact ⟨h1, h2, h3⟩
  · simp [migrate_one, hp0] at h


theorem migrate_loop_eq (c : Config) (K : Collab) (w : World) (t : Int) :
    migrate_loop c K w t = (owned c w t).foldlM (migrate_one c K) w := rfl

/-- C17: if slot consistency and membership consistency hold when the worker `t` starts its
migration loop (so that every cell id is a bin), then at every `bin_remove(old_bin_num, p)`
call the loop makes, that is in every state `w_i` the loop reaches after `i` of its
iterations and for the particle `p` of the next iteration, when the cell id of `p` changes:
the old cell id is a bin, its container is not empty, `p.idx_bin` is a valid index into it,
the element at that index is `p`, and the call succeeds. -/
theorem bin_remove_index_safe (c : Config) (K : Collab) (w : World) (t : Int)
    (hs : slot_consistent w) (hm : membership_consistent w c.bpr) (ht : t ∈ workers c)
    (i : Nat) (hi : i < (owned c w t).length) (w_i : World)
    (hpre : ((owned c w t).take i).foldlM (migrate_one c K) w = some w_i) :
    0 ≤ (owned c w t)[i] ∧
    ∃ q, w_i.particles[((owned c w t)[i]).toNat]? = some q ∧
      (binNum q c.bpr ≠ binNum (move K q) c.bpr →
        0 ≤ binNum q c.bpr ∧
        binNum q c.bpr < (after_move w_i (owned c w t)[i] (move K q)).bins.length ∧
        cellOf (after_move w_i (owned c w t)[i] (move K q)) (binNum q c.bpr).toNat ≠ [] ∧
        0 ≤ (move K q).idx_bin ∧
        (move K q).idx_bin <
          (cellOf (after_move w_i (owned c w t)[i] (move K q)) (binNum q c.bpr).toNat).length ∧
        (cellOf (after_move w_i (owned c w t)[i] (move K q))
          (binNum q c.bpr).toNat)[(move K q).idx_bin.toNat]? =
            some ((owned c w t)[i]).toNat ∧
        ∃ w2, bin_remove (after_move w_i (owned c w t)[i] (move K q)) (binNum q c.bpr)
          ((owned c w t)[i]).toNat = some w2) := by
  obtain ⟨ht0, ht1⟩ := mem_loopLt.mp ht
  have hcons : consistent w c.bpr := consistent_of_slot_membership hs hm
  obtain ⟨hci, -, hlen⟩ := foldlM_reaches (migrate_one c K)
    (fun w' => consistent w' c.bpr ∧ w'.bins.length = w.bins.length ∧
      w'.particles.length = w.particles.length)
    ((owned c w t).take i)
    (fun p a b _ ha hab => by
      obtain ⟨h1, h2, h3⟩ := migrate_one_keeps c K a b p ha.1 hab
      exact ⟨h1, by rw [h2, ha.2.1], by rw [h3, ha.2.2]⟩)
    w w_i ⟨hcons, rfl, rfl⟩ hpre
  have hmem : (owned c w t)[i] ∈ owned c w t := List.getElem_mem hi
  obtain ⟨hp0, hp1⟩ := worker_range ht0 ht1 hmem
  generalize (owned c w t)[i] = p at hp0 hp1 ⊢
  have hplt : p.toNat < w_i.particles.length := by rw [hlen]; omega
  refine ⟨hp0, w_i.particles[p.toNat], List.getElem?_eq_getElem hplt, ?_⟩
  intro hne
  have hq : w_i.particles[p.toNat]? = some w_i.particles[p.toNat] :=
    List.getElem?_eq_getElem hplt
  generalize w_i.particles[p.toNat] = q at hq hne ⊢
  have h1 : Stored (cell_ids w_i c.bpr) (after_move w_i p (move K q)) :=
    Stored.set_particle hci hq rfl
  have hlocp : cell_ids w_i c.bpr p.toNat = some (binNum q c.bpr) := by simp [cell_ids, hq]
  obtain ⟨pp, l, ql, hpp, hl, hql, hi0, hi1, hb0, hb1, hat, -⟩ := h1.remove hlocp
  have hppe : pp = move K q := by
    have : (after_move w_i p (move K q)).particles[p.toNat]? = some (move K q) := by
      simp only [after_move]
      exact List.getElem?_set_self hplt
    rw [this] at hpp
    exact (Option.some.inj hpp).symm
  subst hppe
  refine ⟨hb0, hb1, ?_, hi0, hi1, hat, _, bin_remove_eq _ _ _ l _ ql hb0 hb1 hl hpp hql hi0 hi1⟩
  intro hnil
  rw [hnil] at hi1
  simp at hi1
  omega

theorem single_world_membership : membership_consistent single_world escape_config.bpr := by
  intro q pq hq
  rcases q with _ | q
  · simp [single_world] at hq
    subst hq
    refine ⟨0, by simp [cellOf, single_world], ?_, ?_⟩
    · intro b hb
      rcases b with _ | b
      · rfl
      · simp [cellOf, single_world] at hb
    · unfold binNum demo_particle cutoff escape_config; norm_num
  · simp [single_world] at hq

/-- Witness for C17: the first iteration of the migration loop of the only worker on the
single particle of the 1 x 1 grid. -/
theorem bin_remove_index_safe_witness :
    ∃ hi : 0 < (owned escape_config single_world 0).length,
    0 ≤ (owned escape_config single_world 0)[0] ∧
    ∃ q, single_world.particles[((owned escape_config single_world 0)[0]).toNat]? = some q ∧
      (binNum q escape_config.bpr ≠ binNum (move escape_collab q) escape_config.bpr →
        0 ≤ binNum q escape_config.bpr ∧
        binNum q escape_config.bpr <
          (after_move single_world (owned escape_config single_world 0)[0]
            (move escape_collab q)).bins.length ∧
        cellOf (after_move single_world (owned escape_config single_world 0)[0]
          (move escape_collab q)) (binNum q escape_config.bpr).toNat ≠ [] ∧
        0 ≤ (move escape_collab q).idx_bin ∧
        (move escape_collab q).idx_bin <
          (cellOf (after_move single_world (owned escape_config single_world 0)[0]
            (move escape_collab q)) (binNum q escape_config.bpr).toNat).length ∧
        (cellOf (after_move single_world (owned escape_config single_world 0)[0]
          (move escape_collab q))
          (binNum q escape_config.bpr).toNat)[(move escape_collab q).idx_bin.toNat]? =
            some ((owned escape_config single_world 0)[0]).toNat ∧
        ∃ w2, bin_remove (after_move single_world (owned escape_config single_world 0)[0]
          (move escape_collab q)) (binNum q escape_config.bpr)
          ((owned escape_config single_world 0)[0]).toNat = some w2) :=
  ⟨by decide, bin_remove_index_safe escape_config escape_collab single_world 0
    single_world_slots single_world_membership (by decide) 0 (by decide) single_world rfl⟩

/-! ## Loops, again -/

/-- Two loops over the same list whose bodies keep a relation between their states end in
related states, or both fail. -/
theorem foldlM_rel {σ τ α : Type} (R : σ → τ → Prop) (f : σ → α → Option σ)
    (g : τ → α → Option τ) (xs : List α)
    (hstep : ∀ (x : α) (s : σ) (s' : τ), x ∈ xs → R s s' →
      (f s x = none ∧ g s' x = none) ∨ ∃ a b, f s x = some a ∧ g s' x = some b ∧ R a b)
    (s : σ) (s' : τ) (h : R s s') :
    (xs.foldlM f s = none ∧ xs.foldlM g s' = none) ∨
      ∃ a b, xs.foldlM f s = some a ∧ xs.foldlM g s' = some b ∧ R a b := by
  induction xs generalizing s s' with
  | nil => exact Or.inr ⟨s, s', rfl, rfl, h⟩
  | cons x xs ih =>
    rw [List.foldlM_cons, List.foldlM_cons]
    rcases hstep x s s' (List.mem_cons_self _ _) h with ⟨h1, h2⟩ | ⟨a, b, h1, h2, h3⟩
    · left; rw [h1, h2]; exact ⟨rfl, rfl⟩
    · rw [h1, h2]
      exact ih (fun y u v hy => hstep y u v (List.mem_cons_of_mem _ hy)) a b h3

/-- In a loop over distinct items whose body changes a view of the state only at the item
`t`, the view changes as in the one iteration at `t`. -/
theorem foldlM_view_once {σ α β : Type} (f : σ → α → Option σ) (v : σ → β)
    (R : β → β → Prop) (t : α) (xs : List α) (hnd : xs.Nodup) (ht : t ∈ xs)
    (hother : ∀ (x : α) (s s' : σ), x ∈ xs → x ≠ t → f s x = some s' → v s' = v s)
    (hself : ∀ (s s' : σ), f s t = some s' → R (v s) (v s'))
    (s s' : σ) (h : xs.foldlM f s = some s') : R (v s) (v s') := by
  induction xs generalizing s with
  | nil => cases ht
  | cons x xs ih =>
    rw [List.foldlM_cons] at h
    cases h1 : f s x with
    | none => rw [h1] at h; cases h
    | some s1 =>
      rw [h1] at h
      have hnd' := List.nodup_cons.mp hnd
      by_cases hx : x = t
      · subst hx
        have hkeep : v s' = v s1 :=
          foldlM_reaches f (fun u => v u = v s1) xs
            (fun y a b hy ha hab => by
              rw [← ha]
              exact hother y a b (List.mem_cons_of_mem _ hy)
                (fun e => hnd'.1 (e ▸ hy)) hab)
            s1 s' rfl h
        rw [hkeep]
        exact hself s s1 h1
      · have hv : v s1 = v s := hother x s s1 (List.mem_cons_self _ _) hx h1
        have htx : t ∈ xs := by
          rcases List.mem_cons.mp ht with e | e
          · exact absurd e.symm hx
          · exact e
        rw [← hv]
        exact ih hnd'.2 htx (fun y a b hy => hother y a b (List.mem_cons_of_mem _ hy)) s1 h

/-! ## What a successful phase has done -/

theorem force_pair_len (K : Collab) (p q : Nat) (s s' : World × Diag)
    (h : force_pair K p s q = some s') :
    s'.1.particles.length = s.1.particles.length ∧ s'.1.bins = s.1.bins := by
  unfold force_pair at h
  cases hp : s.1.particles[p]? with
  | none => simp [hp] at h
  | some pp =>
    cases hq : s.1.particles[q]? with
    | none => simp [hp, hq] at h
    | some pq =>
      simp only [hp, hq] at h
      have := Option.some.inj h
      subst this
      simp

theorem force_bin_len (K : Collab) (p : Nat) (nbin : Int) (s s' : World × Diag)
    (h : force_bin K p s nbin = some s') :
    s'.1.particles.length = s.1.particles.length ∧ s'.1.bins = s.1.bins := by
  unfold force_bin at h
  split_ifs at h with hb
  exact foldlM_reaches (force_pair K p)
    (fun u => u.1.particles.length = s.1.particles.length ∧ u.1.bins = s.1.bins) _
    (fun q a b _ ha hab => by
      obtain ⟨h1, h2⟩ := force_pair_len K p q a b hab
      exact ⟨by rw [h1, ha.1], by rw [h2, ha.2]⟩)
    s s' ⟨rfl, rfl⟩ h

theorem force_one_len (c : Config) (K : Collab) (p : Int) (s s' : World × Diag)
    (h : force_one c K s p = some s') :
    s'.1.particles.length = s.1.particles.length ∧ s'.1.bins = s.1.bins := by
  unfold force_one at h
  split_ifs at h with hp
  cases hq : s.1.particles[p.toNat]? with
  | none => simp [hq] at h
  | some q =>
    simp only [hq] at h
    have := foldlM_reaches (force_bin K p.toNat)
      (fun u => u.1.particles.length = s.1.particles.length ∧ u.1.bins = s.1.bins) _
      (fun nbin a b _ ha hab => by
        obtain ⟨h1, h2⟩ := force_bin_len K p.toNat nbin a b hab
        exact ⟨by rw [h1, ha.1], by rw [h2, ha.2]⟩)
      ({ s.1 with particles := s.1.particles.set p.toNat { q with ax := 0, ay := 0 } }, s.2)
      s' ⟨by simp, rfl⟩ h
    exact this

theorem force_loop_len (c : Config) (K : Collab) (xs : List Int) (s s' : World × Diag)
    (h : xs.foldlM (force_one c K) s = some s') :
    s'.1.particles.length = s.1.particles.length ∧ s'.1.bins = s.1.bins :=
  foldlM_reaches (force_one c K)
    (fun u => u.1.particles.length = s.1.particles.length ∧ u.1.bins = s.1.bins) xs
    (fun p a b _ ha hab => by
      obtain ⟨h1, h2⟩ := force_one_len c K p a b hab
      exact ⟨by rw [h1, ha.1], by rw [h2, ha.2]⟩)
    s s' ⟨rfl, rfl⟩ h

theorem migrate_one_len (c : Config) (K : Collab) (p : Int) (w w' : World)
    (h : migrate_one c K w p = some w') :
    w'.particles.length = w.particles.length ∧ w'.bins.length = w.bins.length := by
  by_cases hp0 : 0 ≤ p
  · cases hq : w.particles[p.toNat]? with
    | none => simp [migrate_one, hp0, hq] at h
    | some q =>
      by_cases hne : binNum q c.bpr ≠ binNum (move K q) c.bpr
      · obtain ⟨w2, -, -, h3, h4, -⟩ := migrate_one_frame c K w w' p q hp0 hq hne h
        exact ⟨h4, h3⟩
      · rw [migrate_one_eq c K w p q hp0 hq, if_neg hne] at h
        have := Option.some.inj h
        subst this
        simp [after_move]
  · simp [migrate_one, hp0] at h

theorem migrate_loop_len (c : Config) (K : Collab) (xs : List Int) (w w' : World)
    (h : xs.foldlM (migrate_one c K) w = some w') :
    w'.particles.length = w.particles.length ∧ w'.bins.length = w.bins.length :=
  foldlM_reaches (migrate_one c K)
    (fun u => u.particles.length = w.particles.length ∧ u.bins.length = w.bins.length) xs
    (fun p a b _ ha hab => by
      obtain ⟨h1, h2⟩ := migrate_one_len c K p a b hab
      exact ⟨by rw [h1, ha.1], by rw [h2, ha.2]⟩)
    w w' ⟨rfl, rfl⟩ h

theorem force_phase_some {c : Config} {K : Collab} {s s' : Sim} {t : Int}
    (h : force_phase c K s t = some s') :
    0 ≤ t ∧ ∃ loc w d, s.locals[t.toNat]? = some loc ∧
      (owned c s.world t).foldlM (force_one c K)
        (s.world, { dmin := 1, davg := 0, navg := 0 }) = some (w, d) ∧
      s' = { s with world := w,
                    locals := s.locals.set t.toNat { loc with toDiag := d } } := by
  unfold force_phase at h
  split_ifs at h with ht
  refine ⟨ht, ?_⟩
  cases hloc : s.locals[t.toNat]? with
  | none => simp [hloc] at h
  | some loc =>
    simp only [hloc] at h
    cases hf : (owned c s.world t).foldlM (force_one c K)
        (s.world, { dmin := 1, davg := 0, navg := 0 }) with
    | none =>
      simp only [owned] at hf
      rw [hf] at h
      cases h
    | some r =>
      obtain ⟨w, d⟩ := r
      simp only [owned] at hf
      rw [hf] at h
      exact ⟨loc, w, d, rfl, rfl, (Option.some.inj h).symm⟩

theorem migrate_phase_some {c : Config} {K : Collab} {s s' : Sim} {t : Int}
    (h : migrate_phase c K s t = some s') :
    0 ≤ t ∧ ∃ loc w, s.locals[t.toNat]? = some loc ∧
      (owned c s.world t).foldlM (migrate_one c K) s.world = some w ∧
      s' = { s with world := w, locals := s.locals.set t.toNat (stats_update c loc) } := by
  unfold migrate_phase at h
  split_ifs at h with ht
  refine ⟨ht, ?_⟩
  cases hloc : s.locals[t.toNat]? with
  | none => simp [hloc] at h
  | some loc =>
    simp only [hloc] at h
    cases hf : migrate_loop c K s.world t with
    | none => rw [hf] at h; cases h
    | some w =>
      rw [hf] at h
      exact ⟨loc, w, rfl, hf, (Option.some.inj h).symm⟩

theorem save_phase_some {c : Config} {step : Int} {s s' : Sim} {t : Int}
    (h : save_phase c step s t = some s') : s'.world = s.world ∧ s'.locals = s.locals := by
  unfold save_phase at h
  split_ifs at h <;> (have hs := Option.some.inj h; subst hs; exact ⟨rfl, rfl⟩)

/-! ## The run, step by step -/

theorem sim_step_NSTEPS (c : Config) (K : Collab) (N : Int) :
    sim_step { c with NSTEPS := N } K = sim_step c K := rfl

theorem run_eq (c : Config) (K : Collab) (particles : List particle_t) :
    run c K particles =
      (init_sim c particles).bind (fun s => (loopLt 0 c.NSTEPS).foldlM (sim_step c K) s) := by
  unfold run step_loop
  cases init_sim c particles <;> rfl

/-- The run of `k + 1` steps is the run of `k` steps followed by the step `k`. -/
theorem run_succ (c : Config) (K : Collab) (particles : List particle_t) (k : Int)
    (hk : 0 ≤ k) :
    run { c with NSTEPS := k + 1 } K particles =
      (run { c with NSTEPS := k } K particles).bind (fun s => sim_step c K s k) := by
  rw [run_eq, run_eq]
  have e : init_sim { c with NSTEPS := k + 1 } particles =
      init_sim { c with NSTEPS := k } particles := rfl
  rw [e]
  simp only [sim_step_NSTEPS]
  cases init_sim { c with NSTEPS := k } particles with
  | none => rfl
  | some s =>
    simp only [Option.some_bind]
    rw [loopLt_snoc hk, List.foldlM_append]
    cases (loopLt 0 k).foldlM (sim_step c K) s with
    | none => rfl
    | some s1 => simp

theorem run_zero (c : Config) (K : Collab) (particles : List particle_t) (N : Int)
    (hN : N ≤ 0) :
    run { c with NSTEPS := N } K particles = init_sim c particles := by
  rw [run_eq]
  have e : init_sim { c with NSTEPS := N } particles = init_sim c particles := rfl
  rw [e]
  simp only [loopLt_nil hN]
  cases init_sim c particles <;> rfl

theorem run_toNat (c : Config) (K : Collab) (particles : List particle_t) :
    run c K particles = run { c with NSTEPS := (c.NSTEPS.toNat : Int) } K particles := by
  rw [run_eq, run_eq]
  have e : init_sim { c with NSTEPS := (c.NSTEPS.toNat : Int) } particles =
      init_sim c particles := rfl
  have e2 : loopLt 0 (c.NSTEPS.toNat : Int) = loopLt 0 c.NSTEPS := by
    unfold loopLt
    congr 2
    omega
  rw [e]
  simp only [sim_step_NSTEPS, e2]

theorem init_sim_some {c : Config} {particles : List particle_t} {s : Sim}
    (h : init_sim c particles = some s) :
    s.locals = List.replicate c.n_threads.toNat init_locals ∧ s.saves = [] ∧
      init_bins particles c.bpr = some s.world := by
  unfold init_sim at h
  cases hw : init_bins particles c.bpr with
  | none => simp [hw] at h
  | some w =>
    simp only [hw] at h
    have := Option.some.inj h
    subst this
    exact ⟨rfl, rfl, rfl⟩

/-! ## The locals of a worker along a step -/

theorem toNat_ne_of_ne {a b : Int} (ha : 0 ≤ a) (hb : 0 ≤ b) (h : a ≠ b) :
    a.toNat ≠ b.toNat := by omega

/-- The force phases of all workers give the worker `t` the counters of its own force loop
and leave its other locals alone. -/
theorem force_all_locals (c : Config) (K : Collab) (s s' : Sim) (t : Int)
    (ht : t ∈ workers c) (h : (workers c).foldlM (force_phase c K) s = some s') :
    s'.world.particles.length = s.world.particles.length ∧
    s'.locals.length = s.locals.length ∧
    ∃ loc d w0 w1, s.locals[t.toNat]? = some loc ∧
      s'.locals[t.toNat]? = some { loc with toDiag := d } ∧
      w0.particles.length = s.world.particles.length ∧
      (owned c w0 t).foldlM (force_one c K) (w0, { dmin := 1, davg := 0, navg := 0 }) =
        some (w1, d) := by
  have ht0 := (mem_loopLt.mp ht).1
  have key := foldlM_view_once (force_phase c K)
    (fun u : Sim => (u.world.particles.length, u.locals.length, u.locals[t.toNat]?))
    (fun a b => b.1 = a.1 ∧ b.2.1 = a.2.1 ∧ ∃ loc d w0 w1, a.2.2 = some loc ∧
      b.2.2 = some { loc with toDiag := d } ∧ w0.particles.length = a.1 ∧
      (owned c w0 t).foldlM (force_one c K) (w0, { dmin := 1, davg := 0, navg := 0 }) =
        some (w1, d))
    t (workers c) (nodup_loopLt _ _) ht
    (fun x u u' hx hxt hu => by
      obtain ⟨hx0, loc, w, d, hloc, hf, rfl⟩ := force_phase_some hu
      obtain ⟨h1, -⟩ := force_loop_len c K _ _ _ hf
      have hne := toNat_ne_of_ne hx0 ht0 hxt
      simp only [List.length_set, List.getElem?_set_ne hne]
      rw [h1])
    (fun u u' hu => by
      obtain ⟨hx0, loc, w, d, hloc, hf, rfl⟩ := force_phase_some hu
      obtain ⟨h1, -⟩ := force_loop_len c K _ _ _ hf
      have hlt : t.toNat < u.locals.length := (List.getElem?_eq_some.mp hloc).1
      exact ⟨h1, by simp, loc, d, u.world, w, hloc, List.getElem?_set_self hlt, rfl, hf⟩)
    s s' h
  exact key

/-- The second phases of all workers apply the statistics block to the locals of the worker
`t` once. -/
theorem migrate_all_locals (c : Config) (K : Collab) (s s' : Sim) (t : Int)
    (ht : t ∈ workers c) (h : (workers c).foldlM (migrate_phase c K) s = some s') :
    s'.world.particles.length = s.world.particles.length ∧
    s'.locals.length = s.locals.length ∧
    ∃ loc, s.locals[t.toNat]? = some loc ∧
      s'.locals[t.toNat]? = some (stats_update c loc) := by
  have ht0 := (mem_loopLt.mp ht).1
  have key := foldlM_view_once (migrate_phase c K)
    (fun u : Sim => (u.world.particles.length, u.locals.length, u.locals[t.toNat]?))
    (fun a b => b.1 = a.1 ∧ b.2.1 = a.2.1 ∧ ∃ loc, a.2.2 = some loc ∧
      b.2.2 = some (stats_update c loc))
    t (workers c) (nodup_loopLt _ _) ht
    (fun x u u' hx hxt hu => by
      obtain ⟨hx0, loc, w, hloc, hf, rfl⟩ := migrate_phase_some hu
      obtain ⟨h1, -⟩ := migrate_loop_len c K _ _ _ hf
      have hne := toNat_ne_of_ne hx0 ht0 hxt
      simp only [List.length_set, List.getElem?_set_ne hne]
      rw [h1])
    (fun u u' hu => by
      obtain ⟨hx0, loc, w, hloc, hf, rfl⟩ := migrate_phase_some hu
      obtain ⟨h1, -⟩ := migrate_loop_len c K _ _ _ hf
      have hlt : t.toNat < u.locals.length := (List.getElem?_eq_some.mp hloc).1
      exact ⟨h1, by simp, loc, hloc, List.getElem?_set_self hlt⟩)
    s s' h
  exact key

/-- One step gives the worker `t` the counters `d` of its force loop and then applies the
statistics block. -/
theorem sim_step_locals (c : Config) (K : Collab) (s s' : Sim) (step t : Int)
    (ht : t ∈ workers c) (h : sim_step c K s step = some s') :
    s'.world.particles.length = s.world.particles.length ∧
    s'.locals.length = s.locals.length ∧
    ∃ loc d w0 w1, s.locals[t.toNat]? = some loc ∧
      s'.locals[t.toNat]? = some (stats_update c { loc with toDiag := d }) ∧
      w0.particles.length = s.world.particles.length ∧
      (owned c w0 t).foldlM (force_one c K) (w0, { dmin := 1, davg := 0, navg := 0 }) =
        some (w1, d) := by
  unfold sim_step at h
  cases h1 : (workers c).foldlM (force_phase c K) s with
  | none => simp [h1] at h
  | some s1 =>
    simp only [h1] at h
    cases h2 : (workers c).foldlM (migrate_phase c K) s1 with
    | none => simp [h2] at h
    | some s2 =>
      simp only [h2] at h
      rw [save_all_eq] at h
      have h3 := Option.some.inj h
      subst h3
      obtain ⟨a1, a2, loc, d, w0, w1, a3, a4, a5, a6⟩ := force_all_locals c K s s1 t ht h1
      obtain ⟨b1, b2, loc1, b3, b4⟩ := migrate_all_locals c K s1 s2 t ht h2
      rw [a4] at b3
      have := Option.some.inj b3
      subst this
      exact ⟨by simp only; rw [b1, a1], by simp only; rw [b2, a2],
        loc, d, w0, w1, a3, b4, a5, a6⟩

/-! ## The minimum distance -/

theorem stats_update_toDiag (c : Config) (loc : Locals) :
    (stats_update c loc).toDiag = loc.toDiag := by
  unfold stats_update
  dsimp only
  split_ifs <;> rfl

theorem stats_update_absmin (c : Config) (loc : Locals) (hno : c.no_output = 0) :
    (stats_update c loc).absmin = min loc.absmin loc.dmin := by
  unfold stats_update
  dsimp only
  rw [if_pos hno]
  by_cases h1 : loc.navg ≠ 0 <;> by_cases h2 : loc.dmin < loc.absmin
  · rw [if_pos h1, if_pos h2]
    exact (min_eq_right h2.le).symm
  · rw [if_pos h1, if_neg h2]
    exact (min_eq_left (not_lt.mp h2)).symm
  · rw [if_neg h1, if_pos h2]
    exact (min_eq_right h2.le).symm
  · rw [if_neg h1, if_neg h2]
    exact (min_eq_left (not_lt.mp h2)).symm

/-- After `k` steps with diagnostics enabled, `absmin` of a worker is the minimum of `1.0` and
its `dmin` values of the steps `0 .. k-1`. -/
theorem absmin_after (c : Config) (K : Collab) (particles : List particle_t)
    (hno : c.no_output = 0) (t : Int) (ht : t ∈ workers c) (k : Nat) :
    ∀ s, run { c with NSTEPS := (k : Int) } K particles = some s →
      ∃ loc, s.locals[t.toNat]? = some loc ∧
        loc.absmin = ((loopLt 0 (k : Int)).map (dmin_at c K particles t)).foldl min 1 := by
  obtain ⟨ht0, ht1⟩ := mem_loopLt.mp ht
  induction k with
  | zero =>
    intro s hs
    rw [run_zero c K particles _ (by simp)] at hs
    obtain ⟨hl, -, -⟩ := init_sim_some hs
    refine ⟨init_locals, ?_, ?_⟩
    · rw [hl, List.getElem?_replicate]
      have : t.toNat < c.n_threads.toNat := by omega
      simp [this]
    · rw [loopLt_nil (by simp)]
      rfl
  | succ k ih =>
    intro s' hs'
    have hrun := hs'
    rw [show ((k + 1 : Nat) : Int) = (k : Int) + 1 from by push_cast; rfl,
      run_succ c K particles k (by omega)] at hs'
    cases hk : run { c with NSTEPS := (k : Int) } K particles with
    | none => rw [hk] at hs'; cases hs'
    | some s =>
      rw [hk] at hs'
      have hstep : sim_step c K s k = some s' := hs'
      obtain ⟨loc, hloc, habs⟩ := ih s hk
      obtain ⟨-, -, loc0, d, -, -, a3, a4, -, -⟩ := sim_step_locals c K s s' k t ht hstep
      rw [hloc] at a3
      have := Option.some.inj a3
      subst this
      refine ⟨_, a4, ?_⟩
      have hd : dmin_at c K particles t k = d.dmin := by
        unfold dmin_at
        rw [show ((k + 1 : Nat) : Int) = (k : Int) + 1 from by push_cast; rfl] at hrun
        simp only [hrun, a4]
        have := congrArg Diag.dmin (stats_update_toDiag c { loc with toDiag := d })
        exact this
      rw [show ((k + 1 : Nat) : Int) = (k : Int) + 1 from by push_cast; rfl,
        loopLt_snoc (by omega), List.map_append, List.foldl_append, ← habs]
      simp only [List.map_cons, List.map_nil, List.foldl_cons, List.foldl_nil, hd]
      rw [stats_update_absmin c _ hno]

theorem foldl_min_spec (xs : List ℚ) (a : ℚ) :
    xs.foldl min a ≤ a ∧ (∀ x ∈ xs, xs.foldl min a ≤ x) ∧
      (xs.foldl min a = a ∨ xs.foldl min a ∈ xs) := by
  induction xs generalizing a with
  | nil => simp
  | cons x xs ih =>
    obtain ⟨h1, h2, h3⟩ := ih (min a x)
    simp only [List.foldl_cons]
    refine ⟨le_trans h1 (min_le_left _ _), ?_, ?_⟩
    · intro y hy
      rcases List.mem_cons.mp hy with rfl | hy
      · exact le_trans h1 (min_le_right _ _)
      · exact h2 y hy
    · rcases h3 with h3 | h3
      · rcases min_choice a x with h | h
        · left; rw [h3, h]
        · right; rw [h3, h]; exact List.mem_cons_self _ _
      · right; exact List.mem_cons_of_mem _ h3

theorem merge_gabsmin (c : Config) (g : Globals) (loc : Locals) (hno : c.no_output = 0) :
    (merge c g loc).gabsmin = min g.gabsmin loc.absmin := by
  unfold merge
  rw [if_pos hno]
  dsimp only
  by_cases h : loc.absmin < g.gabsmin
  · rw [if_pos h]; exact (min_eq_right h.le).symm
  · rw [if_neg h]; exact (min_eq_left (not_lt.mp h)).symm

theorem foldl_merge_gabsmin (c : Config) (ls : List Locals) (g : Globals)
    (hno : c.no_output = 0) :
    (ls.foldl (merge c) g).gabsmin = (ls.map (fun l => l.absmin)).foldl min g.gabsmin := by
  induction ls generalizing g with
  | nil => rfl
  | cons l ls ih =>
    simp only [List.foldl_cons, List.map_cons]
    rw [ih, merge_gabsmin c g l hno]

/-- With diagnostics enabled, the merged `gabsmin` of workers whose `absmin` is at most `1.0`
is the least of their `absmin` values. -/
theorem merge_all_is_min (c : Config) (ls : List Locals) (hno : c.no_output = 0)
    (hne : ls ≠ []) (hle : ∀ l ∈ ls, l.absmin ≤ 1) :
    (∃ l ∈ ls, (merge_all c ls).gabsmin = l.absmin) ∧
      ∀ l ∈ ls, (merge_all c ls).gabsmin ≤ l.absmin := by
  unfold merge_all
  rw [foldl_merge_gabsmin c ls init_globals hno]
  obtain ⟨h1, h2, h3⟩ := foldl_min_spec (ls.map (fun l => l.absmin)) init_globals.gabsmin
  have hall : ∀ l ∈ ls, (ls.map (fun l => l.absmin)).foldl min init_globals.gabsmin
      ≤ l.absmin := fun l hl => h2 _ (List.mem_map.mpr ⟨l, hl, rfl⟩)
  refine ⟨?_, hall⟩
  rcases h3 with h3 | h3
  · obtain ⟨l, hl⟩ := List.exists_mem_of_ne_nil ls hne
    refine ⟨l, hl, le_antisymm (hall l hl) ?_⟩
    rw [h3]
    exact hle l hl
  · obtain ⟨l, hl, e⟩ := List.mem_map.mp h3
    exact ⟨l, hl, e.symm⟩

theorem report_gabsmin (c : Config) (g : Globals) : (report c g).gabsmin = g.gabsmin := by
  unfold report
  split_ifs <;> rfl

/-- The locals of the run belong to the workers `0 .. n_threads-1`. -/
theorem locals_of_worker (c : Config) {s : Sim} (hlen : s.locals.length = c.n_threads.toNat)
    {loc : Locals} (hl : loc ∈ s.locals) :
    ∃ t, t ∈ workers c ∧ s.locals[t.toNat]? = some loc := by
  obtain ⟨i, hi, rfl⟩ := List.getElem_of_mem hl
  refine ⟨(i : Int), mem_loopLt.mpr ⟨by omega, by omega⟩, ?_⟩
  simp [hi]

/-- C11: with diagnostics enabled, at least one worker and cell ids that stay in the grid
(so that the run reaches its end), every worker's `absmin` is the minimum of `1.0` and its
`dmin` values of all steps, and for every order `ls` in which the workers merge, the
reported `gabsmin` is the least of the workers' `absmin` values: one of them, and at most
each of them. -/
theorem global_minimum (c : Config) (K : Collab) (particles : List particle_t)
    (hbpr : 0 ≤ c.bpr) (hgrid : ∀ q ∈ particles, in_grid q c.bpr)
    (hmove : move_in_grid K c.bpr) (hno : c.no_output = 0) (hT : 1 ≤ c.n_threads) :
    ∃ s, run c K particles = some s ∧
      (∀ t ∈ workers c, ∃ loc, s.locals[t.toNat]? = some loc ∧
        loc.absmin =
          ((loopLt 0 c.NSTEPS).map (dmin_at c K particles t)).foldl min 1) ∧
      (∀ ls : List Locals, ls.Perm s.locals →
        (∃ loc ∈ s.locals, (report c (merge_all c ls)).gabsmin = loc.absmin) ∧
        ∀ loc ∈ s.locals, (report c (merge_all c ls)).gabsmin ≤ loc.absmin) := by
  obtain ⟨s, hs, hok, -⟩ := run_ok c K particles hbpr hgrid hmove
  have hN : loopLt 0 (c.NSTEPS.toNat : Int) = loopLt 0 c.NSTEPS := by
    unfold loopLt
    congr 2
    omega
  have habs : ∀ t ∈ workers c, ∃ loc, s.locals[t.toNat]? = some loc ∧
      loc.absmin = ((loopLt 0 c.NSTEPS).map (dmin_at c K particles t)).foldl min 1 := by
    intro t ht
    have := absmin_after c K particles hno t ht c.NSTEPS.toNat s (by rw [← run_toNat]; exact hs)
    rw [hN] at this
    exact this
  refine ⟨s, hs, habs, ?_⟩
  intro ls hperm
  have hle : ∀ l ∈ ls, l.absmin ≤ 1 := by
    intro l hl
    obtain ⟨t, ht, hloc⟩ := locals_of_worker c hok.2 (hperm.mem_iff.mp hl)
    obtain ⟨loc, h1, h2⟩ := habs t ht
    rw [hloc] at h1
    have := Option.some.inj h1
    subst this
    rw [h2]
    exact (foldl_min_spec _ 1).1
  have hne : ls ≠ [] := by
    intro h
    have := hperm.length_eq
    rw [h, hok.2] at this
    simp at this
    omega
  obtain ⟨⟨l, hl, e⟩, hall⟩ := merge_all_is_min c ls hno hne hle
  rw [report_gabsmin]
  exact ⟨⟨l, hperm.mem_iff.mp hl, e⟩, fun loc hloc => hall loc (hperm.mem_iff.mpr hloc)⟩

/-- Witness for C11: the five particles on the 3 x 3 grid with two workers. -/
theorem global_minimum_witness :
    ∃ s, run demo_config demo_collab demo_particles = some s ∧
      (∀ t ∈ workers demo_config, ∃ loc, s.locals[t.toNat]? = some loc ∧
        loc.absmin =
          ((loopLt 0 demo_config.NSTEPS).map
            (dmin_at demo_config demo_collab demo_particles t)).foldl min 1) ∧
      (∀ ls : List Locals, ls.Perm s.locals →
        (∃ loc ∈ s.locals, (report demo_config (merge_all demo_config ls)).gabsmin =
          loc.absmin) ∧
        ∀ loc ∈ s.locals, (report demo_config (merge_all demo_config ls)).gabsmin ≤
          loc.absmin) :=
  global_minimum demo_config demo_collab demo_particles (by decide) demo_particles_in_grid
    demo_collab_in_grid rfl (by decide)

/-! ## The average distance -/

theorem stats_update_nabsavg (c : Config) (loc : Locals) (h : loc.navg = 0) :
    (stats_update c loc).nabsavg = loc.nabsavg := by
  unfold stats_update
  dsimp only
  have h1 : ¬ loc.navg ≠ 0 := fun hne => hne h
  rw [if_neg h1]
  split_ifs <;> rfl

theorem merge_gabsavg_none (c : Config) (g : Globals) (loc : Locals) (hno : c.no_output = 0)
    (h : g.gabsavg = none ∨ worker_average loc = none) : (merge c g loc).gabsavg = none := by
  unfold merge
  rw [if_pos hno]
  dsimp only
  rcases h with h | h
  · rw [h]
  · rw [h]
    cases g.gabsavg <;> rfl

theorem foldl_merge_none (c : Config) (ls : List Locals) (g : Globals) (hno : c.no_output = 0)
    (h : g.gabsavg = none ∨ ∃ l ∈ ls, worker_average l = none) :
    (ls.foldl (merge c) g).gabsavg = none := by
  induction ls generalizing g with
  | nil =>
    rcases h with h | ⟨l, hl, -⟩
    · exact h
    · cases hl
  | cons x xs ih =>
    simp only [List.foldl_cons]
    apply ih
    rcases h with h | ⟨l, hl, hn⟩
    · exact Or.inl (merge_gabsavg_none c g x hno (Or.inl h))
    · rcases List.mem_cons.mp hl with rfl | hl
      · exact Or.inl (merge_gabsavg_none c g l hno (Or.inr hn))
      · exact Or.inr ⟨l, hl, hn⟩

theorem report_gabsavg_none (c : Config) (g : Globals) (h : g.gabsavg = none) :
    (report c g).gabsavg = none := by
  unfold report
  split_ifs
  · rfl
  · simp [h]
  · exact h

/-- A worker that owns no particle never counts a step: its `nabsavg` stays `0`, its
`absavg /= nabsavg` is a division by zero, and the average that `main` prints is not a
number. -/
theorem empty_worker_average (c : Config) (K : Collab) (particles : List particle_t)
    (hbpr : 0 ≤ c.bpr) (hgrid : ∀ q ∈ particles, in_grid q c.bpr)
    (hmove : move_in_grid K c.bpr) (hno : c.no_output = 0) (t : Int) (ht : t ∈ workers c)
    (hempty : first (particles.length : Int) c.n_threads t =
      last (particles.length : Int) c.n_threads t) :
    ∃ s g, program c K particles = some (s, g) ∧
      (∃ loc, s.locals[t.toNat]? = some loc ∧ loc.nabsavg = 0 ∧ worker_average loc = none) ∧
      g.gabsavg = none := by
  obtain ⟨ht0, ht1⟩ := mem_loopLt.mp ht
  obtain ⟨s, hs, hok, -⟩ := run_ok c K particles hbpr hgrid hmove
  have hrun := hs
  rw [run_eq] at hrun
  cases h0 : init_sim c particles with
  | none => rw [h0] at hrun; cases hrun
  | some s0 =>
    rw [h0] at hrun
    simp only [Option.some_bind] at hrun
    obtain ⟨hl0, -, hw0⟩ := init_sim_some h0
    obtain ⟨w, hw, -, -, hpl, -⟩ := init_bins_consistent particles c.bpr hgrid
    rw [hw] at hw0
    have hw0' := Option.some.inj hw0
    have hinv := foldlM_reaches (sim_step c K)
      (fun u : Sim => u.world.particles.length = particles.length ∧
        ∃ loc, u.locals[t.toNat]? = some loc ∧ loc.navg = 0 ∧ loc.nabsavg = 0)
      (loopLt 0 c.NSTEPS)
      (fun step a b _ ha hab => by
        obtain ⟨hlen, loc, hloc, hn1, hn2⟩ := ha
        obtain ⟨b1, -, loc', d, w0, w1, b3, b4, b5, b6⟩ := sim_step_locals c K a b step t ht hab
        rw [hloc] at b3
        have := Option.some.inj b3
        subst this
        have hown : owned c w0 t = [] := by
          unfold owned
          rw [b5, hlen, hempty]
          exact loopLt_nil (le_refl _)
        rw [hown] at b6
        simp only [List.foldlM_nil] at b6
        have hd : d = { dmin := 1, davg := 0, navg := 0 } :=
          (congrArg Prod.snd (Option.some.inj b6)).symm
        subst hd
        refine ⟨by rw [b1, hlen], _, b4, ?_, ?_⟩
        · have := congrArg Diag.navg (stats_update_toDiag c
            { loc with toDiag := { dmin := 1, davg := 0, navg := 0 } })
          exact this
        · rw [stats_update_nabsavg c _ rfl]
          exact hn2)
      s0 s
      ⟨by rw [← hw0', hpl], init_locals, by
        rw [hl0, List.getElem?_replicate]
        have : t.toNat < c.n_threads.toNat := by omega
        simp [this], rfl, rfl⟩
      hrun
    obtain ⟨-, loc, hloc, -, hnabs⟩ := hinv
    have havg : worker_average loc = none := by
      unfold worker_average
      rw [if_pos hnabs]
    refine ⟨s, report c (merge_all c s.locals), ?_, ⟨loc, hloc, hnabs, havg⟩, ?_⟩
    · simp only [program, hs]
    · apply report_gabsavg_none
      exact foldl_merge_none c s.locals init_globals hno
        (Or.inr ⟨loc, List.getElem?_mem hloc, havg⟩)

/-- C12, at the failing input `-n 1 -p 2`: one particle in the 3 x 3 grid and two workers,
diagnostics enabled. The worker 1 owns no particle, its `nabsavg` is `0` after the step
loop, its `absavg /= nabsavg` is not a number, and neither is the reported global average. -/
theorem average_not_a_number :
    ∃ s g, program demo_config demo_collab [demo_particle (1 / 100) (1 / 100) 0] =
        some (s, g) ∧
      (∃ loc, s.locals[(1 : Int).toNat]? = some loc ∧ loc.nabsavg = 0 ∧
        worker_average loc = none) ∧
      g.gabsavg = none :=
  empty_worker_average demo_config demo_collab [demo_particle (1 / 100) (1 / 100) 0]
    (by decide)
    (by
      intro q hq
      rw [List.mem_singleton] at hq
      subst hq
      unfold in_grid binNum demo_particle cutoff demo_config; norm_num)
    demo_collab_in_grid rfl 1 (by decide) (by decide)

/-! ## The diagnostics flag -/

theorem map_toDiag_getElem? {ls ls' : List Locals}
    (h : ls.map (fun l => l.toDiag) = ls'.map (fun l => l.toDiag)) (i : Nat) :
    (ls[i]? = none ∧ ls'[i]? = none) ∨
      ∃ a b, ls[i]? = some a ∧ ls'[i]? = some b ∧ a.toDiag = b.toDiag := by
  have := congrArg (fun xs => xs[i]?) h
  simp only [List.getElem?_map] at this
  cases ha : ls[i]? with
  | none =>
    cases hb : ls'[i]? with
    | none => exact Or.inl ⟨rfl, rfl⟩
    | some b => rw [ha, hb] at this; cases this
  | some a =>
    cases hb : ls'[i]? with
    | none => rw [ha, hb] at this; cases this
    | some b =>
      rw [ha, hb] at this
      exact Or.inr ⟨a, b, rfl, rfl, Option.some.inj this⟩

theorem force_phase_flag (c : Config) (K : Collab) (a : Int) (t : Int) (s s' : Sim)
    (h : dynamics s = dynamics s') :
    (force_phase { c with no_output := a } K s t = none ∧ force_phase c K s' t = none) ∨
      ∃ u u', force_phase { c with no_output := a } K s t = some u ∧
        force_phase c K s' t = some u' ∧ dynamics u = dynamics u' := by
  have hw : s.world = s'.world := congrArg Prod.fst h
  have hl : s.locals.map (fun l => l.toDiag) = s'.locals.map (fun l => l.toDiag) :=
    congrArg Prod.snd h
  by_cases ht : 0 ≤ t
  · rcases map_toDiag_getElem? hl t.toNat with ⟨h1, h2⟩ | ⟨x, y, h1, h2, -⟩
    · left
      simp only [force_phase, ht, if_true, h1, h2, and_self]
    · have e : (loopLt (first (s.world.particles.length : Int) c.n_threads t)
          (last (s.world.particles.length : Int) c.n_threads t)).foldlM
          (force_one { c with no_output := a } K)
          (s.world, { dmin := 1, davg := 0, navg := 0 }) =
        (loopLt (first (s'.world.particles.length : Int) c.n_threads t)
          (last (s'.world.particles.length : Int) c.n_threads t)).foldlM
          (force_one c K) (s'.world, { dmin := 1, davg := 0, navg := 0 }) := by
        rw [hw]; rfl
      cases hf : (loopLt (first (s'.world.particles.length : Int) c.n_threads t)
          (last (s'.world.particles.length : Int) c.n_threads t)).foldlM
          (force_one c K) (s'.world, { dmin := 1, davg := 0, navg := 0 }) with
      | none =>
        left
        rw [hf] at e
        simp only [force_phase, ht, if_true, h1, h2, e, hf, and_self]
      | some r =>
        right
        obtain ⟨w, d⟩ := r
        rw [hf] at e
        simp only [force_phase, ht, if_true, h1, h2, e, hf]
        refine ⟨_, _, rfl, rfl, ?_⟩
        simp only [dynamics, List.map_set, hl]
  · left
    simp only [force_phase, ht, if_false, and_self]

theorem migrate_phase_flag (c : Config) (K : Collab) (a : Int) (t : Int) (s s' : Sim)
    (h : dynamics s = dynamics s') :
    (migrate_phase { c with no_output := a } K s t = none ∧ migrate_phase c K s' t = none) ∨
      ∃ u u', migrate_phase { c with no_output := a } K s t = some u ∧
        migrate_phase c K s' t = some u' ∧ dynamics u = dynamics u' := by
  have hw : s.world = s'.world := congrArg Prod.fst h
  have hl : s.locals.map (fun l => l.toDiag) = s'.locals.map (fun l => l.toDiag) :=
    congrArg Prod.snd h
  by_cases ht : 0 ≤ t
  · rcases map_toDiag_getElem? hl t.toNat with ⟨h1, h2⟩ | ⟨x, y, h1, h2, hxy⟩
    · left
      simp only [migrate_phase, ht, if_true, h1, h2, and_self]
    · have e : migrate_loop { c with no_output := a } K s.world t =
          migrate_loop c K s'.world t := by
        rw [hw]; rfl
      cases hf : migrate_loop c K s'.world t with
      | none =>
        left
        rw [hf] at e
        simp only [migrate_phase, ht, if_true, h1, h2, e, hf, and_self]
      | some w =>
        right
        rw [hf] at e
        simp only [migrate_phase, ht, if_true, h1, h2, e, hf]
        refine ⟨_, _, rfl, rfl, ?_⟩
        simp only [dynamics, List.map_set, hl, stats_update_toDiag, hxy]
  · left
    simp only [migrate_phase, ht, if_false, and_self]

theorem save_phase_flag (c c' : Config) (step t : Int) (s s' : Sim)
    (h : dynamics s = dynamics s') :
    ∃ u u', save_phase c step s t = some u ∧ save_phase c' step s' t = some u' ∧
      dynamics u = dynamics u' := by
  have h1 : ∃ u, save_phase c step s t = some u ∧ dynamics u = dynamics s := by
    unfold save_phase
    split_ifs <;> exact ⟨_, rfl, rfl⟩
  have h2 : ∃ u, save_phase c' step s' t = some u ∧ dynamics u = dynamics s' := by
    unfold save_phase
    split_ifs <;> exact ⟨_, rfl, rfl⟩
  obtain ⟨u, e1, e2⟩ := h1
  obtain ⟨u', e3, e4⟩ := h2
  exact ⟨u, u', e1, e3, by rw [e2, e4, h]⟩


theorem sim_step_flag (c : Config) (K : Collab) (a : Int) (step : Int) (s s' : Sim)
    (h : dynamics s = dynamics s') :
    (sim_step { c with no_output := a } K s step = none ∧ sim_step c K s' step = none) ∨
      ∃ u u', sim_step { c with no_output := a } K s step = some u ∧
        sim_step c K s' step = some u' ∧ dynamics u = dynamics u' := by
  have hwk : workers { c with no_output := a } = workers c := rfl
  unfold sim_step
  rw [hwk]
  rcases foldlM_rel (fun u u' => dynamics u = dynamics u')
      (force_phase { c with no_output := a } K) (force_phase c K) (workers c)
      (fun t u u' _ hu => force_phase_flag c K a t u u' hu) s s' h with
    ⟨h1, h2⟩ | ⟨s1, s1', h1, h2, h3⟩
  · left; rw [h1, h2]; exact ⟨rfl, rfl⟩
  · rw [h1, h2]
    dsimp only
    rcases foldlM_rel (fun u u' => dynamics u = dynamics u')
        (migrate_phase { c with no_output := a } K) (migrate_phase c K) (workers c)
        (fun t u u' _ hu => migrate_phase_flag c K a t u u' hu) s1 s1' h3 with
      ⟨k1, k2⟩ | ⟨s2, s2', k1, k2, k3⟩
    · left; rw [k1, k2]; exact ⟨rfl, rfl⟩
    · rw [k1, k2]
      dsimp only
      exact foldlM_rel (fun u u' => dynamics u = dynamics u')
        (save_phase { c with no_output := a } step) (save_phase c step) (workers c)
        (fun t u u' _ hu => Or.inr (save_phase_flag _ _ step t u u' hu)) s2 s2' k3

/-- The step loop computes the same particles, bins and per-step counters whatever the value
of `no_output`. -/
theorem step_loop_flag (c : Config) (K : Collab) (a : Int) (s : Sim) :
    (step_loop { c with no_output := a } K s).map dynamics =
      (step_loop c K s).map dynamics := by
  unfold step_loop
  have hN : ({ c with no_output := a } : Config).NSTEPS = c.NSTEPS := rfl
  rw [hN]
  rcases foldlM_rel (fun u u' => dynamics u = dynamics u')
      (sim_step { c with no_output := a } K) (sim_step c K) (loopLt 0 c.NSTEPS)
      (fun step u u' _ hu => sim_step_flag c K a step u u' hu) s s rfl with
    ⟨h1, h2⟩ | ⟨u, u', h1, h2, h3⟩
  · rw [h1, h2]
  · rw [h1, h2]
    simp only [Option.map_some', h3]

/-- C13: for every initial state `s` of the step loop (particles, bins and locals), every
pair of collaborators and every number of steps, the step loop run with `no_output = 0` and
the one run with `no_output = 1` either both fail or both end, with the same particle
records, the same bins and the same counters `dmin`, `davg`, `navg` of every worker: the flag
reaches only `absmin`, `absavg`, `nabsavg`, the globals merged from them and the snapshots.
The same holds for the whole run from the initial binning. -/
theorem no_output_noninterference (c : Config) (K : Collab) (s : Sim)
    (particles : List particle_t) :
    (step_loop { c with no_output := 0 } K s).map dynamics =
      (step_loop { c with no_output := 1 } K s).map dynamics ∧
    (run { c with no_output := 0 } K particles).map dynamics =
      (run { c with no_output := 1 } K particles).map dynamics := by
  have h1 : ∀ u : Sim, (step_loop { c with no_output := 0 } K u).map dynamics =
      (step_loop { c with no_output := 1 } K u).map dynamics :=
    fun u => step_loop_flag { c with no_output := 1 } K 0 u
  refine ⟨h1 s, ?_⟩
  unfold run
  have hi : init_sim { c with no_output := 0 } particles =
      init_sim { c with no_output := 1 } particles := rfl
  rw [hi]
  cases init_sim { c with no_output := 1 } particles with
  | none => rfl
  | some u => exact h1 u

/-! ## The force loop and the counters -/

theorem force_pair_indep (K : Collab) (hK : force_ignores_counters K) (p q : Nat)
    (s s' : World × Diag) (h : s.1 = s'.1) :
    (force_pair K p s q = none ∧ force_pair K p s' q = none) ∨
      ∃ a b, force_pair K p s q = some a ∧ force_pair K p s' q = some b ∧ a.1 = b.1 := by
  unfold force_pair
  rw [← h]
  cases hp : s.1.particles[p]? with
  | none => left; exact ⟨rfl, rfl⟩
  | some pp =>
    cases hq : s.1.particles[q]? with
    | none => left; exact ⟨rfl, rfl⟩
    | some pq =>
      right
      refine ⟨_, _, rfl, rfl, ?_⟩
      simp only [hK pp pq s.2 s'.2]

theorem force_bin_indep (K : Collab) (hK : force_ignores_counters K) (p : Nat) (nbin : Int)
    (s s' : World × Diag) (h : s.1 = s'.1) :
    (force_bin K p s nbin = none ∧ force_bin K p s' nbin = none) ∨
      ∃ a b, force_bin K p s nbin = some a ∧ force_bin K p s' nbin = some b ∧ a.1 = b.1 := by
  unfold force_bin
  rw [← h]
  by_cases hb : 0 ≤ nbin ∧ nbin < s.1.bins.length
  · rw [if_pos hb, if_pos hb]
    exact foldlM_rel (fun a b => a.1 = b.1) (force_pair K p) (force_pair K p) _
      (fun q a b _ hab => force_pair_indep K hK p q a b hab) s s' h
  · rw [if_neg hb, if_neg hb]
    exact Or.inl ⟨rfl, rfl⟩

theorem force_one_indep (c : Config) (K : Collab) (hK : force_ignores_counters K) (p : Int)
    (s s' : World × Diag) (h : s.1 = s'.1) :
    (force_one c K s p = none ∧ force_one c K s' p = none) ∨
      ∃ a b, force_one c K s p = some a ∧ force_one c K s' p = some b ∧ a.1 = b.1 := by
  unfold force_one
  rw [← h]
  by_cases hp : 0 ≤ p
  · rw [if_pos hp, if_pos hp]
    cases hq : s.1.particles[p.toNat]? with
    | none => left; exact ⟨rfl, rfl⟩
    | some q =>
      dsimp only
      exact foldlM_rel (fun a b => a.1 = b.1) (force_bin K p.toNat) (force_bin K p.toNat) _
        (fun nbin a b _ hab => force_bin_indep K hK p.toNat nbin a b hab)
        ({ s.1 with particles := s.1.particles.set p.toNat { q with ax := 0, ay := 0 } }, s.2)
        ({ s.1 with particles := s.1.particles.set p.toNat { q with ax := 0, ay := 0 } }, s'.2)
        rfl
  · rw [if_neg hp, if_neg hp]
    exact Or.inl ⟨rfl, rfl⟩

/-- The world a force loop leaves does not depend on the counters it starts from. -/
theorem force_loop_indep (c : Config) (K : Collab) (hK : force_ignores_counters K)
    (xs : List Int) (w : World) (d d' : Diag) :
    (xs.foldlM (force_one c K) (w, d) = none ∧ xs.foldlM (force_one c K) (w, d') = none) ∨
      ∃ a b, xs.foldlM (force_one c K) (w, d) = some a ∧
        xs.foldlM (force_one c K) (w, d') = some b ∧ a.1 = b.1 :=
  foldlM_rel (fun a b => a.1 = b.1) (force_one c K) (force_one c K) xs
    (fun p a b _ hab => force_one_indep c K hK p a b hab) (w, d) (w, d') rfl

theorem loopLt_append {a b e : Int} (hab : a ≤ b) (hbe : b ≤ e) :
    loopLt a b ++ loopLt b e = loopLt a e := by
  obtain ⟨k, rfl⟩ : ∃ k : Nat, e = b + k := ⟨(e - b).toNat, by omega⟩
  induction k with
  | zero =>
    simp only [Nat.cast_zero, add_zero]
    rw [loopLt_nil (le_refl b), List.append_nil]
  | succ k ih =>
    have e1 : b + ((k + 1 : Nat) : Int) = (b + (k : Int)) + 1 := by push_cast; ring
    rw [e1, loopLt_snoc (by omega), loopLt_snoc (by omega), ← List.append_assoc,
      ih (by omega)]

theorem force_phase_eq (c : Config) (K : Collab) (s : Sim) (t : Int) (loc : Locals)
    (ht : 0 ≤ t) (hloc : s.locals[t.toNat]? = some loc) :
    force_phase c K s t =
      ((owned c s.world t).foldlM (force_one c K)
        (s.world, { dmin := 1, davg := 0, navg := 0 })).map
        (fun r => { s with world := r.1,
                           locals := s.locals.set t.toNat { loc with toDiag := r.2 } }) := by
  simp only [force_phase, ht, if_true, hloc, owned]
  cases (loopLt (first (s.world.particles.length : Int) c.n_threads t)
    (last (s.world.particles.length : Int) c.n_threads t)).foldlM (force_one c K)
    (s.world, { dmin := 1, davg := 0, navg := 0 }) <;> rfl

theorem migrate_phase_eq (c : Config) (K : Collab) (s : Sim) (t : Int) (loc : Locals)
    (ht : 0 ≤ t) (hloc : s.locals[t.toNat]? = some loc) :
    migrate_phase c K s t =
      ((owned c s.world t).foldlM (migrate_one c K) s.world).map
        (fun w => { s with world := w,
                           locals := s.locals.set t.toNat (stats_update c loc) }) := by
  simp only [migrate_phase, ht, if_true, hloc, migrate_loop, owned]
  cases (loopLt (first (s.world.particles.length : Int) c.n_threads t)
    (last (s.world.particles.length : Int) c.n_threads t)).foldlM (migrate_one c K)
    s.world <;> rfl

/-! ## The phases of all workers as one sweep -/

theorem foldlM_snoc {σ α : Type} (f : σ → α → Option σ) (xs : List α) (x : α) (s : σ) :
    (xs ++ [x]).foldlM f s = (xs.foldlM f s).bind (fun u => f u x) := by
  rw [List.foldlM_append]
  cases xs.foldlM f s with
  | none => rfl
  | some u =>
    simp only [Option.bind_eq_bind, Option.some_bind, List.foldlM_cons, List.foldlM_nil]
    cases f u x <;> rfl

theorem foldlM_append_bind {σ α : Type} (f : σ → α → Option σ) (xs ys : List α) (s : σ) :
    (xs ++ ys).foldlM f s = (xs.foldlM f s).bind (fun u => ys.foldlM f u) := by
  rw [List.foldlM_append]
  rfl

theorem first_succ (n T : Int) (j : Nat) :
    first n T ((j + 1 : Nat) : Int) = last n T (j : Int) := by
  unfold first last
  push_cast
  rfl

theorem first_zero (n T : Int) (hn : 0 ≤ n) : first n T 0 = 0 := by
  simp [first, hn]

theorem first_top (n T : Int) (hn : 0 ≤ n) (hT : 1 ≤ T) : first n T T = n := by
  obtain ⟨-, hp1, -⟩ := particles_per_thread_bounds hn hT
  unfold first
  exact min_eq_right hp1

/-- The force phases of the workers `0 .. j-1` do to the world what one force loop over the
particles `0 .. first j - 1` does. -/
theorem force_prefix (c : Config) (K : Collab) (hK : force_ignores_counters K)
    (s : Sim) (hlen : s.locals.length = c.n_threads.toNat) (j : Nat)
    (hj : (j : Int) ≤ c.n_threads) :
    ((loopLt 0 (j : Int)).foldlM (force_phase c K) s = none ∧
      (loopLt 0 (first (s.world.particles.length : Int) c.n_threads (j : Int))).foldlM
        (force_one c K) (s.world, { dmin := 1, davg := 0, navg := 0 }) = none) ∨
    ∃ u r, (loopLt 0 (j : Int)).foldlM (force_phase c K) s = some u ∧
      (loopLt 0 (first (s.world.particles.length : Int) c.n_threads (j : Int))).foldlM
        (force_one c K) (s.world, { dmin := 1, davg := 0, navg := 0 }) = some r ∧
      u.world = r.1 ∧ u.locals.length = s.locals.length := by
  induction j with
  | zero =>
    right
    simp only [Nat.cast_zero]
    rw [first_zero _ _ (by omega), loopLt_nil (le_refl 0)]
    exact ⟨s, _, rfl, rfl, rfl, rfl⟩
  | succ j ih =>
    have hj' : (j : Int) ≤ c.n_threads := by push_cast at hj; omega
    have hjlt : (j : Int) < c.n_threads := by push_cast at hj; omega
    have hT : 1 ≤ c.n_threads := by omega
    have hn : (0 : Int) ≤ (s.world.particles.length : Int) := by omega
    have hfl := first_le_last hn hT (j : Int)
    have hf0 := (first_nonneg hn hT (by omega : (0 : Int) ≤ (j : Int))).1
    have e1 : loopLt 0 ((j + 1 : Nat) : Int) = loopLt 0 (j : Int) ++ [(j : Int)] := by
      rw [← loopLt_snoc (by omega)]
      rfl
    have e2 : loopLt 0 (first (s.world.particles.length : Int) c.n_threads
          ((j + 1 : Nat) : Int)) =
        loopLt 0 (first (s.world.particles.length : Int) c.n_threads (j : Int)) ++
          loopLt (first (s.world.particles.length : Int) c.n_threads (j : Int))
            (last (s.world.particles.length : Int) c.n_threads (j : Int)) := by
      rw [first_succ, loopLt_append hf0 hfl.1]
    rw [e1, e2, foldlM_snoc, foldlM_append_bind]
    rcases ih hj' with ⟨h1, h2⟩ | ⟨u, r, h1, h2, hw, hl⟩
    · left
      rw [h1, h2]
      exact ⟨rfl, rfl⟩
    · rw [h1, h2]
      simp only [Option.some_bind]
      obtain ⟨hrl, -⟩ := force_loop_len c K _ _ _ h2
      have hul : u.world.particles.length = s.world.particles.length := by
        rw [hw]; exact hrl
      have hjl : (j : Int).toNat < u.locals.length := by
        rw [hl, hlen]; omega
      rw [force_phase_eq c K u j u.locals[(j : Int).toNat] (by omega)
        (List.getElem?_eq_getElem hjl)]
      have hown : owned c u.world (j : Int) =
          loopLt (first (s.world.particles.length : Int) c.n_threads (j : Int))
            (last (s.world.particles.length : Int) c.n_threads (j : Int)) := by
        unfold owned
        rw [hul]
      rw [hown, hw]
      rcases force_loop_indep c K hK
          (loopLt (first (s.world.particles.length : Int) c.n_threads (j : Int))
            (last (s.world.particles.length : Int) c.n_threads (j : Int)))
          r.1 { dmin := 1, davg := 0, navg := 0 } r.2 with ⟨k1, k2⟩ | ⟨a, b, k1, k2, k3⟩
      · left
        rw [k1]
        exact ⟨rfl, k2⟩
      · right
        rw [k1]
        exact ⟨_, b, rfl, k2, k3, by simp [hl]⟩

/-- The migration loops of the workers `0 .. j-1` do to the world what one migration loop over
the particles `0 .. first j - 1` does. -/
theorem migrate_prefix (c : Config) (K : Collab)
    (s : Sim) (hlen : s.locals.length = c.n_threads.toNat) (j : Nat)
    (hj : (j : Int) ≤ c.n_threads) :
    ((loopLt 0 (j : Int)).foldlM (migrate_phase c K) s = none ∧
      (loopLt 0 (first (s.world.particles.length : Int) c.n_threads (j : Int))).foldlM
        (migrate_one c K) s.world = none) ∨
    ∃ u w, (loopLt 0 (j : Int)).foldlM (migrate_phase c K) s = some u ∧
      (loopLt 0 (first (s.world.particles.length : Int) c.n_threads (j : Int))).foldlM
        (migrate_one c K) s.world = some w ∧
      u.world = w ∧ u.locals.length = s.locals.length := by
  induction j with
  | zero =>
    right
    simp only [Nat.cast_zero]
    rw [first_zero _ _ (by omega), loopLt_nil (le_refl 0)]
    exact ⟨s, _, rfl, rfl, rfl, rfl⟩
  | succ j ih =>
    have hj' : (j : Int) ≤ c.n_threads := by push_cast at hj; omega
    have hjlt : (j : Int) < c.n_threads := by push_cast at hj; omega
    have hT : 1 ≤ c.n_threads := by omega
    have hn : (0 : Int) ≤ (s.world.particles.length : Int) := by omega
    have hfl := first_le_last hn hT (j : Int)
    have hf0 := (first_nonneg hn hT (by omega : (0 : Int) ≤ (j : Int))).1
    have e1 : loopLt 0 ((j + 1 : Nat) : Int) = loopLt 0 (j : Int) ++ [(j : Int)] := by
      rw [← loopLt_snoc (by omega)]
      rfl
    have e2 : loopLt 0 (first (s.world.particles.length : Int) c.n_threads
          ((j + 1 : Nat) : Int)) =
        loopLt 0 (first (s.world.particles.length : Int) c.n_threads (j : Int)) ++
          loopLt (first (s.world.particles.length : Int) c.n_threads (j : Int))
            (last (s.world.particles.length : Int) c.n_threads (j : Int)) := by
      rw [first_succ, loopLt_append hf0 hfl.1]
    rw [e1, e2, foldlM_snoc, foldlM_append_bind]
    rcases ih hj' with ⟨h1, h2⟩ | ⟨u, w, h1, h2, hw, hl⟩
    · left
      rw [h1, h2]
      exact ⟨rfl, rfl⟩
    · rw [h1, h2]
      simp only [Option.some_bind]
      obtain ⟨hrl, -⟩ := migrate_loop_len c K _ _ _ h2
      have hul : u.world.particles.length = s.world.particles.length := by
        rw [hw]; exact hrl
      have hjl : (j : Int).toNat < u.locals.length := by
        rw [hl, hlen]; omega
      rw [migrate_phase_eq c K u j u.locals[(j : Int).toNat] (by omega)
        (List.getElem?_eq_getElem hjl)]
      have hown : owned c u.world (j : Int) =
          loopLt (first (s.world.particles.length : Int) c.n_threads (j : Int))
            (last (s.world.particles.length : Int) c.n_threads (j : Int)) := by
        unfold owned
        rw [hul]
      rw [hown, hw]
      cases hk : (loopLt (first (s.world.particles.length : Int) c.n_threads (j : Int))
          (last (s.world.particles.length : Int) c.n_threads (j : Int))).foldlM
          (migrate_one c K) w with
      | none => left; exact ⟨rfl, rfl⟩
      | some w' => right; exact ⟨_, w', rfl, rfl, rfl, by simp [hl]⟩

theorem workers_eq (c : Config) (hT : 1 ≤ c.n_threads) :
    workers c = loopLt 0 ((c.n_threads.toNat : Nat) : Int) := by
  unfold workers
  congr 1
  omega

/-- With at least one worker, one step does to the world what the sequential step does, and
keeps the number of locals. -/
theorem sim_step_world (c : Config) (K : Collab) (hK : force_ignores_counters K)
    (hT : 1 ≤ c.n_threads) (step : Int) (s : Sim)
    (hlen : s.locals.length = c.n_threads.toNat) :
    (sim_step c K s step = none ∧ sequential_step c K s.world = none) ∨
      ∃ u, sim_step c K s step = some u ∧ sequential_step c K s.world = some u.world ∧
        u.locals.length = c.n_threads.toNat := by
  have hcast : ((c.n_threads.toNat : Nat) : Int) = c.n_threads := by omega
  have hn : (0 : Int) ≤ (s.world.particles.length : Int) := by omega
  unfold sim_step sequential_step sequential_force
  rw [workers_eq c hT]
  rcases force_prefix c K hK s hlen c.n_threads.toNat (by omega) with
    ⟨h1, h2⟩ | ⟨u, r, h1, h2, hw, hl⟩
  · left
    rw [hcast, first_top _ _ hn hT] at h2
    rw [h1, h2]
    exact ⟨rfl, rfl⟩
  · rw [hcast, first_top _ _ hn hT] at h2
    rw [h1, h2]
    simp only [Option.map_some', Option.some_bind]
    have hlen1 : u.locals.length = c.n_threads.toNat := by rw [hl, hlen]
    rcases migrate_prefix c K u hlen1 c.n_threads.toNat (by omega) with
      ⟨k1, k2⟩ | ⟨v, w, k1, k2, kw, kl⟩
    · left
      have hn' : (0 : Int) ≤ (u.world.particles.length : Int) := by omega
      rw [hcast, first_top _ _ hn' hT, hw] at k2
      rw [k1]
      exact ⟨rfl, k2⟩
    · right
      have hn' : (0 : Int) ≤ (u.world.particles.length : Int) := by omega
      rw [hcast, first_top _ _ hn' hT, hw] at k2
      rw [k1]
      simp only
      rw [← workers_eq c hT, save_all_eq]
      refine ⟨_, rfl, ?_, ?_⟩
      · simp only [sequential_migrate, k2, kw]
      · simp only [kl, hlen1]

/-! ## Independence of the partition -/

/-- With at least one worker, the run computes the particles and bins of the sequential
run. -/
theorem run_world (c : Config) (K : Collab) (particles : List particle_t)
    (hK : force_ignores_counters K) (hT : 1 ≤ c.n_threads) :
    (run c K particles).map (fun s => s.world) = sequential_run c K particles := by
  rw [run_eq]
  unfold sequential_run init_sim
  cases init_bins particles c.bpr with
  | none => rfl
  | some w =>
    simp only [Option.some_bind]
    rcases foldlM_rel (fun (u : Sim) (v : World) => u.world = v ∧
          u.locals.length = c.n_threads.toNat)
        (sim_step c K) (fun u _ => sequential_step c K u) (loopLt 0 c.NSTEPS)
        (fun step u v _ huv => by
          rcases sim_step_world c K hK hT step u huv.2 with ⟨h1, h2⟩ | ⟨u', h1, h2, h3⟩
          · left
            rw [← huv.1]
            exact ⟨h1, h2⟩
          · right
            rw [← huv.1]
            exact ⟨u', u'.world, h1, h2, rfl, h3⟩)
        { world := w, locals := List.replicate c.n_threads.toNat init_locals, saves := [] }
        w ⟨rfl, by simp⟩ with
      ⟨h1, h2⟩ | ⟨u, v, h1, h2, h3, -⟩
    · rw [h1, h2]; rfl
    · rw [h1, h2]
      simp only [Option.map_some', h3]

/-! ## The average distance, where it is a number -/

theorem stats_update_average (c : Config) (loc : Locals) (hno : c.no_output = 0) :
    (loc.navg ≠ 0 →
      (stats_update c loc).absavg = loc.absavg + loc.davg / (loc.navg : ℚ) ∧
      (stats_update c loc).nabsavg = loc.nabsavg + 1) ∧
    (loc.navg = 0 →
      (stats_update c loc).absavg = loc.absavg ∧ (stats_update c loc).nabsavg = loc.nabsavg) := by
  unfold stats_update
  dsimp only
  rw [if_pos hno]
  constructor
  · intro h
    rw [if_pos h]
    split_ifs <;> exact ⟨rfl, rfl⟩
  · intro h
    have h1 : ¬ loc.navg ≠ 0 := fun hne => hne h
    rw [if_neg h1]
    split_ifs <;> exact ⟨rfl, rfl⟩

/-- After `k` steps with diagnostics enabled, `absavg` of a worker is the sum of its averages
`davg/navg` of the steps `0 .. k-1` in which `navg` was not zero, and `nabsavg` is the number
of those steps. -/
theorem absavg_after (c : Config) (K : Collab) (particles : List particle_t)
    (hno : c.no_output = 0) (t : Int) (ht : t ∈ workers c) (k : Nat) :
    ∀ s, run { c with NSTEPS := (k : Int) } K particles = some s →
      ∃ loc, s.locals[t.toNat]? = some loc ∧
        loc.absavg = ((counted_steps c K particles t k).map (step_average c K particles t)).sum ∧
        loc.nabsavg = ((counted_steps c K particles t k).length : Int) := by
  obtain ⟨ht0, ht1⟩ := mem_loopLt.mp ht
  induction k with
  | zero =>
    intro s hs
    rw [run_zero c K particles _ (by simp)] at hs
    obtain ⟨hl, -, -⟩ := init_sim_some hs
    refine ⟨init_locals, ?_, ?_, ?_⟩
    · rw [hl, List.getElem?_replicate]
      have : t.toNat < c.n_threads.toNat := by omega
      simp [this]
    · unfold counted_steps
      rw [loopLt_nil (by simp)]
      rfl
    · unfold counted_steps
      rw [loopLt_nil (by simp)]
      rfl
  | succ k ih =>
    intro s' hs'
    have hrun := hs'
    rw [show ((k + 1 : Nat) : Int) = (k : Int) + 1 from by push_cast; rfl,
      run_succ c K particles k (by omega)] at hs'
    cases hk : run { c with NSTEPS := (k : Int) } K particles with
    | none => rw [hk] at hs'; cases hs'
    | some s =>
      rw [hk] at hs'
      have hstep : sim_step c K s k = some s' := hs'
      obtain ⟨loc, hloc, havg, hcnt⟩ := ih s hk
      obtain ⟨-, -, loc0, d, -, -, a3, a4, -, -⟩ := sim_step_locals c K s s' k t ht hstep
      rw [hloc] at a3
      have hl := Option.some.inj a3
      subst hl
      refine ⟨_, a4, ?_⟩
      have hd : diag_at c K particles t k = d := by
        unfold diag_at
        rw [show ((k + 1 : Nat) : Int) = (k : Int) + 1 from by push_cast; rfl] at hrun
        simp only [hrun, a4]
        exact stats_update_toDiag c { loc with toDiag := d }
      have hsteps : counted_steps c K particles t ((k + 1 : Nat) : Int) =
          counted_steps c K particles t k ++ (if d.navg ≠ 0 then [(k : Int)] else []) := by
        unfold counted_steps
        rw [show ((k + 1 : Nat) : Int) = (k : Int) + 1 from by push_cast; rfl,
          loopLt_snoc (by omega), List.filter_append]
        congr 1
        by_cases hn : d.navg ≠ 0
        · simp [List.filter_cons, hd, hn]
        · simp [List.filter_cons, hd, hn]
      obtain ⟨hpos, hzero⟩ := stats_update_average c { loc with toDiag := d } hno
      rw [hsteps]
      by_cases hn : d.navg ≠ 0
      · obtain ⟨e1, e2⟩ := hpos hn
        rw [if_pos hn, e1, e2, List.map_append, List.sum_append, List.length_append]
        simp only [List.map_cons, List.map_nil, List.sum_cons, List.sum_nil, add_zero,
          List.length_cons, List.length_nil]
        refine ⟨?_, ?_⟩
        · rw [← havg]
          unfold step_average
          rw [hd]
        · rw [hcnt]
          push_cast
          rfl
      · have hn0 : d.navg = 0 := not_not.mp hn
        obtain ⟨e1, e2⟩ := hzero hn0
        rw [if_neg hn, e1, e2, List.append_nil]
        exact ⟨havg, hcnt⟩

theorem foldl_merge_some (c : Config) (hno : c.no_output = 0) (ls : List Locals) :
    ∀ (g : Globals) (a : ℚ), g.gabsavg = some a → (∀ l ∈ ls, l.nabsavg ≠ 0) →
      (ls.foldl (merge c) g).gabsavg =
        some (a + (ls.map (fun l => l.absavg / (l.nabsavg : ℚ))).sum) := by
  induction ls with
  | nil =>
    intro g a hg _
    simp [hg]
  | cons x xs ih =>
    intro g a hg hall
    simp only [List.foldl_cons, List.map_cons, List.sum_cons]
    have hx : x.nabsavg ≠ 0 := hall x (List.mem_cons_self _ _)
    have hm : (merge c g x).gabsavg = some (a + x.absavg / (x.nabsavg : ℚ)) := by
      unfold merge worker_average
      rw [if_pos hno, if_neg hx, hg]
    rw [ih _ _ hm (fun l hl => hall l (List.mem_cons_of_mem _ hl)), add_assoc]

theorem workers_getElem (c : Config) (i : Nat) (hi : i < (workers c).length) :
    (workers c)[i] = (i : Int) := by
  unfold workers loopLt
  simp

/-- Where every worker counts at least one step (diagnostics enabled, a run that reaches its
end), a worker's merged average is the sum of its averages `davg/navg` of the counted steps
divided by their number, and the reported global average is the sum of the workers' averages
divided by `n_threads`. -/
theorem average_when_counted (c : Config) (K : Collab) (particles : List particle_t)
    (hbpr : 0 ≤ c.bpr) (hgrid : ∀ q ∈ particles, in_grid q c.bpr)
    (hmove : move_in_grid K c.bpr) (hno : c.no_output = 0) (hT : 1 ≤ c.n_threads)
    (hcount : ∀ t ∈ workers c, counted_steps c K particles t c.NSTEPS ≠ []) :
    ∃ s g, program c K particles = some (s, g) ∧
      (∀ t ∈ workers c, ∃ loc, s.locals[t.toNat]? = some loc ∧
        worker_average loc = some
          (((counted_steps c K particles t c.NSTEPS).map (step_average c K particles t)).sum /
            ((counted_steps c K particles t c.NSTEPS).length : ℚ))) ∧
      g.gabsavg = some
        (((workers c).map (fun t =>
          ((counted_steps c K particles t c.NSTEPS).map (step_average c K particles t)).sum /
            ((counted_steps c K particles t c.NSTEPS).length : ℚ))).sum / (c.n_threads : ℚ)) := by
  obtain ⟨s, hs, hok, -⟩ := run_ok c K particles hbpr hgrid hmove
  have hNN : ∀ t, counted_steps c K particles t (c.NSTEPS.toNat : Int) =
      counted_steps c K particles t c.NSTEPS := by
    intro t
    have e : loopLt 0 (c.NSTEPS.toNat : Int) = loopLt 0 c.NSTEPS := by
      unfold loopLt
      congr 2
      omega
    unfold counted_steps
    rw [e]
  have hloc : ∀ t ∈ workers c, ∃ loc, s.locals[t.toNat]? = some loc ∧
      loc.absavg =
        ((counted_steps c K particles t c.NSTEPS).map (step_average c K particles t)).sum ∧
      loc.nabsavg = ((counted_steps c K particles t c.NSTEPS).length : Int) := by
    intro t ht
    have := absavg_after c K particles hno t ht c.NSTEPS.toNat s (by rw [← run_toNat]; exact hs)
    rw [hNN] at this
    exact this
  have hne : ∀ t ∈ workers c,
      ((counted_steps c K particles t c.NSTEPS).length : Int) ≠ 0 := by
    intro t ht h0
    have : (counted_steps c K particles t c.NSTEPS).length = 0 := by exact_mod_cast h0
    exact hcount t ht (List.length_eq_zero.mp this)
  have hall : ∀ l ∈ s.locals, l.nabsavg ≠ 0 := by
    intro l hl
    obtain ⟨t, ht, hlt⟩ := locals_of_worker c hok.2 hl
    obtain ⟨loc, h1, -, h3⟩ := hloc t ht
    rw [hlt] at h1
    have e := Option.some.inj h1
    subst e
    rw [h3]
    exact hne t ht
  have hwl : (workers c).length = c.n_threads.toNat := by
    unfold workers loopLt
    simp
  have hmap : s.locals.map (fun l => l.absavg / (l.nabsavg : ℚ)) =
      (workers c).map (fun t =>
        ((counted_steps c K particles t c.NSTEPS).map (step_average c K particles t)).sum /
          ((counted_steps c K particles t c.NSTEPS).length : ℚ)) := by
    apply List.ext_getElem
    · simp only [List.length_map]
      rw [hok.2, hwl]
    · intro i h1 h2
      simp only [List.length_map] at h1 h2
      simp only [List.getElem_map]
      rw [workers_getElem c i h2]
      have hi : (i : Int) ∈ workers c := mem_loopLt.mpr ⟨by omega, by omega⟩
      obtain ⟨loc, e1, e2, e3⟩ := hloc (i : Int) hi
      have e4 : s.locals[i]? = some loc := by simpa using e1
      have e5 : s.locals[i] = loc := by
        rw [List.getElem?_eq_getElem h1] at e4
        exact Option.some.inj e4
      rw [e5, e2, e3]
      push_cast
      rfl
  refine ⟨s, report c (merge_all c s.locals), ?_, ?_, ?_⟩
  · simp only [program, hs]
  · intro t ht
    obtain ⟨loc, e1, e2, e3⟩ := hloc t ht
    refine ⟨loc, e1, ?_⟩
    unfold worker_average
    rw [if_neg (by rw [e3]; exact hne t ht), e2, e3]
    push_cast
    rfl
  · have hm := foldl_merge_some c hno s.locals init_globals 0 rfl hall
    rw [hmap, zero_add] at hm
    unfold report merge_all
    rw [if_pos hno, if_neg (by omega)]
    simp only [hm, Option.map_some']

/-- One worker, one step and one particle, which interacts with itself: the step is counted
and the averages are numbers. -/
theorem average_when_counted_example :
    ∃ s g, program { demo_config with n_threads := 1, NSTEPS := 1 } demo_collab
        [demo_particle 0 0 0] = some (s, g) ∧
      (∃ loc, s.locals[(0 : Int).toNat]? = some loc ∧ worker_average loc = some 1) ∧
      g.gabsavg = some 1 := by
  have hc : counted_steps { demo_config with n_threads := 1, NSTEPS := 1 } demo_collab
      [demo_particle 0 0 0] 0 1 = [0] := by decide!
  have hs : step_average { demo_config with n_threads := 1, NSTEPS := 1 } demo_collab
      [demo_particle 0 0 0] 0 0 = 1 := by decide!
  obtain ⟨s, g, h1, h2, h3⟩ := average_when_counted
    { demo_config with n_threads := 1, NSTEPS := 1 } demo_collab [demo_particle 0 0 0]
    (by decide)
    (by
      intro q hq
      rw [List.mem_singleton] at hq
      subst hq
      unfold in_grid binNum demo_particle cutoff demo_config; norm_num)
    demo_collab_in_grid rfl (by decide)
    (by
      intro t ht
      have ht0 : t = 0 := by
        have := mem_loopLt.mp ht
        have h1 : (1 : Int) = ({ demo_config with n_threads := 1, NSTEPS := 1 } : Config).n_threads :=
          rfl
        omega
      subst ht0
      exact fun h => by rw [hc] at h; cases h)
  refine ⟨s, g, h1, ?_, ?_⟩
  · obtain ⟨loc, e1, e2⟩ := h2 0 (by decide)
    refine ⟨loc, e1, ?_⟩
    rw [e2]
    simp only [hc, List.map_cons, List.map_nil, List.sum_cons, List.sum_nil, hs]
    norm_num
  · rw [h3]
    have hw : workers { demo_config with n_threads := 1, NSTEPS := 1 } = [0] := by decide
    simp only [hw, hc, List.map_cons, List.map_nil, List.sum_cons, List.sum_nil, hs]
    norm_num

/-! ## The static partition in `int` arithmetic -/

theorem wrap_of_int {x : Int} (h0 : -2147483648 ≤ x) (h1 : x ≤ INT_MAX) : wrap x = x := by
  unfold INT_MAX at h1
  unfold wrap
  omega

/-- When `n + n_threads - 1` is an `int`, no operation of lines 74-76 leaves the range of
`int`: the machine values of `particles_per_thread`, `first` and `last` are the exact ones. -/
theorem machine_exact {n n_threads : Int} (hn : 0 ≤ n) (ht : 1 ≤ n_threads)
    (hT : n_threads ≤ INT_MAX) (hmax : n + n_threads - 1 ≤ INT_MAX) :
    Machine.particles_per_thread n n_threads = particles_per_thread n n_threads ∧
    (∀ t : Int, 0 ≤ t → t ≤ n_threads →
      Machine.first n n_threads t = first n n_threads t) ∧
    (∀ t : Int, 0 ≤ t → t < n_threads →
      Machine.last n n_threads t = last n n_threads t) := by
  obtain ⟨hp0, hp1, hp2⟩ := particles_per_thread_bounds hn ht
  have hpp : particles_per_thread n n_threads ≤ n_threads * particles_per_thread n n_threads :=
    le_mul_of_one_le_left hp0 ht
  have hsum : wrap (wrap (n + n_threads) - 1) = n + n_threads - 1 := by
    unfold INT_MAX at hmax hT
    unfold wrap
    omega
  have hppt : Machine.particles_per_thread n n_threads = particles_per_thread n n_threads := by
    unfold Machine.particles_per_thread
    rw [hsum]
    exact wrap_of_int (by unfold particles_per_thread at hp0; omega)
      (by unfold particles_per_thread at hpp hp2; omega)
  have hmul : ∀ t : Int, 0 ≤ t → t ≤ n_threads →
      wrap (t * particles_per_thread n n_threads) = t * particles_per_thread n n_threads := by
    intro t h0 h1
    have a0 : 0 ≤ t * particles_per_thread n n_threads := mul_nonneg h0 hp0
    have a1 : t * particles_per_thread n n_threads ≤
        n_threads * particles_per_thread n n_threads := mul_le_mul_of_nonneg_right h1 hp0
    exact wrap_of_int (by omega) (by omega)
  refine ⟨hppt, ?_, ?_⟩
  · intro t h0 h1
    unfold Machine.first first
    rw [hppt, hmul t h0 h1]
  · intro t h0 h1
    unfold Machine.last last
    have hw : wrap (t + 1) = t + 1 := wrap_of_int (by omega) (by omega)
    rw [hppt, hw, hmul (t + 1) (by omega) (by omega)]

/-- C9 at `n = INT_MAX`, `n_threads = 2`: the sum `n + n_threads - 1` is not an `int`,
`particles_per_thread` comes out as `-2^30` where `ceil(n / n_threads)` is `2^30`, the ranges
of both workers are empty, `last(n_threads-1)` is not `n`, and the particle index `0` has no
owner. -/
theorem static_partition_counterexample :
    (0 : Int) ≤ INT_MAX ∧ (1 : Int) ≤ 2 ∧
    ⌈((INT_MAX : Int) : ℚ) / ((2 : Int) : ℚ)⌉ = 1073741824 ∧
    Machine.particles_per_thread INT_MAX 2 = -1073741824 ∧
    Machine.first INT_MAX 2 0 = 0 ∧ Machine.last INT_MAX 2 0 = -1073741824 ∧
    Machine.first INT_MAX 2 1 = -1073741824 ∧ Machine.last INT_MAX 2 1 = -2147483648 ∧
    loopLt (Machine.first INT_MAX 2 0) (Machine.last INT_MAX 2 0) = [] ∧
    loopLt (Machine.first INT_MAX 2 1) (Machine.last INT_MAX 2 1) = [] ∧
    Machine.last INT_MAX 2 (2 - 1) ≠ INT_MAX ∧
    ¬ ∃ t : Int, 0 ≤ t ∧ t < 2 ∧ Machine.first INT_MAX 2 t ≤ 0 ∧ 0 < Machine.last INT_MAX 2 t := by
  have hp : Machine.particles_per_thread INT_MAX 2 = -1073741824 := by decide
  have f0 : Machine.first INT_MAX 2 0 = 0 := by decide
  have l0 : Machine.last INT_MAX 2 0 = -1073741824 := by decide
  have f1 : Machine.first INT_MAX 2 1 = -1073741824 := by decide
  have l1 : Machine.last INT_MAX 2 1 = -2147483648 := by decide
  refine ⟨by decide, by decide, ?_, hp, f0, l0, f1, l1, ?_, ?_, ?_, ?_⟩
  · rw [Int.ceil_eq_iff]
    unfold INT_MAX
    constructor <;> norm_num
  · rw [f0, l0]; exact loopLt_nil (by decide)
  · rw [f1, l1]; exact loopLt_nil (by decide)
  · rw [show (2 : Int) - 1 = 1 from rfl, l1]; decide
  · rintro ⟨t, h0, h1, -, h3⟩
    have ht : t = 0 ∨ t = 1 := by omega
    rcases ht with rfl | rfl
    · rw [l0] at h3; omega
    · rw [l1] at h3; omega

/-- C9: for `n >= 0` and `n_threads >= 1` that are `int`s with `n + n_threads - 1 <= INT_MAX`,
the ranges `[first t, last t)` that the workers `t = 0 .. n_threads-1` compute in `int`
arithmetic are contiguous and cover `[0, n)` exactly: `particles_per_thread` is
`ceil(n / n_threads)`, `first 0 = 0`, `last (n_threads-1) = n`, `last t = first (t+1)`,
`first t <= last t`, every index of `[0, n)` lies in the range of exactly one worker, and no
range holds more than `particles_per_thread` indices. -/
theorem static_partition_exact_cover (n n_threads : Int) (hn : 0 ≤ n) (ht : 1 ≤ n_threads)
    (hT : n_threads ≤ INT_MAX) (hmax : n + n_threads - 1 ≤ INT_MAX) :
    Machine.particles_per_thread n n_threads = ⌈(n : ℚ) / (n_threads : ℚ)⌉ ∧
    Machine.first n n_threads 0 = 0 ∧
    Machine.last n n_threads (n_threads - 1) = n ∧
    (∀ t : Int, 0 ≤ t → t < n_threads →
      Machine.last n n_threads t = Machine.first n n_threads (t + 1)) ∧
    (∀ t : Int, 0 ≤ t → t < n_threads →
      Machine.first n n_threads t ≤ Machine.last n n_threads t) ∧
    (∀ i : Int, 0 ≤ i → i < n →
      ∃! t : Int, 0 ≤ t ∧ t < n_threads ∧
        Machine.first n n_threads t ≤ i ∧ i < Machine.last n n_threads t) ∧
    (∀ t : Int, 0 ≤ t → t < n_threads →
      Machine.last n n_threads t - Machine.first n n_threads t ≤
        Machine.particles_per_thread n n_threads) := by
  obtain ⟨e0, e1, e2⟩ := machine_exact hn ht hT hmax
  obtain ⟨u0, u1, u2, u3, u4, u5, u6⟩ := unbounded_partition_cover n n_threads hn ht
  refine ⟨by rw [e0]; exact u0, by rw [e1 0 (le_refl 0) (by omega)]; exact u1,
    by rw [e2 _ (by omega) (by omega)]; exact u2, ?_, ?_, ?_, ?_⟩
  · intro t h0 h1
    rw [e2 t h0 h1, e1 (t + 1) (by omega) (by omega)]
    exact u3 t
  · intro t h0 h1
    rw [e2 t h0 h1, e1 t h0 (by omega)]
    exact u4 t
  · intro i hi0 hi1
    obtain ⟨t, ⟨h0, h1, h2, h3⟩, huniq⟩ := u5 i hi0 hi1
    refine ⟨t, ⟨h0, h1, by rw [e1 t h0 (by omega)]; exact h2, by rw [e2 t h0 h1]; exact h3⟩, ?_⟩
    rintro t' ⟨k0, k1, k2, k3⟩
    rw [e1 t' k0 (by omega)] at k2
    rw [e2 t' k0 k1] at k3
    exact huniq t' ⟨k0, k1, k2, k3⟩
  · intro t h0 h1
    rw [e2 t h0 h1, e1 t h0 (by omega), e0]
    exact u6 t

/-- Witness for C9: ten particles and four workers. -/
theorem static_partition_exact_cover_witness :
    Machine.particles_per_thread 10 4 = ⌈((10 : Int) : ℚ) / ((4 : Int) : ℚ)⌉ ∧
    Machine.first 10 4 0 = 0 ∧
    Machine.last 10 4 (4 - 1) = 10 ∧
    (∀ t : Int, 0 ≤ t → t < 4 → Machine.last 10 4 t = Machine.first 10 4 (t + 1)) ∧
    (∀ t : Int, 0 ≤ t → t < 4 → Machine.first 10 4 t ≤ Machine.last 10 4 t) ∧
    (∀ i : Int, 0 ≤ i → i < 10 →
      ∃! t : Int, 0 ≤ t ∧ t < 4 ∧ Machine.first 10 4 t ≤ i ∧ i < Machine.last 10 4 t) ∧
    (∀ t : Int, 0 ≤ t → t < 4 →
      Machine.last 10 4 t - Machine.first 10 4 t ≤ Machine.particles_per_thread 10 4) :=
  static_partition_exact_cover 10 4 (by decide) (by decide) (by decide) (by decide)

/-! ## The force on a particle as a fold over its neighbours -/

theorem apply_pull {K : Collab} (hF : force_reads_positions K) (pp pq : particle_t) (d : Diag) :
    (K.apply_force pp pq d).1 = pull K pp.x pp.y (pp.ax, pp.ay) (pq.x, pq.y) :=
  hF _ _ _ _ _ _ rfl rfl rfl rfl rfl rfl

theorem pull_comm {K : Collab} (hF : force_reads_positions K) (hC : force_commutes K)
    (px py : ℚ) (a q₁ q₂ : ℚ × ℚ) :
    pull K px py (pull K px py a q₁) q₂ = pull K px py (pull K px py a q₂) q₁ := by
  have h := hC { x := px, y := py, vx := 0, vy := 0, ax := a.1, ay := a.2, idx_bin := 0 }
    { x := q₁.1, y := q₁.2, vx := 0, vy := 0, ax := 0, ay := 0, idx_bin := 0 }
    { x := q₂.1, y := q₂.2, vx := 0, vy := 0, ax := 0, ay := 0, idx_bin := 0 }
    { dmin := 1, davg := 0, navg := 0 }
  rw [apply_pull hF, apply_pull hF] at h
  exact h

theorem position_with_acc (u : World) (p : Nat) (q q0 : particle_t) (a : ℚ × ℚ)
    (hq : u.particles[p]? = some q0) (hx : q.x = q0.x) (hy : q.y = q0.y) (j : Nat) :
    position (with_acc u p q a) j = position u j := by
  unfold position with_acc
  have hp : p < u.particles.length := (List.getElem?_eq_some.mp hq).1
  by_cases hj : j = p
  · subst hj
    simp only [List.getElem?_set_self hp, hq, hx, hy]
  · simp only [List.getElem?_set_ne (Ne.symm hj)]

theorem with_acc_again (u : World) (p : Nat) (q : particle_t) (a b : ℚ × ℚ) :
    { with_acc u p q a with
      particles := (with_acc u p q a).particles.set p
        { ({ q with ax := a.1, ay := a.2 } : particle_t) with ax := b.1, ay := b.2 } } =
      with_acc u p q b := by
  simp [with_acc, List.set_set]

/-- One call of `apply_force` in the force loop of `p`: the acceleration of `p` becomes the
`pull` of the neighbour, and nothing else changes. -/
theorem force_pair_acc {K : Collab} (hF : force_reads_positions K) (u : World) (p : Nat)
    (q q0 : particle_t) (hq : u.particles[p]? = some q0) (hx : q.x = q0.x) (hy : q.y = q0.y)
    (a : ℚ × ℚ) (d : Diag) (j : Nat) (hj : j < u.particles.length) :
    ∃ d', force_pair K p (with_acc u p q a, d) j =
      some (with_acc u p q (pull K q.x q.y a (position u j)), d') := by
  have hp : p < u.particles.length := (List.getElem?_eq_some.mp hq).1
  have hpp : (with_acc u p q a).particles[p]? = some { q with ax := a.1, ay := a.2 } := by
    simp [with_acc, List.getElem?_set_self hp]
  obtain ⟨pq, hpq⟩ : ∃ pq, (with_acc u p q a).particles[j]? = some pq :=
    ⟨_, List.getElem?_eq_getElem (by simpa [with_acc] using hj)⟩
  have hpos : (pq.x, pq.y) = position u j := by
    rw [← position_with_acc u p q q0 a hq hx hy j]
    simp [position, hpq]
  refine ⟨(K.apply_force { q with ax := a.1, ay := a.2 } pq d).2, ?_⟩
  simp only [force_pair, hpp, hpq]
  rw [apply_pull hF, hpos]
  have := with_acc_again u p q a (pull K q.x q.y (a.1, a.2) (position u j))
  simp only [Prod.mk.eta] at this ⊢
  rw [← this]

theorem force_cell_acc {K : Collab} (hF : force_reads_positions K) (u : World) (p : Nat)
    (q q0 : particle_t) (hq : u.particles[p]? = some q0) (hx : q.x = q0.x) (hy : q.y = q0.y)
    (js : List Nat) (hjs : ∀ j ∈ js, j < u.particles.length) :
    ∀ (a : ℚ × ℚ) (d : Diag), ∃ d', js.foldlM (force_pair K p) (with_acc u p q a, d) =
      some (with_acc u p q ((js.map (position u)).foldl (pull K q.x q.y) a), d') := by
  induction js with
  | nil => intro a d; exact ⟨d, rfl⟩
  | cons j js ih =>
    intro a d
    obtain ⟨d1, h1⟩ := force_pair_acc hF u p q q0 hq hx hy a d j (hjs j (List.mem_cons_self _ _))
    obtain ⟨d2, h2⟩ := ih (fun k hk => hjs k (List.mem_cons_of_mem _ hk))
      (pull K q.x q.y a (position u j)) d1
    refine ⟨d2, ?_⟩
    rw [List.foldlM_cons, h1]
    simpa using h2

theorem force_bins_acc {K : Collab} (hF : force_reads_positions K) (u : World) (p : Nat)
    (q q0 : particle_t) (hq : u.particles[p]? = some q0) (hx : q.x = q0.x) (hy : q.y = q0.y)
    (nbs : List Int) (hnb : ∀ nb ∈ nbs, 0 ≤ nb ∧ nb < u.bins.length)
    (hjs : ∀ nb ∈ nbs, ∀ j ∈ cellOf u nb.toNat, j < u.particles.length) :
    ∀ (a : ℚ × ℚ) (d : Diag), ∃ d', nbs.foldlM (force_bin K p) (with_acc u p q a, d) =
      some (with_acc u p q
        (((nbs.flatMap (fun nb => cellOf u nb.toNat)).map (position u)).foldl
          (pull K q.x q.y) a), d') := by
  induction nbs with
  | nil => intro a d; exact ⟨d, rfl⟩
  | cons nb nbs ih =>
    intro a d
    have hb := hnb nb (List.mem_cons_self _ _)
    obtain ⟨d1, h1⟩ := force_cell_acc hF u p q q0 hq hx hy (cellOf u nb.toNat)
      (hjs nb (List.mem_cons_self _ _)) a d
    obtain ⟨d2, h2⟩ := ih (fun k hk => hnb k (List.mem_cons_of_mem _ hk))
      (fun k hk => hjs k (List.mem_cons_of_mem _ hk))
      (((cellOf u nb.toNat).map (position u)).foldl (pull K q.x q.y) a) d1
    refine ⟨d2, ?_⟩
    have hcell : cellOf (with_acc u p q a) nb.toNat = cellOf u nb.toNat := rfl
    have hlen : (with_acc u p q a).bins.length = u.bins.length := rfl
    rw [List.foldlM_cons]
    simp only [force_bin, hlen, hb, and_self, if_true, hcell, h1]
    simp only [List.flatMap_cons, List.map_append, List.foldl_append]
    simpa using h2

/-- The body of the force loop for the particle `p`: the acceleration of `p` becomes the net
force of its neighbours, and nothing else changes. -/
theorem force_one_acc {c : Config} {K : Collab} (hF : force_reads_positions K)
    (hbpr : 0 ≤ c.bpr) {n : Nat} (u : World) (hu : world_ok c.bpr n u) (p : Int)
    (hp0 : 0 ≤ p) (q : particle_t) (hq : u.particles[p.toNat]? = some q)
    (d : Diag) :
    ∃ d', force_one c K (u, d) p = some (with_acc u p.toNat q (net_force c K u q), d') := by
  have hg := hu.1.in_grid hu.2.1 hq
  have hbpr1 : 1 ≤ c.bpr := by
    by_contra hneg
    have : c.bpr = 0 := by omega
    unfold in_grid at hg
    rw [this] at hg
    omega
  obtain ⟨d', h⟩ := force_bins_acc hF u p.toNat q q hq rfl rfl
    (neighbour_bins (binNum q c.bpr) c.bpr)
    (fun nb hnb => by
      have := neighbour_bins_bounds hbpr1 hg.1 hg.2 hnb
      exact ⟨this.1, by rw [hu.2.1]; exact this.2⟩)
    (fun nb _ j hj => by rw [hu.2.2]; exact hu.stored_lt hj)
    (0, 0) d
  refine ⟨d', ?_⟩
  simp only [force_one, hp0, if_true, hq]
  exact h

theorem net_force_congr (c : Config) (K : Collab) (u w : World) (r q : particle_t)
    (hb : u.bins = w.bins) (hpos : ∀ j, position u j = position w j)
    (hx : r.x = q.x) (hy : r.y = q.y) : net_force c K u r = net_force c K w q := by
  have hbin : binNum r c.bpr = binNum q c.bpr := by unfold binNum; rw [hx, hy]
  have hcell : ∀ b, cellOf u b = cellOf w b := fun b => by unfold cellOf; rw [hb]
  have hfun : position u = position w := funext hpos
  unfold net_force neighbours
  simp only [hbin, hcell, hfun, hx, hy]

theorem net_force_perm {c : Config} {K : Collab} (hF : force_reads_positions K)
    (hC : force_commutes K) (w w' : World) (q q' : particle_t)
    (hb : ∀ b, (cellOf w b).Perm (cellOf w' b)) (hpos : ∀ j, position w j = position w' j)
    (hx : q.x = q'.x) (hy : q.y = q'.y) : net_force c K w q = net_force c K w' q' := by
  have hbin : binNum q c.bpr = binNum q' c.bpr := by unfold binNum; rw [hx, hy]
  have hfun : position w = position w' := funext hpos
  unfold net_force neighbours
  rw [hbin, hfun, hx, hy]
  have hperm : ((neighbour_bins (binNum q' c.bpr) c.bpr).flatMap
      (fun nbin => cellOf w nbin.toNat)).Perm
      ((neighbour_bins (binNum q' c.bpr) c.bpr).flatMap (fun nbin => cellOf w' nbin.toNat)) :=
    List.Perm.flatMap_left _ (fun nb _ => hb nb.toNat)
  exact List.Perm.foldl_eq' (hperm.map (position w'))
    (fun x _ y _ a => pull_comm hF hC q'.x q'.y a x y) (0, 0)

theorem position_eq_of_records {u w : World} (hlen : u.particles.length = w.particles.length)
    (h : ∀ (i : Nat) (q : particle_t), w.particles[i]? = some q →
      ∃ r, u.particles[i]? = some r ∧ r.x = q.x ∧ r.y = q.y) (j : Nat) :
    position u j = position w j := by
  unfold position
  cases hq : w.particles[j]? with
  | none =>
    have : u.particles[j]? = none := by
      rw [List.getElem?_eq_none_iff] at hq ⊢
      omega
    rw [this]
  | some q =>
    obtain ⟨r, hr, hx, hy⟩ := h j q hq
    rw [hr]
    simp only [hx, hy]

/-- A phase in which the body of the force loop is executed for every particle, in any order
and by any worker, leaves in every particle the net force of its neighbours in the world at
the start of the phase, and changes nothing else. -/
theorem force_sweep {S A : Type} {c : Config} {K : Collab} (hF : force_reads_positions K)
    (hbpr : 0 ≤ c.bpr) {n : Nat} (f : S → A → Option S) (wd : S → World) (ix : A → Int)
    (Q : S → Prop) (xs : List A)
    (hf : ∀ (s : S) (a : A), a ∈ xs → Q s →
      ∃ d, ∀ r, force_one c K (wd s, d) (ix a) = some r →
        ∃ s', f s a = some s' ∧ wd s' = r.1 ∧ Q s')
    (hrange : ∀ a ∈ xs, 0 ≤ ix a ∧ ix a < n)
    (hcover : ∀ i : Nat, i < n → ∃ a ∈ xs, ix a = (i : Int))
    (s0 : S) (hQ : Q s0) (hw : world_ok c.bpr n (wd s0)) :
    ∃ s', xs.foldlM f s0 = some s' ∧ Q s' ∧ world_ok c.bpr n (wd s') ∧
      (wd s').bins = (wd s0).bins ∧
      (wd s').particles.map kinematics =
        (wd s0).particles.map (fun q => accelerated q (net_force c K (wd s0) q)) := by
  obtain ⟨s', hfold, hQ', hok', hb', hrec⟩ := foldlM_indexed f xs
    (fun k s => Q s ∧ world_ok c.bpr n (wd s) ∧ (wd s).bins = (wd s0).bins ∧
      ∀ (i : Nat) (q : particle_t), (wd s0).particles[i]? = some q →
        ∃ r, (wd s).particles[i]? = some r ∧ r.x = q.x ∧ r.y = q.y ∧ r.vx = q.vx ∧
          r.vy = q.vy ∧
          ((∃ a ∈ xs.take k, ix a = (i : Int)) → (r.ax, r.ay) = net_force c K (wd s0) q))
    (fun k hk s hP => by
      obtain ⟨hQs, hoks, hbs, hrs⟩ := hP
      have hmem : xs.get ⟨k, hk⟩ ∈ xs := List.get_mem xs k hk
      obtain ⟨hp0, hp1⟩ := hrange _ hmem
      have hpl : (ix (xs.get ⟨k, hk⟩)).toNat < (wd s0).particles.length := by
        rw [hw.2.2]; omega
      obtain ⟨r, hr, hrx, hry, hrvx, hrvy, -⟩ :=
        hrs _ _ (List.getElem?_eq_getElem hpl)
      obtain ⟨d, hd⟩ := hf s _ hmem hQs
      obtain ⟨d', hforce⟩ := force_one_acc hF hbpr (wd s) hoks _ hp0 r hr d
      obtain ⟨s1, hs1, hwd1, hQ1⟩ := hd _ hforce
      have hpos : ∀ j, position (wd s) j = position (wd s0) j :=
        position_eq_of_records (by rw [hoks.2.2, hw.2.2])
          (fun i q hq => by
            obtain ⟨r', h1, h2, h3, -⟩ := hrs i q hq
            exact ⟨r', h1, h2, h3⟩)
      have hnf : net_force c K (wd s) r =
          net_force c K (wd s0) (wd s0).particles[(ix (xs.get ⟨k, hk⟩)).toNat] :=
        net_force_congr c K _ _ _ _ hbs hpos hrx hry
      have hrl : (ix (xs.get ⟨k, hk⟩)).toNat < (wd s).particles.length :=
        (List.getElem?_eq_some.mp hr).1
      refine ⟨s1, hs1, hQ1, ?_, ?_, ?_⟩
      · rw [hwd1]
        exact hoks.set_record_ok hr rfl rfl rfl
      · rw [hwd1]
        exact hbs
      · intro i q hq
        obtain ⟨r', h1, h2, h3, h4, h5, h6⟩ := hrs i q hq
        rw [hwd1]
        by_cases hi : i = (ix (xs.get ⟨k, hk⟩)).toNat
        · subst hi
          rw [hr] at h1
          have e := Option.some.inj h1
          subst e
          rw [List.getElem?_eq_getElem hpl] at hq
          have e2 := Option.some.inj hq
          subst e2
          refine ⟨{ r with ax := (net_force c K (wd s) r).1, ay := (net_force c K (wd s) r).2 },
            by simp only [with_acc]; exact List.getElem?_set_self hrl,
            h2, h3, h4, h5, fun _ => ?_⟩
          exact hnf
        · refine ⟨r', by simp only [with_acc]; rw [List.getElem?_set_ne (Ne.symm hi)]; exact h1,
            h2, h3, h4, h5, ?_⟩
          rintro ⟨a, ha, hia⟩
          rw [List.take_succ, List.mem_append] at ha
          rcases ha with ha | ha
          · exact h6 ⟨a, ha, hia⟩
          · exfalso
            rw [List.getElem?_eq_getElem hk] at ha
            simp only [Option.toList_some, List.mem_singleton] at ha
            subst ha
            apply hi
            simp only [List.get_eq_getElem]
            omega)
    s0 ⟨hQ, hw, rfl, fun i q hq => ⟨q, hq, rfl, rfl, rfl, rfl, fun h => by
      obtain ⟨a, ha, -⟩ := h
      simp at ha⟩⟩
  refine ⟨s', hfold, hQ', hok', hb', ?_⟩
  apply List.ext_getElem?
  intro i
  rw [List.getElem?_map, List.getElem?_map]
  cases hq : (wd s0).particles[i]? with
  | none =>
    have : (wd s').particles[i]? = none := by
      rw [List.getElem?_eq_none_iff] at hq ⊢
      rw [hok'.2.2]
      rw [hw.2.2] at hq
      exact hq
    rw [this]
    rfl
  | some q =>
    obtain ⟨r, h1, h2, h3, h4, h5, h6⟩ := hrec i q hq
    have hi : i < n := by
      rw [← hw.2.2]
      exact (List.getElem?_eq_some.mp hq).1
    obtain ⟨a, ha, hia⟩ := hcover i hi
    have h7 := h6 ⟨a, by rw [List.take_length]; exact ha, hia⟩
    rw [h1]
    simp only [Option.map_some', kinematics, accelerated, h2, h3, h4, h5, ← h7]

/-! ## The migration phase and the kinematic state -/

theorem bin_add_kinematics {w w' : World} {bn : Int} {p : Nat}
    (h : bin_add w bn p = some w') :
    w'.particles.map kinematics = w.particles.map kinematics := by
  obtain ⟨-, q, hq, rfl⟩ := bin_add_some h
  simp only [List.map_set]
  apply set_same
  rw [List.getElem?_map, hq]
  rfl

theorem bin_remove_kinematics {w w' : World} {bn : Int} {p : Nat}
    (h : bin_remove w bn p = some w') :
    w'.particles.map kinematics = w.particles.map kinematics := by
  obtain ⟨-, l, q, ql, -, -, hql, -, -, rfl⟩ := bin_remove_some h
  simp only [List.map_set]
  apply set_same
  rw [List.getElem?_map, hql]
  rfl

/-- The body of the migration loop writes the kinematic state of its particle, as `move`
gives it, and no other. -/
theorem migrate_one_kinematics (c : Config) (K : Collab) (w w' : World) (p : Int)
    (q : particle_t) (hp0 : 0 ≤ p) (hq : w.particles[p.toNat]? = some q)
    (h : migrate_one c K w p = some w') :
    w'.particles.map kinematics =
      (w.particles.map kinematics).set p.toNat (kinematics (move K q)) := by
  rw [migrate_one_eq c K w p q hp0 hq] at h
  have hafter : (after_move w p (move K q)).particles.map kinematics =
      (w.particles.map kinematics).set p.toNat (kinematics (move K q)) := by
    simp only [after_move, List.map_set]
  split_ifs at h with hne
  · cases hrem : bin_remove (after_move w p (move K q)) (binNum q c.bpr) p.toNat with
    | none => rw [hrem] at h; cases h
    | some w2 =>
      rw [hrem] at h
      have hadd : bin_add w2 (binNum (move K q) c.bpr) p.toNat = some w' := h
      rw [bin_add_kinematics hadd, bin_remove_kinematics hrem, hafter]
  · have e := Option.some.inj h
    rw [← e, hafter]

theorem kinematics_move {K : Collab} (hM : move_reads_kinematics K) {q r : particle_t}
    (h : kinematics r = kinematics q) : kinematics (move K r) = kinematics (move K q) := by
  have e := hM r q h
  unfold kinematics at h
  simp only [Prod.mk.injEq] at h
  simp only [kinematics, move, e, h]

/-- A phase in which the body of the migration loop is executed once for every particle, in
any order and by any worker, ends with a consistent bin store in which every particle has
the kinematic state that `move` gives it. -/
theorem migrate_sweep {S A : Type} {c : Config} {K : Collab} (hM : move_reads_kinematics K)
    (hmove : move_in_grid K c.bpr) {n : Nat} (f : S → A → Option S) (wd : S → World)
    (ix : A → Int) (Q : S → Prop) (xs : List A)
    (hf : ∀ (s : S) (a : A), a ∈ xs → Q s →
      ∀ W, migrate_one c K (wd s) (ix a) = some W → ∃ s', f s a = some s' ∧ wd s' = W ∧ Q s')
    (hrange : ∀ a ∈ xs, 0 ≤ ix a ∧ ix a < n)
    (hnodup : (xs.map ix).Nodup)
    (hcover : ∀ i : Nat, i < n → ∃ a ∈ xs, ix a = (i : Int))
    (s0 : S) (hQ : Q s0) (hw : world_ok c.bpr n (wd s0)) :
    ∃ s', xs.foldlM f s0 = some s' ∧ Q s' ∧ world_ok c.bpr n (wd s') ∧
      (wd s').particles.map kinematics =
        (wd s0).particles.map (fun q => kinematics (move K q)) := by
  obtain ⟨s', hfold, hQ', hok', hrec⟩ := foldlM_indexed f xs
    (fun k s => Q s ∧ world_ok c.bpr n (wd s) ∧
      ∀ (i : Nat) (q : particle_t), (wd s0).particles[i]? = some q →
        ∃ r, (wd s).particles[i]? = some r ∧
          ((∃ a ∈ xs.take k, ix a = (i : Int)) → kinematics r = kinematics (move K q)) ∧
          ((¬ ∃ a ∈ xs.take k, ix a = (i : Int)) → kinematics r = kinematics q))
    (fun k hk s hP => by
      obtain ⟨hQs, hoks, hrs⟩ := hP
      have hmem : xs.get ⟨k, hk⟩ ∈ xs := List.get_mem xs k hk
      obtain ⟨hp0, hp1⟩ := hrange _ hmem
      have hpl : (ix (xs.get ⟨k, hk⟩)).toNat < (wd s0).particles.length := by
        rw [hw.2.2]; omega
      obtain ⟨r, hr, -, hrk⟩ := hrs _ _ (List.getElem?_eq_getElem hpl)
      have hcast : (((ix (xs.get ⟨k, hk⟩)).toNat : Nat) : Int) = ix (xs.get ⟨k, hk⟩) :=
        Int.toNat_of_nonneg hp0
      have hfresh : ¬ ∃ a ∈ xs.take k, ix a = (((ix (xs.get ⟨k, hk⟩)).toNat : Nat) : Int) := by
        rintro ⟨a, ha, hia⟩
        obtain ⟨j, hj, rfl⟩ := List.getElem_of_mem ha
        rw [List.length_take] at hj
        have hjk : j < k := by omega
        have hne := (List.nodup_iff_getElem?_ne_getElem?).mp hnodup j k hjk
          (by rw [List.length_map]; exact hk)
        apply hne
        rw [List.getElem?_map, List.getElem?_map, List.getElem?_eq_getElem hk,
          List.getElem?_eq_getElem (by omega)]
        simp only [Option.map_some', Option.some.injEq]
        rw [hcast, List.getElem_take] at hia
        simpa using hia
      have hkin := hrk hfresh
      obtain ⟨w1, hm, hcons, hbl, hplen⟩ := migrate_one_consistent c K (wd s) _ hoks.1 hp0
        (by rw [hoks.2.2]; exact hp1)
        (fun q hq => by
          have := hmove q (hoks.1.in_grid hoks.2.1 hq)
          exact ⟨this.1, by rw [hoks.2.1]; exact this.2⟩)
      obtain ⟨s1, hs1, hwd1, hQ1⟩ := hf s _ hmem hQs w1 hm
      have hk1 := migrate_one_kinematics c K (wd s) w1 _ r hp0 hr hm
      refine ⟨s1, hs1, hQ1, ?_, ?_⟩
      · rw [hwd1]
        exact ⟨hcons, by rw [hbl]; exact hoks.2.1, by rw [hplen]; exact hoks.2.2⟩
      · intro i q hq
        obtain ⟨r', h1, h2, h3⟩ := hrs i q hq
        have hil : i < w1.particles.length := by
          rw [hplen]
          exact (List.getElem?_eq_some.mp h1).1
        have hget := congrArg (fun l => l[i]?) hk1
        simp only [List.getElem?_map, List.getElem?_eq_getElem hil, Option.map_some'] at hget
        rw [hwd1]
        refine ⟨w1.particles[i], List.getElem?_eq_getElem hil, ?_, ?_⟩
        · rintro ⟨a, ha, hia⟩
          by_cases hi : i = (ix (xs.get ⟨k, hk⟩)).toNat
          · subst hi
            rw [List.getElem?_set_self (by rw [List.length_map]; exact
              (List.getElem?_eq_some.mp hr).1)] at hget
            rw [List.getElem?_eq_getElem hpl] at hq
            have e := Option.some.inj hq
            subst e
            rw [Option.some.inj hget]
            exact kinematics_move hM hkin
          · rw [List.getElem?_set_ne (Ne.symm hi), List.getElem?_map, h1] at hget
            rw [Option.some.inj hget]
            apply h2
            rw [List.take_succ, List.mem_append] at ha
            rcases ha with ha | ha
            · exact ⟨a, ha, hia⟩
            · exfalso
              rw [List.getElem?_eq_getElem hk] at ha
              simp only [Option.toList_some, List.mem_singleton] at ha
              subst ha
              apply hi
              simp only [List.get_eq_getElem]
              omega
        · intro hnot
          have hi : i ≠ (ix (xs.get ⟨k, hk⟩)).toNat := by
            intro hi
            apply hnot
            refine ⟨xs.get ⟨k, hk⟩, ?_, by rw [hi]; exact hcast.symm⟩
            rw [List.take_succ, List.mem_append]
            right
            rw [List.getElem?_eq_getElem hk]
            simp
          rw [List.getElem?_set_ne (Ne.symm hi), List.getElem?_map, h1] at hget
          rw [Option.some.inj hget]
          apply h3
          rintro ⟨a, ha, hia⟩
          apply hnot
          refine ⟨a, ?_, hia⟩
          rw [List.take_succ, List.mem_append]
          exact Or.inl ha)
    s0 ⟨hQ, hw, fun i q hq => ⟨q, hq, fun h => by
      obtain ⟨a, ha, -⟩ := h
      simp at ha, fun _ => rfl⟩⟩
  refine ⟨s', hfold, hQ', hok', ?_⟩
  apply List.ext_getElem?
  intro i
  rw [List.getElem?_map, List.getElem?_map]
  cases hq : (wd s0).particles[i]? with
  | none =>
    have : (wd s').particles[i]? = none := by
      rw [List.getElem?_eq_none_iff] at hq ⊢
      rw [hok'.2.2]
      rw [hw.2.2] at hq
      exact hq
    rw [this]
    rfl
  | some q =>
    obtain ⟨r, h1, h2, -⟩ := hrec i q hq
    have hi : i < n := by
      rw [← hw.2.2]
      exact (List.getElem?_eq_some.mp hq).1
    obtain ⟨a, ha, hia⟩ := hcover i hi
    have h7 := h2 ⟨a, by rw [List.take_length]; exact ha, hia⟩
    rw [h1]
    simp only [Option.map_some', h7]

/-! ## Worlds with the same physics -/

theorem Stored.cell_nodup {loc : Nat → Option Int} {w : World} (h : Stored loc w) (b : Nat) :
    (cellOf w b).Nodup := by
  rw [List.nodup_iff_getElem?_ne_getElem?]
  intro i j hij hj heq
  rw [List.getElem?_eq_getElem hj] at heq
  obtain ⟨-, pq, h1, h2⟩ := h.1 _ _ _ heq
  obtain ⟨-, pq', h3, h4⟩ := h.1 _ _ _ (List.getElem?_eq_getElem hj)
  rw [h1] at h3
  cases h3
  omega

theorem consistent.mem_cell {w : World} {bpr : Int} (h : consistent w bpr) (b q : Nat) :
    q ∈ cellOf w b ↔ cell_ids w bpr q = some (b : Int) := by
  constructor
  · intro hq
    obtain ⟨k, hk⟩ := List.getElem?_of_mem hq
    exact (h.1 b k q hk).1
  · intro hq
    obtain ⟨pq, -, -, -, hat⟩ := h.2 q _ hq
    simpa using List.getElem?_mem hat

theorem cell_ids_of_kinematics {w w' : World} (bpr : Int)
    (h : w.particles.map kinematics = w'.particles.map kinematics) (q : Nat) :
    cell_ids w bpr q = cell_ids w' bpr q := by
  have e := congrArg (fun l => l[q]?) h
  simp only [List.getElem?_map] at e
  unfold cell_ids
  cases h1 : w.particles[q]? with
  | none =>
    rw [h1] at e
    cases h2 : w'.particles[q]? with
    | none => rfl
    | some r' => rw [h2] at e; cases e
  | some r =>
    rw [h1] at e
    cases h2 : w'.particles[q]? with
    | none => rw [h2] at e; cases e
    | some r' =>
      rw [h2] at e
      have e2 := Option.some.inj e
      unfold kinematics at e2
      simp only [Prod.mk.injEq] at e2
      simp only [Option.map_some', binNum, e2]

/-- Two consistent bin stores for the same positions hold the same particles in every bin. -/
theorem consistent_perm {w w' : World} {bpr : Int} (h : consistent w bpr)
    (h' : consistent w' bpr) (hk : w.particles.map kinematics = w'.particles.map kinematics)
    (b : Nat) : (cellOf w b).Perm (cellOf w' b) := by
  rw [List.perm_ext_iff_of_nodup (Stored.cell_nodup h b) (Stored.cell_nodup h' b)]
  intro q
  rw [h.mem_cell, h'.mem_cell, cell_ids_of_kinematics bpr hk]

theorem position_of_kinematics {w w' : World}
    (h : w.particles.map kinematics = w'.particles.map kinematics) (j : Nat) :
    position w j = position w' j := by
  have e := congrArg (fun l => l[j]?) h
  simp only [List.getElem?_map] at e
  unfold position
  cases h1 : w.particles[j]? with
  | none =>
    rw [h1] at e
    cases h2 : w'.particles[j]? with
    | none => rfl
    | some r' => rw [h2] at e; cases e
  | some r =>
    rw [h1] at e
    cases h2 : w'.particles[j]? with
    | none => rw [h2] at e; cases e
    | some r' =>
      rw [h2] at e
      have e2 := Option.some.inj e
      unfold kinematics at e2
      simp only [Prod.mk.injEq] at e2
      simp only [e2]

theorem map_eq_of_kinematics {β : Type} (F F' : particle_t → β) :
    ∀ (l l' : List particle_t), l.map kinematics = l'.map kinematics →
      (∀ q q', kinematics q = kinematics q' → F q = F' q') → l.map F = l'.map F' := by
  intro l
  induction l with
  | nil =>
    intro l' h _
    cases l' with
    | nil => rfl
    | cons x xs => cases h
  | cons q l ih =>
    intro l' h hF
    cases l' with
    | nil => cases h
    | cons q' l' =>
      simp only [List.map_cons, List.cons.injEq] at h ⊢
      exact ⟨hF q q' h.1, ih l' h.2 hF⟩

/-- One step keeps the physics equal: if two worlds hold the same physics, the worlds that a
force phase and a migration phase make of them hold the same physics. -/
theorem same_physics_step {c : Config} {K : Collab} (hF : force_reads_positions K)
    (hC : force_commutes K) (hM : move_reads_kinematics K) {n : Nat}
    {w w' u u' v v' : World} (hs : same_physics w w')
    (hu : u.particles.map kinematics =
      w.particles.map (fun q => accelerated q (net_force c K w q)))
    (hu' : u'.particles.map kinematics =
      w'.particles.map (fun q => accelerated q (net_force c K w' q)))
    (hv : v.particles.map kinematics = u.particles.map (fun q => kinematics (move K q)))
    (hv' : v'.particles.map kinematics = u'.particles.map (fun q => kinematics (move K q)))
    (hok : world_ok c.bpr n v) (hok' : world_ok c.bpr n v') : same_physics v v' := by
  obtain ⟨hk, -, hb⟩ := hs
  have huu : u.particles.map kinematics = u'.particles.map kinematics := by
    rw [hu, hu']
    apply map_eq_of_kinematics _ _ _ _ hk
    intro q q' hq
    have hn : net_force c K w q = net_force c K w' q' := by
      unfold kinematics at hq
      simp only [Prod.mk.injEq] at hq
      exact net_force_perm hF hC w w' q q' hb (position_of_kinematics hk) hq.1 hq.2.1
    unfold kinematics at hq
    simp only [Prod.mk.injEq] at hq
    simp only [accelerated, hn, hq]
  have hvv : v.particles.map kinematics = v'.particles.map kinematics := by
    rw [hv, hv']
    exact map_eq_of_kinematics _ _ _ _ huu (fun q q' hq => kinematics_move hM hq)
  refine ⟨hvv, ?_, consistent_perm hok.1 hok'.1 hvv⟩
  have h1 := hok.2.1
  have h2 := hok'.2.1
  omega

/-! ## The loop bodies of all workers -/

theorem ranges_concat (n T : Int) (hn : 0 ≤ n) (hT : 1 ≤ T) (k : Nat) (hk : (k : Int) ≤ T) :
    (loopLt 0 (k : Int)).flatMap (fun t => loopLt (first n T t) (last n T t)) =
      loopLt 0 (first n T (k : Int)) := by
  induction k with
  | zero =>
    simp only [Nat.cast_zero]
    rw [first_zero n T hn, loopLt_nil (le_refl 0)]
    rfl
  | succ k ih =>
    have e : ((k + 1 : Nat) : Int) = (k : Int) + 1 := by push_cast; rfl
    rw [first_succ, e, loopLt_snoc (by omega), List.flatMap_append, ih (by omega)]
    simp only [List.flatMap_cons, List.flatMap_nil, List.append_nil]
    have h0 := (@first_nonneg n T hn hT (k : Int) (by omega)).1
    exact loopLt_append h0 (first_le_last hn hT _).1

/-- When `n + n_threads - 1` is an `int`, the loop bodies of all workers are the bodies for
the particles `0 .. n-1`, each once, and each is run by a worker `0 .. n_threads-1`. -/
theorem bodies_cover (c : Config) (n : Nat) (hT : 1 ≤ c.n_threads)
    (hT' : c.n_threads ≤ INT_MAX) (hmax : (n : Int) + c.n_threads - 1 ≤ INT_MAX) :
    (bodies c n).map Prod.snd = loopLt 0 (n : Int) ∧ ∀ e ∈ bodies c n, e.1 ∈ workers c := by
  obtain ⟨-, e1, e2⟩ := @machine_exact (n : Int) c.n_threads (by omega) hT hT' hmax
  constructor
  · unfold bodies
    rw [List.map_flatMap]
    have hcongr : (workers c).flatMap (fun t =>
        ((loopLt (Machine.first n c.n_threads t) (Machine.last n c.n_threads t)).map
          (fun p => (t, p))).map Prod.snd) =
        (workers c).flatMap (fun t => loopLt (first n c.n_threads t) (last n c.n_threads t)) := by
      apply List.flatMap_congr
      intro t ht
      obtain ⟨h0, h1⟩ := mem_loopLt.mp ht
      rw [e1 t h0 (by omega), e2 t h0 h1, List.map_map]
      simp
    rw [hcongr]
    have hw : workers c = loopLt 0 ((c.n_threads.toNat : Nat) : Int) := by
      unfold workers
      rw [Int.toNat_of_nonneg (by omega)]
    rw [hw, ranges_concat (n : Int) c.n_threads (by omega) hT c.n_threads.toNat
      (by rw [Int.toNat_of_nonneg (by omega)]), Int.toNat_of_nonneg (by omega),
      first_top _ _ (by omega) hT]
  · intro e he
    unfold bodies at he
    rw [List.mem_flatMap] at he
    obtain ⟨t, ht, he⟩ := he
    rw [List.mem_map] at he
    obtain ⟨p, -, rfl⟩ := he
    exact ht

/-- An order of the loop bodies of all workers visits the particles `0 .. n-1`, each once. -/
theorem fair_order (c : Config) (n : Nat) (hT : 1 ≤ c.n_threads)
    (hT' : c.n_threads ≤ INT_MAX) (hmax : (n : Int) + c.n_threads - 1 ≤ INT_MAX)
    (es : List (Int × Int)) (hes : es.Perm (bodies c n)) :
    (∀ e ∈ es, e.1 ∈ workers c) ∧ (∀ e ∈ es, 0 ≤ e.2 ∧ e.2 < n) ∧ (es.map Prod.snd).Nodup ∧
      ∀ i : Nat, i < n → ∃ e ∈ es, e.2 = (i : Int) := by
  obtain ⟨h1, h2⟩ := bodies_cover c n hT hT' hmax
  have hp : (es.map Prod.snd).Perm (loopLt 0 (n : Int)) := by
    rw [← h1]
    exact hes.map _
  refine ⟨fun e he => h2 e (hes.mem_iff.mp he), ?_, ?_, ?_⟩
  · intro e he
    have : e.2 ∈ loopLt 0 (n : Int) := hp.mem_iff.mp (List.mem_map_of_mem _ he)
    exact mem_loopLt.mp this
  · exact (hp.nodup_iff).mpr (nodup_loopLt 0 _)
  · intro i hi
    have : (i : Int) ∈ es.map Prod.snd := hp.mem_iff.mpr (mem_loopLt.mpr ⟨by omega, by omega⟩)
    rw [List.mem_map] at this
    obtain ⟨e, he, hei⟩ := this
    exact ⟨e, he, hei⟩

theorem foldlM_both {σ τ α : Type} (R : σ → τ → Prop) (f : σ → α → Option σ)
    (g : τ → α → Option τ) (xs : List α)
    (hstep : ∀ (x : α) (s : σ) (s' : τ), x ∈ xs → R s s' →
      ∃ a b, f s x = some a ∧ g s' x = some b ∧ R a b)
    (s : σ) (s' : τ) (h : R s s') :
    ∃ a b, xs.foldlM f s = some a ∧ xs.foldlM g s' = some b ∧ R a b := by
  induction xs generalizing s s' with
  | nil => exact ⟨s, s', rfl, rfl, h⟩
  | cons x xs ih =>
    obtain ⟨a, b, h1, h2, h3⟩ := hstep x s s' (List.mem_cons_self _ _) h
    obtain ⟨a', b', k1, k2, k3⟩ := ih (fun y t t' hy => hstep y t t' (List.mem_cons_of_mem _ hy))
      a b h3
    refine ⟨a', b', ?_, ?_, k3⟩
    · rw [List.foldlM_cons, h1]; exact k1
    · rw [List.foldlM_cons, h2]; exact k2

/-! ## One step, sequentially and under a schedule -/

/-- One step of the sequential run: the force phase and the migration phase succeed, and the
particles end with the kinematic state that `move` makes of the net forces. -/
theorem sequential_step_spec {c : Config} {K : Collab} (hF : force_reads_positions K)
    (hM : move_reads_kinematics K) (hbpr : 0 ≤ c.bpr) (hmove : move_in_grid K c.bpr)
    {n : Nat} (w : World) (hw : world_ok c.bpr n w) :
    ∃ (u v : World), sequential_step c K w = some v ∧ world_ok c.bpr n v ∧
      u.particles.map kinematics =
        w.particles.map (fun q => accelerated q (net_force c K w q)) ∧
      v.particles.map kinematics = u.particles.map (fun q => kinematics (move K q)) := by
  have hrange : ∀ a ∈ loopLt 0 (w.particles.length : Int), 0 ≤ id a ∧ id a < (n : Int) := by
    intro a ha
    rw [hw.2.2] at ha
    exact mem_loopLt.mp ha
  have hcover : ∀ i : Nat, i < n → ∃ a ∈ loopLt 0 (w.particles.length : Int), id a = (i : Int) := by
    intro i hi
    exact ⟨(i : Int), mem_loopLt.mpr ⟨by omega, by rw [hw.2.2]; omega⟩, rfl⟩
  obtain ⟨s1, hf1, -, hok1, -, hk1⟩ := force_sweep hF hbpr (force_one c K) Prod.fst id
    (fun _ => True) (loopLt 0 (w.particles.length : Int))
    (fun s a _ _ => ⟨s.2, fun r hr => ⟨r, hr, rfl, trivial⟩⟩)
    hrange hcover (w, { dmin := 1, davg := 0, navg := 0 }) trivial hw
  have hlen1 : s1.1.particles.length = w.particles.length := by rw [hok1.2.2, hw.2.2]
  obtain ⟨v, hf2, -, hok2, hk2⟩ := migrate_sweep hM hmove (migrate_one c K) id id
    (fun _ => True) (loopLt 0 (w.particles.length : Int))
    (fun s a _ _ W hW => ⟨W, hW, rfl, trivial⟩)
    hrange (by rw [List.map_id]; exact nodup_loopLt _ _) hcover s1.1 trivial hok1
  refine ⟨s1.1, v, ?_, hok2, hk1, hk2⟩
  unfold sequential_step sequential_force sequential_migrate
  rw [hf1]
  simp only [Option.map_some', Option.some_bind, hlen1]
  exact hf2

theorem save_all_world (c : Config) (step : Int) (s : Sim) :
    ∃ s', (workers c).foldlM (save_phase c step) s = some s' ∧ s'.world = s.world ∧
      s'.locals = s.locals :=
  ⟨_, save_all_eq c step s, rfl, rfl⟩

/-- One step under a schedule that runs every loop body once: the step succeeds, and the
particles end with the kinematic state that `move` makes of the net forces. -/
theorem scheduled_step_spec {c : Config} {K : Collab} (hF : force_reads_positions K)
    (hM : move_reads_kinematics K) (hbpr : 0 ≤ c.bpr) (hmove : move_in_grid K c.bpr)
    {n : Nat} (hT : 1 ≤ c.n_threads) (hT' : c.n_threads ≤ INT_MAX)
    (hmax : (n : Int) + c.n_threads - 1 ≤ INT_MAX) (σ : Schedule) (hσ : fair c n σ)
    (step : Int) (s : Sim) (hw : world_ok c.bpr n s.world)
    (hl : s.locals.length = c.n_threads.toNat) :
    ∃ (u : World) (s' : Sim), scheduled_step c K σ s step = some s' ∧ world_ok c.bpr n s'.world ∧
      s'.locals.length = c.n_threads.toNat ∧
      u.particles.map kinematics =
        s.world.particles.map (fun q => accelerated q (net_force c K s.world q)) ∧
      s'.world.particles.map kinematics = u.particles.map (fun q => kinematics (move K q)) := by
  obtain ⟨f1, f2, -, f4⟩ := fair_order c n hT hT' hmax _ (hσ step).1
  obtain ⟨m1, m2, m3, m4⟩ := fair_order c n hT hT' hmax _ (hσ step).2
  obtain ⟨s1, hf1, hl1, hok1, -, hk1⟩ := force_sweep hF hbpr (force_body c K)
    (fun t : Sim => t.world) Prod.snd (fun t : Sim => t.locals.length = c.n_threads.toNat)
    (σ.force step)
    (fun t a ha hQ => by
      obtain ⟨h0, h1⟩ := mem_loopLt.mp (f1 a ha)
      have hlt : a.1.toNat < t.locals.length := by omega
      refine ⟨(t.locals[a.1.toNat]).toDiag, fun r hr => ?_⟩
      refine ⟨{ t with world := r.1,
                       locals := t.locals.set a.1.toNat
                         { t.locals[a.1.toNat] with toDiag := r.2 } }, ?_, rfl, ?_⟩
      · simp only [force_body, h0, if_true, List.getElem?_eq_getElem hlt, hr]
      · simpa using hQ)
    f2 f4 (reset_counters s) (by simpa [reset_counters] using hl) hw
  obtain ⟨s2, hf2, hl2, hok2, hk2⟩ := migrate_sweep hM hmove (migrate_body c K)
    (fun t : Sim => t.world) Prod.snd (fun t : Sim => t.locals.length = c.n_threads.toNat)
    (σ.migrate step)
    (fun t a _ hQ W hW => ⟨{ t with world := W }, by simp only [migrate_body, hW], rfl, hQ⟩)
    m2 m3 m4 (stats_all c s1) (by simpa [stats_all] using hl1) hok1
  obtain ⟨s3, hf3, hw3, hl3⟩ := save_all_world c step s2
  refine ⟨s1.world, s3, ?_, by rw [hw3]; exact hok2, by rw [hl3]; exact hl2, hk1, ?_⟩
  · simp only [scheduled_step, hf1, hf2, hf3]
  · rw [hw3]
    exact hk2

/-! ## Independence of the partition and of the schedule -/

theorem same_physics_refl (w : World) : same_physics w w :=
  ⟨rfl, rfl, fun _ => List.Perm.refl _⟩

/-- C15: for a fixed initial particle array, grid and step count, the run with one worker
and the run with any number `p >= 1` of workers, under any schedule that executes every
loop body of every worker once in each phase of each step (every interleaving of the
loops of the workers, body by body, is one), both reach their end, and they end with the
same physics: every
particle has the same position, velocity and acceleration, and every bin holds the same
particles. The step count is arbitrary, so this holds after every step. It is stated over
exact arithmetic, for `int` ranges that do not overflow, for cell ids that stay in the grid,
and for collaborators as the interface describes them: the force is accumulated from the
positions, in any order of the neighbours, and `move` reads position, velocity and
acceleration. The order of the particles inside a bin and the `idx_bin` fields are not part
of the physics: they depend on the schedule. -/
theorem partition_independence (c : Config) (K : Collab) (particles : List particle_t)
    (p : Int) (σ : Schedule) (hp : 1 ≤ p) (hp' : p ≤ INT_MAX)
    (hmax : (particles.length : Int) + p - 1 ≤ INT_MAX)
    (hbpr : 0 ≤ c.bpr) (hgrid : ∀ q ∈ particles, in_grid q c.bpr)
    (hmove : move_in_grid K c.bpr)
    (hF : force_reads_positions K) (hC : force_commutes K) (hM : move_reads_kinematics K)
    (hσ : fair { c with n_threads := p } (particles.length : Int) σ) :
    ∃ s₁ sₚ, run { c with n_threads := 1 } K particles = some s₁ ∧
      scheduled_run { c with n_threads := p } K σ particles = some sₚ ∧
      same_physics s₁.world sₚ.world := by
  have hK : force_ignores_counters K := fun a b d d' => hF a a b b d d' rfl rfl rfl rfl rfl rfl
  obtain ⟨w0, hw0, hcons, hbl, hpl, -⟩ := init_bins_consistent particles c.bpr hgrid
  have hok0 : world_ok c.bpr particles.length w0 := ⟨hcons, hbl, hpl⟩
  obtain ⟨w1, sp, h1, h2, hok1, hok2, hsame, -⟩ := foldlM_both
    (fun (w : World) (s : Sim) => world_ok c.bpr particles.length w ∧
      world_ok c.bpr particles.length s.world ∧ same_physics w s.world ∧
      s.locals.length = p.toNat)
    (fun u _ => sequential_step c K u) (scheduled_step { c with n_threads := p } K σ)
    (loopLt 0 c.NSTEPS)
    (fun step w s _ hR => by
      obtain ⟨hw, hs, hph, hl⟩ := hR
      obtain ⟨u, v, e1, e2, e3, e4⟩ := sequential_step_spec hF hM hbpr hmove w hw
      obtain ⟨u', s', k1, k2, k3, k4, k5⟩ :=
        @scheduled_step_spec { c with n_threads := p } K hF hM hbpr hmove particles.length
          hp hp' hmax σ hσ step s hs hl
      exact ⟨v, s', e1, k1, e2, k2,
        @same_physics_step c K hF hC hM particles.length w s.world u u' v s'.world hph e3 k4
          e4 k5 e2 k2, k3⟩)
    w0 { world := w0, locals := List.replicate p.toNat init_locals, saves := [] }
    ⟨hok0, hok0, same_physics_refl w0, by simp⟩
  have hseq : sequential_run { c with n_threads := 1 } K particles = some w1 := by
    unfold sequential_run
    rw [hw0]
    exact h1
  have hrun := run_world { c with n_threads := 1 } K particles hK (le_refl 1)
  rw [hseq] at hrun
  cases hr : run { c with n_threads := 1 } K particles with
  | none => rw [hr] at hrun; cases hrun
  | some s1 =>
    rw [hr] at hrun
    have e : s1.world = w1 := Option.some.inj hrun
    refine ⟨s1, sp, rfl, ?_, by rw [e]; exact hsame⟩
    unfold scheduled_run init_sim
    rw [hw0]
    exact h2

theorem demo_collab_reads_positions : force_reads_positions demo_collab := by
  intro p p' q q' d d' _ _ hax hay hqx hqy
  simp only [demo_collab, hax, hay, hqx, hqy]

theorem demo_collab_commutes : force_commutes demo_collab := by
  intro p q₁ q₂ d
  simp only [demo_collab, Prod.mk.injEq]
  constructor <;> ring

theorem demo_collab_reads_kinematics : move_reads_kinematics demo_collab := by
  intro q q' h
  unfold kinematics at h
  simp only [Prod.mk.injEq] at h
  simp only [demo_collab, h]

theorem demo_schedule_fair :
    fair { demo_config with n_threads := 2 } (demo_particles.length : Int) demo_schedule := by
  have hf : ([(1, 3), (0, 0), (1, 4), (0, 1), (0, 2)] : List (Int × Int)).Perm
      (bodies { demo_config with n_threads := 2 } (demo_particles.length : Int)) := by decide
  have hm : ([(1, 3), (1, 4), (0, 0), (0, 1), (0, 2)] : List (Int × Int)).Perm
      (bodies { demo_config with n_threads := 2 } (demo_particles.length : Int)) := by decide
  exact fun _ => ⟨hf, hm⟩

/-- Witness for C15: the five particles on the 3 x 3 grid, one worker against two workers
whose force bodies alternate and whose migration loops run in the order 1, 0. -/
theorem partition_independence_witness :
    ∃ s₁ sₚ, run { demo_config with n_threads := 1 } demo_collab demo_particles = some s₁ ∧
      scheduled_run { demo_config with n_threads := 2 } demo_collab demo_schedule
        demo_particles = some sₚ ∧
      same_physics s₁.world sₚ.world :=
  partition_independence demo_config demo_collab demo_particles 2 demo_schedule (by decide)
    (by decide) (by decide) (by decide) demo_particles_in_grid demo_collab_in_grid
    demo_collab_reads_positions demo_collab_commutes demo_collab_reads_kinematics
    demo_schedule_fair

/-- The order of the particles inside a bin is not part of the physics: after one step of
the five particles, bin 8 holds the particles `0, 1, 4` in the order `4, 0, 1` under the
schedule of two workers and in the order `1, 0, 4` with one worker. -/
theorem container_order_depends_on_schedule :
    (scheduled_run { demo_config with n_threads := 2, NSTEPS := 1 } demo_collab demo_schedule
      demo_particles).map (fun s => cellOf s.world 8) = some [4, 0, 1] ∧
    (run { demo_config with n_threads := 1, NSTEPS := 1 } demo_collab demo_particles).map
      (fun s => cellOf s.world 8) = some [1, 0, 4] := by
  decide!

end Pthreads
